import Mathlib

/-!
# Aquarians: binary archive codec, prototype registry, class layering, transport
and simulation module

A shallow embedding of `aqlib/BinaryArchive.cpp`, `aqlib/StringTokenizer.cpp`,
`aqlib/DefaultObjectFactory.cpp`, the serialization pattern of
`aqlib/Serializable.hpp`, the two sides of a connection, `net/ReceiverThread.cpp`
over `net/Socket.cpp` and the queue of `net/SenderThread.cpp`,
`net/ConnectionManager.cpp`, `simulation/Module.cpp` and the loop of
`BlackScholes::simulate`, followed by theorems about them.

Conventions of the embedding.

* A C++ `char` is represented by its 8-bit pattern, a natural number below 256;
  `std::string` is a list of such patterns (`CString`).
* An `int32_t` is an `Int` in the two's-complement range; the C operators on it
  are `and32`, `or32`, `shl32`, `sar32`, defined on the 32-bit pattern.
* A method that mutates an archive and may throw is a function from the archive
  to a pair: what the call produced (`Except Exception _`) and the archive as the
  call left it, also when it threw.
* The argument `name` of the archive methods goes into log lines and exception
  messages only; it is left out, and so is logging.
* The memory that a read archive is constructed on is the list `mData`, which may
  go on behind the `mLength` bytes of the archive; a copy that runs past the
  `mLength` bytes takes what the list holds there. The archives that `readObject`
  and the generated `readFrom` construct on the copy of a string have nothing
  behind the copy; `readObjectWithMemory` has the memory behind it as an argument.
-/

namespace aqlib

/-! ## Machine integers -/

/-- The 32-bit two's-complement pattern of an integer. -/
def toBits32 (v : Int) : Nat := (v % 4294967296).toNat

/-- The `int32_t` whose two's-complement pattern is the low 32 bits of `n`. -/
def ofBits32 (n : Nat) : Int :=
  if n % 4294967296 < 2147483648 then ((n % 4294967296 : Nat) : Int)
  else ((n % 4294967296 : Nat) : Int) - 4294967296

/-- Conversion to `int32_t` (for example of a `std::size_t`). -/
def toInt32 (v : Int) : Int := ofBits32 (toBits32 v)

/-- The range of `int32_t`. -/
def IsInt32 (v : Int) : Prop := -2147483648 ≤ v ∧ v ≤ 2147483647

instance (v : Int) : Decidable (IsInt32 v) := by unfold IsInt32; infer_instance

/-- `x & y` on `int32_t`. -/
def and32 (x y : Int) : Int := ofBits32 (toBits32 x &&& toBits32 y)

/-- `x | y` on `int32_t`. -/
def or32 (x y : Int) : Int := ofBits32 (toBits32 x ||| toBits32 y)

/-- `x << k` on `int32_t`: the pattern shifted left, bits above the 32nd dropped. -/
def shl32 (x : Int) (k : Nat) : Int := ofBits32 (toBits32 x <<< k)

/-- `x >> k` on `int32_t`: arithmetic shift, which keeps the sign. -/
def sar32 (x : Int) (k : Nat) : Int := x / 2 ^ k

/-- `(char) x`: the low 8 bits of an `int`. -/
def toChar (x : Int) : Nat := (x % 256).toNat

/-- `(int32_t) c` for a `char` with pattern `c`: sign extension (`char` is signed). -/
def ofChar (c : Nat) : Int :=
  if c % 256 < 128 then ((c % 256 : Nat) : Int) else ((c % 256 : Nat) : Int) - 256

/-- The type `std::string`: a sequence of `char` patterns. -/
abbrev CString := List Nat

/-- The four bytes of the two's-complement pattern of `v`, the high byte first. -/
def be32 (v : Int) : List Nat :=
  [toBits32 v / 16777216 % 256, toBits32 v / 65536 % 256, toBits32 v / 256 % 256,
    toBits32 v % 256]

/-- The bytes of a string in an archive: its size, big-endian, then its bytes. -/
def encString (s : CString) : List Nat := be32 (s.length : Int) ++ s

/-- The expression that `readInt` returns for the bytes `x b c d` it has read. -/
def combine (x b c d : Nat) : Int :=
  or32 (or32 (or32 (shl32 (and32 (ofChar x) 0xff) 24) (shl32 (and32 (ofChar b) 0xff) 16))
    (shl32 (and32 (ofChar c) 0xff) 8)) (and32 (ofChar d) 0xff)

/-- What the code throws: `aqlib::Exception` by the place that raises it, and
`std::length_error` of the standard library. `outOfFuel` is not an exception:
it marks a loop of the source that would not end. -/
inductive Exception where
  | sizeTooBig
  | endOfStream
  | invalidLength
  | unknownType
  | notImplemented
  | invalidClassHierarchy
  | noMoreTokens
  | lengthError
  | invalidSize
  | recvError
  | invalidPostLength
  | outOfFuel
  deriving DecidableEq, Repr

/-- Equality of the outcomes of a call can be decided. -/
instance {ε α : Type} [DecidableEq ε] [DecidableEq α] : DecidableEq (Except ε α)
  | .ok a, .ok b =>
    if h : a = b then isTrue (by rw [h]) else isFalse (fun e => h (by injection e))
  | .error a, .error b =>
    if h : a = b then isTrue (by rw [h]) else isFalse (fun e => h (by injection e))
  | .ok _, .error _ => isFalse (fun e => by cases e)
  | .error _, .ok _ => isFalse (fun e => by cases e)

/-! ## BinaryWriteArchive -/

/-- The members of `BinaryWriteArchive`: the buffer, its capacity `mLength` and
the write cursor `mPosition`. -/
structure BinaryWriteArchive where
  mData : List Nat
  mLength : Nat
  mPosition : Nat
  deriving DecidableEq, Repr

namespace BinaryWriteArchive

/-- The constant `MAXIMUM_ARCHIVE_SIZE`, 1 Mb. -/
def MAXIMUM_ARCHIVE_SIZE : Nat := 1 * 1024 * 1024

/-- The constant `INITIAL_BUFFER_SIZE`, 1 kB. -/
def INITIAL_BUFFER_SIZE : Nat := 1 * 1024

/-- The constructor. A buffer from `new char[n]` is taken to hold zeros. -/
def new : BinaryWriteArchive :=
  { mData := List.replicate INITIAL_BUFFER_SIZE 0
    mLength := INITIAL_BUFFER_SIZE
    mPosition := 0 }

/-- The accessor `size()`. -/
def size (a : BinaryWriteArchive) : Nat := a.mPosition

/-- The method `getData()`: `std::string(data(), size())`. -/
def getData (a : BinaryWriteArchive) : CString := a.mData.take a.size

/-- The method `growBuffer`: throw at the maximum size, else double the buffer
(or take the maximum size) and copy the `mLength` old bytes. -/
def growBuffer (a : BinaryWriteArchive) : Except Exception Unit × BinaryWriteArchive :=
  if a.mLength ≥ MAXIMUM_ARCHIVE_SIZE then (.error .sizeTooBig, a)
  else
    let length := if a.mLength < MAXIMUM_ARCHIVE_SIZE / 2 then a.mLength * 2
      else MAXIMUM_ARCHIVE_SIZE
    let data := a.mData.take a.mLength ++ List.replicate (length - a.mLength) 0
    (.ok (), { mData := data, mLength := length, mPosition := a.mPosition })

/-- The loop `while (need >= mLength) growBuffer(name);` of `writeChar` and
`writeString`, `need` being the index that has to fit. -/
def growWhile (need : Nat) : Nat → BinaryWriteArchive → Except Exception Unit × BinaryWriteArchive
  | 0, a => if need ≥ a.mLength then (.error .outOfFuel, a) else (.ok (), a)
  | fuel + 1, a =>
    if need ≥ a.mLength then
      match growBuffer a with
      | (.ok _, a1) => growWhile need fuel a1
      | (.error e, a1) => (.error e, a1)
    else (.ok (), a)

/-- Iterations that end the growth loop from every capacity other than zero. -/
def GROW_FUEL : Nat := 32

/-- The method `writeChar`. -/
def writeChar (value : Nat) (a : BinaryWriteArchive) : Except Exception Unit × BinaryWriteArchive :=
  match growWhile a.mPosition GROW_FUEL a with
  | (.ok _, a1) =>
    (.ok (), { a1 with mData := a1.mData.set a1.mPosition value, mPosition := a1.mPosition + 1 })
  | (.error e, a1) => (.error e, a1)

/-- The method `writeInt`: four `writeChar`, the high byte first. -/
def writeInt (value : Int) (a : BinaryWriteArchive) : Except Exception Unit × BinaryWriteArchive :=
  let x := toChar (and32 0xff (sar32 value 24))
  let b := toChar (and32 0xff (sar32 value 16))
  let c := toChar (and32 0xff (sar32 value 8))
  let d := toChar (and32 0xff value)
  match writeChar x a with
  | (.error e, a1) => (.error e, a1)
  | (.ok _, a1) =>
    match writeChar b a1 with
    | (.error e, a2) => (.error e, a2)
    | (.ok _, a2) =>
      match writeChar c a2 with
      | (.error e, a3) => (.error e, a3)
      | (.ok _, a3) => writeChar d a3

/-- The method `writeString`: the size as an `int32_t`, then the bytes. -/
def writeString (value : CString) (a : BinaryWriteArchive) :
    Except Exception Unit × BinaryWriteArchive :=
  match writeInt (toInt32 value.length) a with
  | (.error e, a1) => (.error e, a1)
  | (.ok _, a1) =>
    match growWhile (a1.mPosition + value.length) GROW_FUEL a1 with
    | (.error e, a2) => (.error e, a2)
    | (.ok _, a2) =>
      (.ok (), { a2 with
        mData := a2.mData.take a2.mPosition ++ value
          ++ a2.mData.drop (a2.mPosition + value.length)
        mPosition := a2.mPosition + value.length })

/-- The method `writeBool`. -/
def writeBool (value : Bool) (a : BinaryWriteArchive) : Except Exception Unit × BinaryWriteArchive :=
  writeInt (if value then 1 else 0) a

/-- The method `writeFloat`. A `float` is represented by the `int32_t` that
`floatToRawIntBits` gives for it, so only the call of `writeInt` is left. -/
def writeFloat (value : Int) (a : BinaryWriteArchive) : Except Exception Unit × BinaryWriteArchive :=
  writeInt value a

/-- The state that the constructor and the write methods keep: the buffer has
`mLength` bytes, `mLength` is the initial size doubled some times, up to the
maximum, and the cursor is inside. -/
structure WF (a : BinaryWriteArchive) : Prop where
  len : a.mData.length = a.mLength
  cap : ∃ k, k ≤ 10 ∧ a.mLength = 1024 * 2 ^ k
  pos : a.mPosition ≤ a.mLength

end BinaryWriteArchive

/-! ## BinaryReadArchive -/

/-- The members of `BinaryReadArchive` other than `mFactory`, which never changes
and is handed to `readObject` as an argument. -/
structure BinaryReadArchive where
  mData : List Nat
  mLength : Int
  mPosition : Int
  deriving DecidableEq, Repr

namespace BinaryReadArchive

/-- The constructor: a negative length is refused. -/
def new (data : List Nat) (length : Int) : Except Exception BinaryReadArchive :=
  if length < 0 then .error .invalidLength
  else .ok { mData := data, mLength := length, mPosition := 0 }

/-- The accessor `available()`. -/
def available (a : BinaryReadArchive) : Int := toInt32 (a.mLength - a.mPosition)

/-- The method `hasMoreData`. -/
def hasMoreData (a : BinaryReadArchive) : Bool := decide (a.available > 0)

/-- The method `readChar`. -/
def readChar (a : BinaryReadArchive) : Except Exception Nat × BinaryReadArchive :=
  if a.mPosition ≥ a.mLength then (.error .endOfStream, a)
  else (.ok (a.mData.getD a.mPosition.toNat 0), { a with mPosition := a.mPosition + 1 })

/-- The method `readInt`: four `readChar`, combined high byte first. -/
def readInt (a : BinaryReadArchive) : Except Exception Int × BinaryReadArchive :=
  match readChar a with
  | (.error e, a1) => (.error e, a1)
  | (.ok x, a1) =>
    match readChar a1 with
    | (.error e, a2) => (.error e, a2)
    | (.ok b, a2) =>
      match readChar a2 with
      | (.error e, a3) => (.error e, a3)
      | (.ok c, a3) =>
        match readChar a3 with
        | (.error e, a4) => (.error e, a4)
        | (.ok d, a4) =>
          (.ok (combine x b c d), a4)

/-- The method `readString`. The bound test adds two `int`; `data.resize(length)`
takes a `std::size_t`, so a negative `length` asks for more than `max_size()`
and `std::length_error` is thrown. The copy takes what the memory `mData` holds
from the cursor on, `length` bytes of it at most. -/
def readString (a : BinaryReadArchive) : Except Exception CString × BinaryReadArchive :=
  match readInt a with
  | (.error e, a1) => (.error e, a1)
  | (.ok length, a1) =>
    if toInt32 (a1.mPosition + length) > a1.mLength then (.error .endOfStream, a1)
    else if length < 0 then (.error .lengthError, a1)
    else
      (.ok ((a1.mData.drop a1.mPosition.toNat).take length.toNat),
        { a1 with mPosition := toInt32 (a1.mPosition + length) })

/-- The method `readBool`. -/
def readBool (a : BinaryReadArchive) : Except Exception Bool × BinaryReadArchive :=
  match readInt a with
  | (.error e, a1) => (.error e, a1)
  | (.ok value, a1) => (.ok (if value ≠ 0 then true else false), a1)

/-- The method `readFloat`: the `float` as the `int32_t` pattern read. -/
def readFloat (a : BinaryReadArchive) : Except Exception Int × BinaryReadArchive :=
  readInt a

/-- A read archive over a buffer of `mLength` bytes, `mLength` an `int`, with
the cursor inside. -/
structure WF (a : BinaryReadArchive) : Prop where
  len : a.mLength = a.mData.length
  lo : 0 ≤ a.mPosition
  hi : a.mPosition ≤ a.mLength
  small : a.mLength < 2147483648

end BinaryReadArchive

/-! ## StringTokenizer -/

/-- The test `text.compare(i, delimiter.size(), delimiter) == 0` inside
`std::string::find`: does `delimiter` stand at the head of `rest`. -/
def startsWith : CString → CString → Bool
  | _, [] => true
  | [], _ :: _ => false
  | c :: rest, x :: delimiter => decide (c = x) && startsWith rest delimiter

/-- The call `text.find(delimiter, pos)`: the least index from `pos` on at which
`delimiter` stands; `none` is `std::string::npos`. -/
def find (text delimiter : CString) (pos : Nat) : Option Nat :=
  (List.range' pos (text.length + 1 - pos)).find? fun i =>
    decide (i + delimiter.length ≤ text.length) && startsWith (text.drop i) delimiter

/-- The call `text.substr(pos, n)`. -/
def substr (text : CString) (pos n : Nat) : CString := (text.drop pos).take n

/-- The members of `StringTokenizer`. -/
structure StringTokenizer where
  mPos : Nat
  mTokens : List CString
  deriving DecidableEq, Repr

namespace StringTokenizer

/-- The `while` loop of the constructor; it returns `pos` and the tokens. -/
def scan (text delimiter : CString) :
    Nat → Nat → Option Nat → List CString → Except Exception (Nat × List CString)
  | _, pos, none, tokens => .ok (pos, tokens)
  | 0, pos, some _, tokens =>
    if pos < text.length then .error .outOfFuel else .ok (pos, tokens)
  | fuel + 1, pos, some idx, tokens =>
    if pos < text.length then
      scan text delimiter fuel (idx + delimiter.length)
        (find text delimiter (idx + delimiter.length))
        (tokens ++ [substr text pos (idx - pos)])
    else .ok (pos, tokens)

/-- The constructor. With a delimiter that is not empty the loop ends within
`text.size()` rounds. -/
def new (text delimiter : CString) : Except Exception StringTokenizer :=
  match scan text delimiter (text.length + 1) 0 (find text delimiter 0) [] with
  | .error e => .error e
  | .ok (pos, tokens) =>
    if pos < text.length then .ok { mPos := 0, mTokens := tokens ++ [text.drop pos] }
    else .ok { mPos := 0, mTokens := tokens }

/-- The method `hasMoreTokens`. -/
def hasMoreTokens (t : StringTokenizer) : Bool := decide (t.mPos < t.mTokens.length)

/-- The method `nextToken`. -/
def nextToken (t : StringTokenizer) : Except Exception CString × StringTokenizer :=
  if t.mTokens.length = t.mPos then (.error .noMoreTokens, t)
  else (.ok (t.mTokens.getD t.mPos []), { t with mPos := t.mPos + 1 })

/-- The segments of a text between the occurrences of the character `d`, from the
left: `cur` holds, reversed, the characters of the segment that is open. A segment
is closed by `d`; the last one is kept only if it is not empty. -/
def split (d : Nat) : CString → CString → List CString
  | [], cur => if cur = [] then [] else [cur.reverse]
  | c :: rest, cur => if c = d then cur.reverse :: split d rest [] else split d rest (c :: cur)

/-- The index of the first `d` in a string. -/
def firstIndex (d : Nat) : CString → Option Nat
  | [] => none
  | c :: rest => if c = d then some 0 else (firstIndex d rest).map (· + 1)

end StringTokenizer

/-- The text of a string literal as a `std::string`. -/
def lit (s : String) : CString := s.toList.map Char.toNat

/-- The call `boost::regex_replace(s, boost::regex("::"), ".")`: every match of
`::`, found from the left, becomes a dot. -/
def regex_replace : CString → CString
  | [] => []
  | [c] => [c]
  | c :: d :: rest =>
    if c = 58 ∧ d = 58 then 46 :: regex_replace rest
    else c :: regex_replace (d :: rest)

/-! ## Serializable -/

/-- The virtual methods of `Serializable`, dispatched on an object of the
universe `σ` of objects. `readFrom` returns the object as it has been read. -/
structure Serializable (σ : Type) where
  getClassHierarchy : σ → CString
  createInstance : σ → σ
  readFrom : σ → BinaryReadArchive → Except Exception σ × BinaryReadArchive
  writeTo : σ → BinaryWriteArchive → Except Exception Unit × BinaryWriteArchive

namespace Serializable

/-- The root `Serializable::getClassHierarchy`. -/
def rootGetClassHierarchy : CString := []

/-- The root `Serializable::readFrom`: nothing. -/
def rootReadFrom {σ : Type} (self : σ) (archive : BinaryReadArchive) :
    Except Exception σ × BinaryReadArchive := (.ok self, archive)

/-- The root `Serializable::writeTo`: nothing. -/
def rootWriteTo {σ : Type} (_self : σ) (archive : BinaryWriteArchive) :
    Except Exception Unit × BinaryWriteArchive := (.ok (), archive)

end Serializable

/-! ## DefaultObjectFactory -/

/-- The member `mPrototypes`, a `std::map` from class path to prototype, as the
list of its entries. `mInstanceName` only serves logging. -/
structure DefaultObjectFactory (σ : Type) where
  mPrototypes : List (CString × σ)

namespace DefaultObjectFactory

/-- The call `mPrototypes.find(type)`; `none` is `mPrototypes.end()`. -/
def findPrototype {σ : Type} (f : DefaultObjectFactory σ) (type : CString) : Option σ :=
  match f.mPrototypes.find? (fun e => decide (e.1 = type)) with
  | some e => some e.2
  | none => none

/-- The assignment `mPrototypes[type] = prototype`. -/
def assign {σ : Type} (f : DefaultObjectFactory σ) (type : CString) (prototype : σ) :
    DefaultObjectFactory σ :=
  { mPrototypes := (type, prototype) :: f.mPrototypes.filter (fun e => decide (e.1 ≠ type)) }

/-- The `while` loop of `registerPrototype`. -/
def registerLoop {σ : Type} (prototype : σ) :
    Nat → StringTokenizer → DefaultObjectFactory σ → Except Exception Unit × DefaultObjectFactory σ
  | 0, tokenizer, f =>
    if tokenizer.hasMoreTokens then (.error .outOfFuel, f) else (.ok (), f)
  | fuel + 1, tokenizer, f =>
    if tokenizer.hasMoreTokens then
      match tokenizer.nextToken with
      | (.error e, _) => (.error e, f)
      | (.ok type, tokenizer1) =>
        registerLoop prototype fuel tokenizer1
          (if type.length > 0 then f.assign type prototype else f)
    else (.ok (), f)

/-- The method `registerPrototype`. -/
def registerPrototype {σ : Type} (V : Serializable σ) (prototype : σ)
    (f : DefaultObjectFactory σ) : Except Exception Unit × DefaultObjectFactory σ :=
  let hierarchy := regex_replace (V.getClassHierarchy prototype)
  if hierarchy.length = 0 then (.error .invalidClassHierarchy, f)
  else
    match StringTokenizer.new hierarchy (lit ",") with
    | .error e => (.error e, f)
    | .ok tokenizer => registerLoop prototype tokenizer.mTokens.length tokenizer f

/-- The `while` loop of `createObject`; `none` is `NULL`. -/
def createLoop {σ : Type} (V : Serializable σ) (f : DefaultObjectFactory σ) :
    Nat → StringTokenizer → Except Exception (Option σ)
  | 0, tokenizer => if tokenizer.hasMoreTokens then .error .outOfFuel else .ok none
  | fuel + 1, tokenizer =>
    if tokenizer.hasMoreTokens then
      match tokenizer.nextToken with
      | (.error e, _) => .error e
      | (.ok type, tokenizer1) =>
        match f.findPrototype type with
        | none => createLoop V f fuel tokenizer1
        | some prototype => .ok (some (V.createInstance prototype))
    else .ok none

/-- The method `createObject`. -/
def createObject {σ : Type} (V : Serializable σ) (f : DefaultObjectFactory σ)
    (classHierarchy : CString) : Except Exception (Option σ) :=
  match StringTokenizer.new classHierarchy (lit ",") with
  | .error e => .error e
  | .ok tokenizer => createLoop V f tokenizer.mTokens.length tokenizer

/-- The prototype stored under the first of `tokens` that is a key of the registry. -/
def firstRegistered {σ : Type} (f : DefaultObjectFactory σ) : List CString → Option σ
  | [] => none
  | t :: ts =>
    match f.findPrototype t with
    | some p => some p
    | none => firstRegistered f ts

/-- The registry after the loop of `registerPrototype` has gone through `tokens`. -/
def assignAll {σ : Type} (prototype : σ) :
    List CString → DefaultObjectFactory σ → DefaultObjectFactory σ
  | [], f => f
  | t :: ts, f => assignAll prototype ts (if t.length > 0 then f.assign t prototype else f)

end DefaultObjectFactory

/-! ## Objects in the archives -/

/-- The method `BinaryWriteArchive::writeObject`; `none` is `NULL`. An exception
from the nested archive leaves this archive as it was. -/
def BinaryWriteArchive.writeObject {σ : Type} (V : Serializable σ) (value : Option σ)
    (a : BinaryWriteArchive) : Except Exception Unit × BinaryWriteArchive :=
  let archive := BinaryWriteArchive.new
  match value with
  | none => BinaryWriteArchive.writeString archive.getData a
  | some v =>
    match BinaryWriteArchive.writeString (V.getClassHierarchy v) archive with
    | (.error e, _) => (.error e, a)
    | (.ok _, archive1) =>
      match V.writeTo v archive1 with
      | (.error e, _) => (.error e, a)
      | (.ok _, archive2) => BinaryWriteArchive.writeString archive2.getData a

/-- The method `BinaryReadArchive::readObject`; `none` is `NULL`. The archive inside is
given the bytes of the copy `data` as its memory and nothing behind them, which is all
that the reads inside reach as long as none of them passes the bound test of
`readString` with a wrapped sum; `readObjectWithMemory` is the method with the memory
behind the copy. -/
def BinaryReadArchive.readObject {σ : Type} (V : Serializable σ) (mFactory : DefaultObjectFactory σ)
    (a : BinaryReadArchive) : Except Exception (Option σ) × BinaryReadArchive :=
  match BinaryReadArchive.readString a with
  | (.error e, a1) => (.error e, a1)
  | (.ok data, a1) =>
    if data.length = 0 then (.ok none, a1)
    else
      match BinaryReadArchive.new data (toInt32 data.length) with
      | .error e => (.error e, a1)
      | .ok archive =>
        match BinaryReadArchive.readString archive with
        | (.error e, _) => (.error e, a1)
        | (.ok type, archive1) =>
          match mFactory.createObject V type with
          | .error e => (.error e, a1)
          | .ok none => (.error .unknownType, a1)
          | .ok (some instance0) =>
            match V.readFrom instance0 archive1 with
            | (.error e, _) => (.error e, a1)
            | (.ok instance1, _) => (.ok (some instance1), a1)

/-- The method `BinaryReadArchive::readObject` with the memory around the copy: the
archive inside is constructed on `data.data()` with the length `data.size()`, and
`behind` is what the memory holds after those `data.size()` bytes. A `readString` of
the archive inside whose sum of cursor and length wraps passes the bound test, and its
`memcpy` takes its bytes from there. -/
def BinaryReadArchive.readObjectWithMemory {σ : Type} (behind : List Nat) (V : Serializable σ)
    (mFactory : DefaultObjectFactory σ) (a : BinaryReadArchive) :
    Except Exception (Option σ) × BinaryReadArchive :=
  match BinaryReadArchive.readString a with
  | (.error e, a1) => (.error e, a1)
  | (.ok data, a1) =>
    if data.length = 0 then (.ok none, a1)
    else
      match BinaryReadArchive.new (data ++ behind) (toInt32 data.length) with
      | .error e => (.error e, a1)
      | .ok archive =>
        match BinaryReadArchive.readString archive with
        | (.error e, _) => (.error e, a1)
        | (.ok type, archive1) =>
          match mFactory.createObject V type with
          | .error e => (.error e, a1)
          | .ok none => (.error .unknownType, a1)
          | .ok (some instance0) =>
            match V.readFrom instance0 archive1 with
            | (.error e, _) => (.error e, a1)
            | (.ok instance1, _) => (.ok (some instance1), a1)

/-! ## The macro AQLIB_IMPLEMENT_SERIAL -/

namespace AQLIB_IMPLEMENT_SERIAL

/-- The generated `getClassHierarchy`: the own name, dotted, before the
hierarchy of the base. -/
def getClassHierarchy (class_name baseHierarchy : CString) : CString :=
  let className := regex_replace class_name
  if baseHierarchy.length ≠ 0 then className ++ lit "," ++ baseHierarchy else className

/-- The generated `writeTo`: the base first, then the members of this class,
written to an archive of their own and stored as one string. -/
def writeTo {σ : Type}
    (baseWriteTo classWriteTo : σ → BinaryWriteArchive → Except Exception Unit × BinaryWriteArchive)
    (self : σ) (archive : BinaryWriteArchive) : Except Exception Unit × BinaryWriteArchive :=
  match baseWriteTo self archive with
  | (.error e, archive1) => (.error e, archive1)
  | (.ok _, archive1) =>
    match classWriteTo self BinaryWriteArchive.new with
    | (.error e, _) => (.error e, archive1)
    | (.ok _, classArchive) => BinaryWriteArchive.writeString classArchive.getData archive1

/-- The generated `readFrom`: the base first; if data is left, one string, which
`classReadFrom` gets as an archive of its own. As in `readObject`, that archive is
given the bytes of the copy `classData` as its memory and nothing behind them. -/
def readFrom {σ : Type}
    (baseReadFrom classReadFrom : σ → BinaryReadArchive → Except Exception σ × BinaryReadArchive)
    (self : σ) (archive : BinaryReadArchive) : Except Exception σ × BinaryReadArchive :=
  match baseReadFrom self archive with
  | (.error e, archive1) => (.error e, archive1)
  | (.ok self1, archive1) =>
    if !archive1.hasMoreData then (.ok self1, archive1)
    else
      match BinaryReadArchive.readString archive1 with
      | (.error e, archive2) => (.error e, archive2)
      | (.ok classData, archive2) =>
        match BinaryReadArchive.new classData (toInt32 classData.length) with
        | .error e => (.error e, archive2)
        | .ok classArchive =>
          match classReadFrom self1 classArchive with
          | (.error e, _) => (.error e, archive2)
          | (.ok self2, _) => (.ok self2, archive2)

end AQLIB_IMPLEMENT_SERIAL

end aqlib

/-! ## The serializable classes of the application

`DemoSerializableWithMacros`, which holds a `boost::posix_time::ptime`, is not among
the objects `Obj`; it is described further down. A `double` member is held as the
`float` pattern that `readFloat` delivers and `writeFloat` receives. -/

open aqlib

namespace simulation

/-- The members of `BlackScholes`. -/
structure BlackScholes where
  mIsCall : Bool
  mSpotPrice : Int
  mStrikePrice : Int
  mTimeToOptionExpiration : Int
  mTimeToFutureExpiration : Int
  mGrowthRate : Int
  mInterestRate : Int
  mDividendYield : Int
  mVolatility : Int
  mReplicationSteps : Int
  mSimulationsCount : Int
  mPricingModel : Int
  deriving DecidableEq, Repr

/-- What a `SimulationRequestPtr` can point to: a plain `SimulationRequest`, which
has no members, or a `BlackScholes`. -/
inductive SimulationRequest where
  | plain
  | blackScholes (members : BlackScholes)
  deriving DecidableEq, Repr

/-- The member `mGraphs` of `SimulationResult`: each graph as the list of its
points in the order of the map. -/
abbrev Graphs := List (List (Int × Int))

end simulation

/-- The objects of the application, by class, with their members. -/
inductive Obj where
  | DemoSerializableNoMacros
  | SimulationRequest (request : simulation.SimulationRequest)
  | SimulationResult (mGraphs : simulation.Graphs)
  | SimulationRequestMessage (mStopRequested : Bool) (mRequest : Option simulation.SimulationRequest)
  | SimulationResultMessage (mPercentRemaining : Int) (mResult : Option simulation.Graphs)
  deriving DecidableEq, Repr

/-- The sequencing of two reads: the second runs if the first did not throw. -/
def andThen {α β : Type} (r : Except Exception α × BinaryReadArchive)
    (k : α → BinaryReadArchive → Except Exception β × BinaryReadArchive) :
    Except Exception β × BinaryReadArchive :=
  match r with
  | (.ok v, a) => k v a
  | (.error e, a) => (.error e, a)

/-- The sequencing of two writes: the second runs if the first did not throw. -/
def thenWrite (r : Except Exception Unit × BinaryWriteArchive)
    (k : BinaryWriteArchive → Except Exception Unit × BinaryWriteArchive) :
    Except Exception Unit × BinaryWriteArchive :=
  match r with
  | (.ok _, a) => k a
  | (.error e, a) => (.error e, a)

namespace aqlib.DemoSerializableNoMacros

/-- The method `classReadFrom`, empty. -/
def classReadFrom {σ : Type} (self : σ) (archive : BinaryReadArchive) :
    Except Exception σ × BinaryReadArchive := (.ok self, archive)

/-- The method `classWriteTo`, empty. -/
def classWriteTo {σ : Type} (_self : σ) (archive : BinaryWriteArchive) :
    Except Exception Unit × BinaryWriteArchive := (.ok (), archive)

end aqlib.DemoSerializableNoMacros

namespace simulation

/-- The method `SimulationRequest::classReadFrom`, empty. -/
def SimulationRequest.classReadFrom {σ : Type} (self : σ) (archive : BinaryReadArchive) :
    Except Exception σ × BinaryReadArchive := (.ok self, archive)

/-- The method `SimulationRequest::classWriteTo`, empty. -/
def SimulationRequest.classWriteTo {σ : Type} (_self : σ) (archive : BinaryWriteArchive) :
    Except Exception Unit × BinaryWriteArchive := (.ok (), archive)

/-- The constructor of `BlackScholes`; it leaves `mSpotPrice` unset, taken as 0. -/
def BlackScholes.new : BlackScholes :=
  { mIsCall := false, mSpotPrice := 0, mStrikePrice := 0, mTimeToOptionExpiration := 0,
    mTimeToFutureExpiration := 0, mGrowthRate := 0, mInterestRate := 0, mDividendYield := 0,
    mVolatility := 0, mReplicationSteps := 0, mSimulationsCount := 0, mPricingModel := 0 }

/-- The method `BlackScholes::classReadFrom`. -/
def BlackScholes.classReadFrom (_self : BlackScholes) (archive : BinaryReadArchive) :
    Except Exception BlackScholes × BinaryReadArchive :=
  andThen (BinaryReadArchive.readBool archive) fun mIsCall a =>
  andThen (BinaryReadArchive.readFloat a) fun mSpotPrice a =>
  andThen (BinaryReadArchive.readFloat a) fun mStrikePrice a =>
  andThen (BinaryReadArchive.readFloat a) fun mTimeToOptionExpiration a =>
  andThen (BinaryReadArchive.readFloat a) fun mTimeToFutureExpiration a =>
  andThen (BinaryReadArchive.readFloat a) fun mGrowthRate a =>
  andThen (BinaryReadArchive.readFloat a) fun mInterestRate a =>
  andThen (BinaryReadArchive.readFloat a) fun mDividendYield a =>
  andThen (BinaryReadArchive.readFloat a) fun mVolatility a =>
  andThen (BinaryReadArchive.readInt a) fun mReplicationSteps a =>
  andThen (BinaryReadArchive.readInt a) fun mSimulationsCount a =>
  andThen (BinaryReadArchive.readInt a) fun mPricingModel a =>
  (.ok { mIsCall, mSpotPrice, mStrikePrice, mTimeToOptionExpiration, mTimeToFutureExpiration,
         mGrowthRate, mInterestRate, mDividendYield, mVolatility, mReplicationSteps,
         mSimulationsCount, mPricingModel }, a)

/-- The method `BlackScholes::classWriteTo`: it throws. -/
def BlackScholes.classWriteTo {σ : Type} (_self : σ) (archive : BinaryWriteArchive) :
    Except Exception Unit × BinaryWriteArchive := (.error .notImplemented, archive)

/-- The inner loop of `SimulationResult::classWriteTo`, over the points of a graph. -/
def SimulationResult.writePoints :
    List (Int × Int) → BinaryWriteArchive → Except Exception Unit × BinaryWriteArchive
  | [], a => (.ok (), a)
  | point :: rest, a =>
    thenWrite (BinaryWriteArchive.writeFloat point.1 a) fun a =>
    thenWrite (BinaryWriteArchive.writeFloat point.2 a) fun a =>
    SimulationResult.writePoints rest a

/-- The outer loop of `SimulationResult::classWriteTo`, over the graphs. -/
def SimulationResult.writeGraphs :
    Graphs → BinaryWriteArchive → Except Exception Unit × BinaryWriteArchive
  | [], a => (.ok (), a)
  | graph :: rest, a =>
    thenWrite (BinaryWriteArchive.writeInt (toInt32 graph.length) a) fun a =>
    thenWrite (SimulationResult.writePoints graph a) fun a =>
    SimulationResult.writeGraphs rest a

/-- The method `SimulationResult::classWriteTo`. -/
def SimulationResult.classWriteTo (mGraphs : Graphs) (archive : BinaryWriteArchive) :
    Except Exception Unit × BinaryWriteArchive :=
  thenWrite (BinaryWriteArchive.writeInt (toInt32 mGraphs.length) archive) fun a =>
  SimulationResult.writeGraphs mGraphs a

/-- The method `SimulationResult::classReadFrom`: it throws. -/
def SimulationResult.classReadFrom {σ : Type} (_self : σ) (archive : BinaryReadArchive) :
    Except Exception σ × BinaryReadArchive := (.error .notImplemented, archive)

end simulation

namespace net

/-- The cast `dynamic_cast<simulation::SimulationRequest *>`. -/
def asSimulationRequest : Option Obj → Option simulation.SimulationRequest
  | some (.SimulationRequest request) => some request
  | _ => none

/-- The cast `dynamic_cast<simulation::SimulationResult *>`. -/
def asSimulationResult : Option Obj → Option simulation.Graphs
  | some (.SimulationResult mGraphs) => some mGraphs
  | _ => none

/-- The method `SimulationRequestMessage::classReadFrom`; `readObject` is that of
the archive. It returns the two members. -/
def SimulationRequestMessage.classReadFrom
    (readObject : BinaryReadArchive → Except Exception (Option Obj) × BinaryReadArchive)
    (archive : BinaryReadArchive) :
    Except Exception (Bool × Option simulation.SimulationRequest) × BinaryReadArchive :=
  andThen (BinaryReadArchive.readBool archive) fun mStopRequested a =>
  andThen (readObject a) fun request a =>
  (.ok (mStopRequested, asSimulationRequest request), a)

/-- The method `SimulationRequestMessage::classWriteTo`: it throws. -/
def SimulationRequestMessage.classWriteTo {σ : Type} (_self : σ) (archive : BinaryWriteArchive) :
    Except Exception Unit × BinaryWriteArchive := (.error .notImplemented, archive)

/-- The method `SimulationResultMessage::classReadFrom`; `readObject` is that of
the archive. It returns the two members. -/
def SimulationResultMessage.classReadFrom
    (readObject : BinaryReadArchive → Except Exception (Option Obj) × BinaryReadArchive)
    (archive : BinaryReadArchive) :
    Except Exception (Int × Option simulation.Graphs) × BinaryReadArchive :=
  andThen (BinaryReadArchive.readFloat archive) fun mPercentRemaining a =>
  andThen (readObject a) fun result a =>
  (.ok (mPercentRemaining, asSimulationResult result), a)

/-- The method `SimulationResultMessage::classWriteTo`; `writeObject` is that of
the archive. -/
def SimulationResultMessage.classWriteTo
    (writeObject : Option Obj → BinaryWriteArchive → Except Exception Unit × BinaryWriteArchive)
    (mPercentRemaining : Int) (mResult : Option simulation.Graphs) (archive : BinaryWriteArchive) :
    Except Exception Unit × BinaryWriteArchive :=
  thenWrite (BinaryWriteArchive.writeFloat mPercentRemaining archive) fun a =>
  writeObject (mResult.map Obj.SimulationResult) a

end net

namespace Obj

/-- The method `getClassHierarchy` of each class, as the macro generates it. The base
named in the macro is `aqlib::Serializable`, and `net::Message`, which inherits
the hierarchy of the root, for `SimulationRequestMessage`. -/
def getClassHierarchy : Obj → CString
  | .DemoSerializableNoMacros =>
    AQLIB_IMPLEMENT_SERIAL.getClassHierarchy (lit "aqlib::DemoSerializableNoMacros")
      Serializable.rootGetClassHierarchy
  | .SimulationRequest .plain =>
    AQLIB_IMPLEMENT_SERIAL.getClassHierarchy (lit "simulation::SimulationRequest")
      Serializable.rootGetClassHierarchy
  | .SimulationRequest (.blackScholes _) =>
    AQLIB_IMPLEMENT_SERIAL.getClassHierarchy (lit "simulation::BlackScholes")
      Serializable.rootGetClassHierarchy
  | .SimulationResult _ =>
    AQLIB_IMPLEMENT_SERIAL.getClassHierarchy (lit "simulation::SimulationResult")
      Serializable.rootGetClassHierarchy
  | .SimulationRequestMessage _ _ =>
    AQLIB_IMPLEMENT_SERIAL.getClassHierarchy (lit "net::SimulationRequestMessage")
      Serializable.rootGetClassHierarchy
  | .SimulationResultMessage _ _ =>
    AQLIB_IMPLEMENT_SERIAL.getClassHierarchy (lit "net::SimulationResultMessage")
      Serializable.rootGetClassHierarchy

/-- The method `createInstance` of each class: `new class_name()`. The constructor
of `SimulationRequestMessage` leaves `mStopRequested` unset, taken as false. -/
def createInstance : Obj → Obj
  | .DemoSerializableNoMacros => .DemoSerializableNoMacros
  | .SimulationRequest .plain => .SimulationRequest .plain
  | .SimulationRequest (.blackScholes _) =>
    .SimulationRequest (.blackScholes simulation.BlackScholes.new)
  | .SimulationResult _ => .SimulationResult []
  | .SimulationRequestMessage _ _ =>
    .SimulationRequestMessage false (some (.blackScholes simulation.BlackScholes.new))
  | .SimulationResultMessage _ _ => .SimulationResultMessage 0 none

/-- The virtual methods of the classes. `readFrom` and `writeTo` are generated by the
macro from `classReadFrom` and `classWriteTo`; they reach objects inside objects
through `readObject` and `writeObject`, and `depth` bounds that nesting. -/
def vtable (mFactory : DefaultObjectFactory Obj) : Nat → Serializable Obj
  | 0 =>
    { getClassHierarchy := getClassHierarchy
      createInstance := createInstance
      readFrom := fun _ archive => (.error .outOfFuel, archive)
      writeTo := fun _ archive => (.error .outOfFuel, archive) }
  | depth + 1 =>
    { getClassHierarchy := getClassHierarchy
      createInstance := createInstance
      readFrom := fun self archive =>
        match self with
        | .DemoSerializableNoMacros =>
          AQLIB_IMPLEMENT_SERIAL.readFrom Serializable.rootReadFrom
            DemoSerializableNoMacros.classReadFrom self archive
        | .SimulationRequest .plain =>
          AQLIB_IMPLEMENT_SERIAL.readFrom Serializable.rootReadFrom
            simulation.SimulationRequest.classReadFrom self archive
        | .SimulationRequest (.blackScholes members) =>
          match AQLIB_IMPLEMENT_SERIAL.readFrom Serializable.rootReadFrom
              simulation.BlackScholes.classReadFrom members archive with
          | (.ok members1, archive1) => (.ok (.SimulationRequest (.blackScholes members1)), archive1)
          | (.error e, archive1) => (.error e, archive1)
        | .SimulationResult _ =>
          AQLIB_IMPLEMENT_SERIAL.readFrom Serializable.rootReadFrom
            simulation.SimulationResult.classReadFrom self archive
        | .SimulationRequestMessage mStopRequested mRequest =>
          match AQLIB_IMPLEMENT_SERIAL.readFrom Serializable.rootReadFrom
              (fun _ classArchive => net.SimulationRequestMessage.classReadFrom
                (BinaryReadArchive.readObject (vtable mFactory depth) mFactory) classArchive)
              (mStopRequested, mRequest) archive with
          | (.ok members, archive1) => (.ok (.SimulationRequestMessage members.1 members.2), archive1)
          | (.error e, archive1) => (.error e, archive1)
        | .SimulationResultMessage mPercentRemaining mResult =>
          match AQLIB_IMPLEMENT_SERIAL.readFrom Serializable.rootReadFrom
              (fun _ classArchive => net.SimulationResultMessage.classReadFrom
                (BinaryReadArchive.readObject (vtable mFactory depth) mFactory) classArchive)
              (mPercentRemaining, mResult) archive with
          | (.ok members, archive1) => (.ok (.SimulationResultMessage members.1 members.2), archive1)
          | (.error e, archive1) => (.error e, archive1)
      writeTo := fun self archive =>
        match self with
        | .DemoSerializableNoMacros =>
          AQLIB_IMPLEMENT_SERIAL.writeTo Serializable.rootWriteTo
            DemoSerializableNoMacros.classWriteTo self archive
        | .SimulationRequest .plain =>
          AQLIB_IMPLEMENT_SERIAL.writeTo Serializable.rootWriteTo
            simulation.SimulationRequest.classWriteTo self archive
        | .SimulationRequest (.blackScholes _) =>
          AQLIB_IMPLEMENT_SERIAL.writeTo Serializable.rootWriteTo
            simulation.BlackScholes.classWriteTo self archive
        | .SimulationResult mGraphs =>
          AQLIB_IMPLEMENT_SERIAL.writeTo Serializable.rootWriteTo
            simulation.SimulationResult.classWriteTo mGraphs archive
        | .SimulationRequestMessage _ _ =>
          AQLIB_IMPLEMENT_SERIAL.writeTo Serializable.rootWriteTo
            net.SimulationRequestMessage.classWriteTo self archive
        | .SimulationResultMessage mPercentRemaining mResult =>
          AQLIB_IMPLEMENT_SERIAL.writeTo Serializable.rootWriteTo
            (fun _ classArchive => net.SimulationResultMessage.classWriteTo
              (BinaryWriteArchive.writeObject (vtable mFactory depth)) mPercentRemaining mResult
              classArchive)
            self archive }

end Obj

/-- The prototypes that `SerializablePrototypeRepository` holds after static
initialisation, one for each class among the objects `Obj`, in one of the possible
orders. The prototype of `DemoSerializableWithMacros`, which registers itself like the
others, is left out with its class. -/
def Obj.prototypes : List Obj :=
  [ .DemoSerializableNoMacros,
    .SimulationRequest .plain,
    .SimulationResult [],
    .SimulationRequest (.blackScholes simulation.BlackScholes.new),
    .SimulationRequestMessage false (some (.blackScholes simulation.BlackScholes.new)),
    .SimulationResultMessage 0 none ]

/-- The method `Application::registerObjectFactoryPrototypes`: `registerPrototype`
for each prototype of the repository. -/
def Application.registerObjectFactoryPrototypes :
    List Obj → DefaultObjectFactory Obj → Except Exception Unit × DefaultObjectFactory Obj
  | [], f => (.ok (), f)
  | prototype :: rest, f =>
    match f.registerPrototype (Obj.vtable f 0) prototype with
    | (.ok _, f1) => Application.registerObjectFactoryPrototypes rest f1
    | (.error e, f1) => (.error e, f1)

/-- The object factory of the application once `init` has registered the prototypes. -/
def Application.mObjectFactory : DefaultObjectFactory Obj :=
  (Application.registerObjectFactoryPrototypes Obj.prototypes { mPrototypes := [] }).2

/-- The number of bytes that the loop of `SimulationResult::classWriteTo` over the
graphs writes. -/
def simulation.graphsSize : simulation.Graphs → Nat
  | [] => 0
  | graph :: rest => 4 + 8 * graph.length + simulation.graphsSize rest

namespace net

/-- The method `Connection::sendMessage`: a new archive, `writeObject`, and the
call `mSenderThread->post(archive.data(), archive.size())`. What is returned
here is the packet that `post` is called with. -/
def Connection.sendMessage {σ : Type} (V : Serializable σ) (message : Option σ) :
    Except Exception CString :=
  match BinaryWriteArchive.writeObject V message BinaryWriteArchive.new with
  | (.ok _, archive) => .ok archive.getData
  | (.error e, _) => .error e

end net

/-! ## Classes of the version scenarios

The scenarios of version skew speak of classes that the application does not
have: a class written with the macro, derived from `Serializable`, whose members
are ints, and a class written by hand that names itself with `::`. -/

namespace scenario

/-- The method `classWriteTo` of a class whose members are ints: one `writeInt` for
each member, in order. -/
def classWriteTo : List Int → BinaryWriteArchive → Except Exception Unit × BinaryWriteArchive
  | [], a => (.ok (), a)
  | v :: vs, a => thenWrite (BinaryWriteArchive.writeInt v a) (classWriteTo vs)

/-- The bytes that `classWriteTo` leaves for the members `vs`. -/
def encode : List Int → List Nat
  | [] => []
  | v :: vs => be32 v ++ encode vs

/-- The method `classReadFrom` of the version of that class that knows `n` members:
one `readInt` for each, in order. -/
def classReadFrom : Nat → BinaryReadArchive → Except Exception (List Int) × BinaryReadArchive
  | 0, a => (.ok [], a)
  | n + 1, a =>
    andThen (BinaryReadArchive.readInt a) fun v a =>
    andThen (classReadFrom n a) fun vs a => (.ok (v :: vs), a)

/-- The virtual methods of that class under the name `class_name`, in the version
that knows `n` members; an object is the list of its members, 0 in a new one. -/
def vtable (class_name : CString) (n : Nat) : Serializable (List Int) :=
  { getClassHierarchy := fun _ =>
      AQLIB_IMPLEMENT_SERIAL.getClassHierarchy class_name Serializable.rootGetClassHierarchy
    createInstance := fun _ => List.replicate n 0
    readFrom := AQLIB_IMPLEMENT_SERIAL.readFrom Serializable.rootReadFrom
      (fun _ archive => classReadFrom n archive)
    writeTo := AQLIB_IMPLEMENT_SERIAL.writeTo Serializable.rootWriteTo classWriteTo }

/-- A class written by hand whose `getClassHierarchy` returns its C++ name
`plants::Apple`; its objects have no members. -/
def plantsApple : Serializable Unit :=
  { getClassHierarchy := fun _ => lit "plants::Apple"
    createInstance := fun _ => ()
    readFrom := Serializable.rootReadFrom
    writeTo := Serializable.rootWriteTo }

end scenario

/-! ## Sequences of writes -/

namespace aqlib.BinaryWriteArchive

/-- The method `writeTime`: seven `writeInt`. The arguments are what the accessors of
`boost::posix_time::ptime` give for the value that is written: the year, the month, the
day, and the hours, minutes, seconds and fractional seconds of the time of day. -/
def writeTime (year month day hours minutes seconds fractional_seconds : Int)
    (a : BinaryWriteArchive) : Except Exception Unit × BinaryWriteArchive :=
  thenWrite (writeInt (toInt32 year) a) fun a =>
  thenWrite (writeInt (toInt32 month) a) fun a =>
  thenWrite (writeInt (toInt32 day) a) fun a =>
  thenWrite (writeInt (toInt32 hours) a) fun a =>
  thenWrite (writeInt (toInt32 minutes) a) fun a =>
  thenWrite (writeInt (toInt32 seconds) a) fun a =>
  writeInt (toInt32 fractional_seconds) a

/-- A call of one of the public write methods of `BinaryWriteArchive`, with its
arguments. -/
inductive Call (σ : Type) where
  | writeInt (value : Int)
  | writeFloat (value : Int)
  | writeBool (value : Bool)
  | writeString (value : CString)
  | writeObject (value : Option σ)
  | writeTime (year month day hours minutes seconds fractional_seconds : Int)

/-- The method that a call names, on an archive. -/
def call {σ : Type} (V : Serializable σ) :
    Call σ → BinaryWriteArchive → Except Exception Unit × BinaryWriteArchive
  | .writeInt value, a => a.writeInt value
  | .writeFloat value, a => a.writeFloat value
  | .writeBool value, a => a.writeBool value
  | .writeString value, a => a.writeString value
  | .writeObject value, a => a.writeObject V value
  | .writeTime year month day hours minutes seconds fractional_seconds, a =>
    a.writeTime year month day hours minutes seconds fractional_seconds

/-- The archive after a sequence of calls. A call that has thrown leaves the archive
to the calls that follow, as a caller that catches the exception does. -/
def calls {σ : Type} (V : Serializable σ) : List (Call σ) → BinaryWriteArchive → BinaryWriteArchive
  | [], a => a
  | c :: rest, a => calls V rest (call V c a).2

end aqlib.BinaryWriteArchive

/-! ## DemoSerializableWithMacros

The type `boost::posix_time::ptime` and its constructors are not of this program:
the type is the parameter `τ`, and what `readTime` builds from the seven numbers,
or throws, is the parameter `timestamp`. -/

namespace aqlib

/-- The method `BinaryReadArchive::readTime`: seven `readInt`, then the
constructors of `date`, `time_duration` and `ptime`. -/
def BinaryReadArchive.readTime {τ : Type}
    (timestamp : Int → Int → Int → Int → Int → Int → Int → Except Exception τ)
    (a : BinaryReadArchive) : Except Exception τ × BinaryReadArchive :=
  andThen (BinaryReadArchive.readInt a) fun year a =>
  andThen (BinaryReadArchive.readInt a) fun month a =>
  andThen (BinaryReadArchive.readInt a) fun day a =>
  andThen (BinaryReadArchive.readInt a) fun hours a =>
  andThen (BinaryReadArchive.readInt a) fun minutes a =>
  andThen (BinaryReadArchive.readInt a) fun seconds a =>
  andThen (BinaryReadArchive.readInt a) fun fractional_seconds a =>
  match timestamp year month day hours minutes seconds fractional_seconds with
  | .ok value => (.ok value, a)
  | .error e => (.error e, a)

/-- The members of `DemoSerializableWithMacros`. `mObjectValue` points to a
`DemoSerializableNoMacros`, which has no members, or is null. -/
structure DemoSerializableWithMacros (τ : Type) where
  mIntValue : Int
  mDoubleValue : Int
  mStringValue : CString
  mTimeValue : τ
  mObjectValue : Option Unit

namespace DemoSerializableWithMacros

/-- The constructor, which is empty: the string is empty, the time is what the
constructor of `ptime` gives, here `not_a_date_time`, and the pointer is null.
`mIntValue` and `mDoubleValue` are left unset, taken as 0. -/
def new {τ : Type} (not_a_date_time : τ) : DemoSerializableWithMacros τ :=
  { mIntValue := 0, mDoubleValue := 0, mStringValue := [], mTimeValue := not_a_date_time,
    mObjectValue := none }

/-- The cast `dynamic_cast<DemoSerializableNoMacros *>`. -/
def asDemoSerializableNoMacros : Option Obj → Option Unit
  | some .DemoSerializableNoMacros => some ()
  | _ => none

/-- The method `classReadFrom`; `readObject` is that of the archive. -/
def classReadFrom {τ : Type}
    (timestamp : Int → Int → Int → Int → Int → Int → Int → Except Exception τ)
    (readObject : BinaryReadArchive → Except Exception (Option Obj) × BinaryReadArchive)
    (self : DemoSerializableWithMacros τ) (archive : BinaryReadArchive) :
    Except Exception (DemoSerializableWithMacros τ) × BinaryReadArchive :=
  andThen (BinaryReadArchive.readInt archive) fun mIntValue a =>
  andThen (BinaryReadArchive.readFloat a) fun mDoubleValue a =>
  andThen (BinaryReadArchive.readString a) fun mStringValue a =>
  if !a.hasMoreData then (.ok { self with mIntValue, mDoubleValue, mStringValue }, a)
  else
    andThen (BinaryReadArchive.readTime timestamp a) fun mTimeValue a =>
    andThen (readObject a) fun object a =>
    (.ok { mIntValue, mDoubleValue, mStringValue, mTimeValue,
           mObjectValue := asDemoSerializableNoMacros object }, a)

/-- The method `readFrom` that the macro generates for the class, whose base is
`aqlib::Serializable`. -/
def readFrom {τ : Type}
    (timestamp : Int → Int → Int → Int → Int → Int → Int → Except Exception τ)
    (readObject : BinaryReadArchive → Except Exception (Option Obj) × BinaryReadArchive)
    (self : DemoSerializableWithMacros τ) (archive : BinaryReadArchive) :
    Except Exception (DemoSerializableWithMacros τ) × BinaryReadArchive :=
  AQLIB_IMPLEMENT_SERIAL.readFrom Serializable.rootReadFrom (classReadFrom timestamp readObject)
    self archive

end DemoSerializableWithMacros

end aqlib

/-! ## The receiving side of a connection

One thread alone is followed: `mStopRequested` changes only where the receiver
itself calls `requestStop`. -/

namespace net

/-- The socket of a connection as the receiver meets it: what the calls of `::recv`
to come bring, in order. `some bytes` is an arrival of bytes, of which a call takes
as many as it asked for at most and leaves the others to the next call; an arrival
of no bytes is a count of 0, the peer closing; `none` is a negative count, an error.
Once the list is used up the peer has closed. -/
structure Socket where
  mIncoming : List (Option CString)
  deriving DecidableEq, Repr

/-- The method `Socket::recv(buf, len)`; what is returned are the bytes put into
`buf`, whose number is the count that the method returns. -/
def Socket.recv (len : Nat) (s : Socket) : Except Exception CString × Socket :=
  match s.mIncoming with
  | [] => (.ok [], s)
  | none :: rest => (.error .recvError, { mIncoming := rest })
  | some bytes :: rest =>
    if bytes.length ≤ len then (.ok bytes, { mIncoming := rest })
    else (.ok (bytes.take len), { mIncoming := some (bytes.drop len) :: rest })

/-- A call that the receiver makes on its owner, the connection. -/
inductive Upcall (σ : Type) where
  | connectionClosed
  | messageReceived (message : σ)
  deriving DecidableEq, Repr

/-- The member `mStopRequested` of `ReceiverThread`, the socket of its owner, and
under `mOwner` the calls made on the owner so far, the latest last. -/
structure ReceiverThread (σ : Type) where
  mStopRequested : Bool
  mSocket : Socket
  mOwner : List (Upcall σ)
  deriving DecidableEq, Repr

namespace ReceiverThread

/-- The method `requestStop`. -/
def requestStop {σ : Type} (t : ReceiverThread σ) : ReceiverThread σ :=
  { t with mStopRequested := true }

/-- The loop of `receivePacket`; it returns the buffer as the loop has filled it. -/
def receiveLoop {σ : Type} :
    Nat → CString → Nat → Nat → ReceiverThread σ → Except Exception CString × ReceiverThread σ
  | _, buf, _, 0, t => (.ok buf, t)
  | 0, _, _, _ + 1, t => (.error .outOfFuel, t)
  | fuel + 1, buf, off, len + 1, t =>
    match t.mSocket.recv (len + 1) with
    | (.error e, socket) => (.error e, { t with mSocket := socket })
    | (.ok received, socket) =>
      if received.length = 0 then
        (.ok buf, { (requestStop { t with mSocket := socket }) with
          mOwner := t.mOwner ++ [.connectionClosed] })
      else
        receiveLoop fuel (buf.take off ++ received ++ buf.drop (off + received.length))
          (off + received.length) (len + 1 - received.length) { t with mSocket := socket }

/-- The method `receivePacket(buf + off, len)` on the buffer `buf`. Every round of the
loop but the last receives a byte or more, so `len` rounds are enough. -/
def receivePacket {σ : Type} (buf : CString) (off len : Nat) (t : ReceiverThread σ) :
    Except Exception CString × ReceiverThread σ :=
  receiveLoop len buf off len t

/-- The method `process`. -/
def process {σ : Type} (V : Serializable σ) (mFactory : DefaultObjectFactory σ)
    (t : ReceiverThread σ) : Except Exception Unit × ReceiverThread σ :=
  match receivePacket (List.replicate 4 0) 0 4 t with
  | (.error e, t1) => (.error e, t1)
  | (.ok header, t1) =>
    match BinaryReadArchive.new header (toInt32 header.length) with
    | .error e => (.error e, t1)
    | .ok sizeArchive =>
      match sizeArchive.readInt with
      | (.error e, _) => (.error e, t1)
      | (.ok size, _) =>
        if size < 0 ∨ size > BinaryWriteArchive.MAXIMUM_ARCHIVE_SIZE then (.error .invalidSize, t1)
        else
          match receivePacket (header ++ List.replicate size.toNat 0) header.length size.toNat
              t1 with
          | (.error e, t2) => (.error e, t2)
          | (.ok packet, t2) =>
            match BinaryReadArchive.new packet (toInt32 packet.length) with
            | .error e => (.error e, t2)
            | .ok messageArchive =>
              match messageArchive.readObject V mFactory with
              | (.error _, _) => (.ok (), t2)
              | (.ok none, _) => (.ok (), t2)
              | (.ok (some message), _) =>
                (.ok (), { t2 with mOwner := t2.mOwner ++ [.messageReceived message] })

/-- The method `run`, with a bound on the rounds of its loop. -/
def run {σ : Type} (V : Serializable σ) (mFactory : DefaultObjectFactory σ) :
    Nat → ReceiverThread σ → Except Exception (ReceiverThread σ)
  | 0, t => if t.mStopRequested then .ok t else .error .outOfFuel
  | fuel + 1, t =>
    if t.mStopRequested then .ok t
    else
      match process V mFactory t with
      | (.ok _, t1) => run V mFactory fuel t1
      | (.error _, t1) =>
        if !t1.mStopRequested then .ok { t1 with mOwner := t1.mOwner ++ [.connectionClosed] }
        else .ok t1

end ReceiverThread

/-- The next `n` bytes of the stream that a socket brings, with what the socket
brings after them; `none` if the peer closes or an error comes before `n` bytes
have come. -/
def Socket.next : Nat → List (Option CString) → Option (CString × List (Option CString))
  | 0, incoming => some ([], incoming)
  | _ + 1, [] => none
  | _ + 1, none :: _ => none
  | n + 1, some bytes :: rest =>
    if bytes.length = 0 then none
    else if bytes.length ≤ n + 1 then
      match Socket.next (n + 1 - bytes.length) rest with
      | some (more, incoming) => some (bytes ++ more, incoming)
      | none => none
    else some (bytes.take (n + 1), some (bytes.drop (n + 1)) :: rest)

end net

/-! ## Methods that wait on a monitor

One thread is followed at a time. A method that calls `wait()` on its `Monitor`
stays there until another thread changes what it waits for; woken, it tests its
condition again, as the same call made at that later moment would. -/

namespace aqlib

/-- How a call of a method that may wait goes: the call returns, it throws, or it is
in `wait()`, having changed nothing. -/
inductive Monitor.Outcome (α : Type) where
  | returned (value : α)
  | thrown (e : Exception)
  | waits
  deriving DecidableEq, Repr

end aqlib

/-! ## The sending side of a connection -/

namespace net

/-- The members `mStopRequested`, `mPackets` and `mQueueSize` of `SenderThread`. -/
structure SenderThread where
  mStopRequested : Bool
  mPackets : List CString
  mQueueSize : Int
  deriving DecidableEq, Repr

namespace SenderThread

/-- The constant `MAX_QUEUE_SIZE`, 10 Mb. -/
def MAX_QUEUE_SIZE : Int := 10 * 1024 * 1024

/-- The constructor. -/
def new : SenderThread := { mStopRequested := false, mPackets := [], mQueueSize := 0 }

/-- The method `requestStop`. -/
def requestStop (t : SenderThread) : SenderThread := { t with mStopRequested := true }

/-- The method `post(data, length)`. The packet is `std::string(data, length)`, the
first `length` bytes at `data`; the sums are sums of `int`. -/
def post (data : CString) (length : Int) (t : SenderThread) :
    Monitor.Outcome Unit × SenderThread :=
  if length ≤ 0 then (.thrown .invalidPostLength, t)
  else if toInt32 (t.mQueueSize + length) > MAX_QUEUE_SIZE ∧ ¬ t.mStopRequested then (.waits, t)
  else if t.mStopRequested then (.returned (), t)
  else
    (.returned (), { t with mPackets := t.mPackets ++ [data.take length.toNat],
                            mQueueSize := toInt32 (t.mQueueSize + length) })

/-- The method `getNextPacket`; `none` is the null packet. -/
def getNextPacket (t : SenderThread) : Monitor.Outcome (Option CString) × SenderThread :=
  if t.mPackets.length = 0 ∧ ¬ t.mStopRequested then (.waits, t)
  else if t.mStopRequested then (.returned none, t)
  else
    match t.mPackets with
    | [] => (.returned none, t)
    | packet :: rest =>
      (.returned (some packet),
        { t with mPackets := rest, mQueueSize := toInt32 (t.mQueueSize - packet.length) })

/-- A call made on a `SenderThread`: `post(b.data(), b.size())` for a packet `b`,
`getNextPacket()` or `requestStop()`. -/
inductive Call where
  | post (b : CString)
  | getNextPacket
  | requestStop
  deriving DecidableEq, Repr

/-- The sender after a call. -/
def call : Call → SenderThread → SenderThread
  | .post b, t => (t.post b (b.length : Int)).2
  | .getNextPacket, t => t.getNextPacket.2
  | .requestStop, t => t.requestStop

/-- The sender after a sequence of calls. -/
def calls : List Call → SenderThread → SenderThread
  | [], t => t
  | c :: rest, t => calls rest (call c t)

end SenderThread

end net

/-! ## The simulation module -/

namespace simulation

/-- The members of `simulation::Module` that its methods read and write; `ρ` is the
type of the simulation requests and `η` that of the listeners. -/
structure Module (ρ η : Type) where
  mShutdownRequested : Bool
  mSimulationStopRequested : Bool
  mSimulationRequest : Option ρ
  mSimulationListeners : List η
  deriving DecidableEq, Repr

namespace Module

variable {ρ η : Type}

/-- The constructor. -/
def new : Module ρ η :=
  { mShutdownRequested := false, mSimulationStopRequested := false, mSimulationRequest := none,
    mSimulationListeners := [] }

/-- The method `isShutdownRequested`. -/
def isShutdownRequested (m : Module ρ η) : Bool := m.mShutdownRequested

/-- The method `requestShutdown`. -/
def requestShutdown (m : Module ρ η) : Module ρ η := { m with mShutdownRequested := true }

/-- The method `isSimulationStopRequested`. -/
def isSimulationStopRequested (m : Module ρ η) : Bool := m.mSimulationStopRequested

/-- The method `requestSimulationStop`. -/
def requestSimulationStop (m : Module ρ η) : Module ρ η :=
  { m with mSimulationStopRequested := true }

/-- The method `requestSimulation`; `none` is the null pointer. -/
def requestSimulation (request : Option ρ) (m : Module ρ η) : Module ρ η :=
  if m.mSimulationRequest.isSome then m
  else { m with mSimulationRequest := request }

/-- The method `waitSimulationRequest`. -/
def waitSimulationRequest (m : Module ρ η) : Monitor.Outcome (Option ρ) × Module ρ η :=
  if m.mSimulationRequest.isNone ∧ ¬ m.mShutdownRequested then (.waits, m)
  else if m.mShutdownRequested then (.returned none, m)
  else (.returned m.mSimulationRequest, { m with mSimulationStopRequested := false })

/-- The method `process`; `simulate` is the virtual method of the request, which gets
the module. -/
def process (simulate : ρ → Module ρ η → Except Exception Unit × Module ρ η) (m : Module ρ η) :
    Monitor.Outcome Unit × Module ρ η :=
  match waitSimulationRequest m with
  | (.waits, m1) => (.waits, m1)
  | (.thrown e, m1) => (.thrown e, m1)
  | (.returned none, m1) => (.returned (), m1)
  | (.returned (some request), m1) =>
    match simulate request m1 with
    | (.error e, m2) => (.thrown e, m2)
    | (.ok _, m2) => (.returned (), { m2 with mSimulationRequest := none })

/-- The method `run`, with a bound on the rounds of its loop: an exception of
`process` is logged and the loop goes on. -/
def run (simulate : ρ → Module ρ η → Except Exception Unit × Module ρ η) :
    Nat → Module ρ η → Monitor.Outcome Unit × Module ρ η
  | 0, m => if m.isShutdownRequested then (.returned (), m) else (.thrown .outOfFuel, m)
  | fuel + 1, m =>
    if m.isShutdownRequested then (.returned (), m)
    else
      match process simulate m with
      | (.waits, m1) => (.waits, m1)
      | (.returned _, m1) => run simulate fuel m1
      | (.thrown _, m1) => run simulate fuel m1

/-- A call that another thread makes on the module before a simulation starts. -/
inductive Call (ρ : Type) where
  | requestSimulationStop
  | requestSimulation (request : Option ρ)

/-- The module after a call. -/
def call : Call ρ → Module ρ η → Module ρ η
  | .requestSimulationStop, m => m.requestSimulationStop
  | .requestSimulation request, m => m.requestSimulation request

/-- The module after a sequence of calls. -/
def calls : List (Call ρ) → Module ρ η → Module ρ η
  | [], m => m
  | c :: rest, m => calls rest (call c m)

end Module

/-- The method `SimulationRequest::simulate`: it throws. -/
def SimulationRequest.simulate {μ : Type} (owner : μ) : Except Exception Unit × μ :=
  (.error .notImplemented, owner)

/-- A call of `Module::notifySimulationProgressUpdate(percentRemaining, result)`;
`none` is the null result. The `double` is held as the rational it stands for. -/
structure ProgressUpdate where
  percentRemaining : ℚ
  result : Option Graphs
  deriving DecidableEq, Repr

/-- The `for` loop of `BlackScholes::simulate`, from `i` down to 1. `simulateReplication i`
is what the call in round `i` gives or throws and `isSimulationStopRequested i` what the
module answers in round `i`. It returns the values added to the histogram and the calls of
`notifySimulationProgressUpdate` made so far, the latest last. -/
def BlackScholes.simulateLoop {π : Type} (mSimulationsCount : Int)
    (simulateReplication : Nat → Except Exception π) (isSimulationStopRequested : Nat → Bool) :
    Nat → List π → List ProgressUpdate → Except Exception (List π) × List ProgressUpdate
  | 0, dhist, updates => (.ok dhist, updates)
  | i + 1, dhist, updates =>
    let percentRemaining : ℚ := ((i + 1 : Nat) : ℚ) / (mSimulationsCount : ℚ)
    let updates1 :=
      if (i + 1) % 100 = 0 then updates ++ [{ percentRemaining, result := none }] else updates
    match simulateReplication (i + 1) with
    | .error e => (.error e, updates1)
    | .ok pnl =>
      if isSimulationStopRequested (i + 1) then
        (.ok (dhist ++ [pnl]), updates1 ++ [{ percentRemaining := 0, result := none }])
      else
        BlackScholes.simulateLoop mSimulationsCount simulateReplication isSimulationStopRequested
          i (dhist ++ [pnl]) updates1

/-- The method `BlackScholes::simulate`; `computeHistogram` gives the graph of the
histogram of the values added. It returns the calls of `notifySimulationProgressUpdate`
that it has made, in order. -/
def BlackScholes.simulate {π : Type} (mSimulationsCount : Int)
    (simulateReplication : Nat → Except Exception π)
    (computeHistogram : List π → List (Int × Int)) (isSimulationStopRequested : Nat → Bool) :
    Except Exception Unit × List ProgressUpdate :=
  match BlackScholes.simulateLoop mSimulationsCount simulateReplication isSimulationStopRequested
      mSimulationsCount.toNat [] [] with
  | (.error e, updates) => (.error e, updates)
  | (.ok dhist, updates) =>
    (.ok (), updates ++ [{ percentRemaining := 0, result := some [computeHistogram dhist] }])

end simulation

/-! ## The connection manager -/

namespace net

/-- The member `mConnections` of `ConnectionManager`; `κ` is the type of the
connections. -/
structure ConnectionManager (κ : Type) where
  mConnections : List κ
  deriving DecidableEq, Repr

namespace ConnectionManager

variable {κ : Type}

/-- The `for` loop of `processRemoved`: the first connection with the id, if there is
one, and the list without it. -/
def findAndErase (getId : κ → Int) (connectionId : Int) : List κ → Option κ × List κ
  | [] => (none, [])
  | contained :: rest =>
    if getId contained ≠ connectionId then
      ((findAndErase getId connectionId rest).1,
        contained :: (findAndErase getId connectionId rest).2)
    else (some contained, rest)

/-- The method `processRemoved`. It returns the manager and the connections on which
`cleanup` has been called; an exception of `cleanup` is caught and logged. -/
def processRemoved (getId : κ → Int) (cleanup : κ → Except Exception Unit) (connectionId : Int)
    (m : ConnectionManager κ) : ConnectionManager κ × List κ :=
  match findAndErase getId connectionId m.mConnections with
  | (none, connections) => ({ mConnections := connections }, [])
  | (some connection, connections) =>
    match cleanup connection with
    | .ok _ => ({ mConnections := connections }, [connection])
    | .error _ => ({ mConnections := connections }, [connection])

end ConnectionManager

end net

namespace net.SenderThread

/-- The state that `post` and `getNextPacket` keep: `mQueueSize` is the sum of the sizes
of the queued packets and is at most `MAX_QUEUE_SIZE`. -/
structure WF (t : SenderThread) : Prop where
  sum : t.mQueueSize = (((t.mPackets.map List.length).sum : Nat) : Int)
  max : t.mQueueSize ≤ MAX_QUEUE_SIZE

end net.SenderThread

/-! # Lemmas -/

namespace aqlib

theorem toBits32_natCast (n : Nat) : toBits32 (n : Int) = n % 4294967296 := by
  unfold toBits32; omega

theorem toBits32_ofBits32 (n : Nat) : toBits32 (ofBits32 n) = n % 4294967296 := by
  unfold toBits32 ofBits32; split <;> omega

theorem ofBits32_small (n : Nat) (h : n < 2147483648) : ofBits32 n = n := by
  unfold ofBits32; split <;> omega

theorem toInt32_of_isInt32 (v : Int) (h : IsInt32 v) : toInt32 v = v := by
  unfold IsInt32 at h
  unfold toInt32 toBits32 ofBits32; split <;> omega

theorem and32_255_left (y : Int) : and32 0xff y = ((toBits32 y % 256 : Nat) : Int) := by
  unfold and32
  have h : toBits32 255 = 255 := by decide
  rw [h, Nat.and_comm]
  have := Nat.and_pow_two_sub_one_eq_mod (toBits32 y) 8
  simp only [Nat.reducePow, Nat.add_one_sub_one, Nat.reduceSub] at this
  rw [this]
  apply ofBits32_small; omega

theorem and32_255_right (y : Int) : and32 y 0xff = ((toBits32 y % 256 : Nat) : Int) := by
  unfold and32
  have h : toBits32 255 = 255 := by decide
  rw [h]
  have := Nat.and_pow_two_sub_one_eq_mod (toBits32 y) 8
  simp only [Nat.reducePow, Nat.add_one_sub_one, Nat.reduceSub] at this
  rw [this]
  apply ofBits32_small; omega

theorem toChar_and_sar (v : Int) (h : IsInt32 v) (k : Nat) (hk : k ≤ 3) :
    toChar (and32 0xff (sar32 v (8 * k))) = (toBits32 v / 256 ^ k) % 256 := by
  rw [and32_255_left]
  unfold toChar sar32 toBits32 IsInt32 at *
  interval_cases k <;> simp <;> omega

theorem ofChar_and (c : Nat) : and32 (ofChar c) 0xff = ((c % 256 : Nat) : Int) := by
  rw [and32_255_right]
  unfold ofChar toBits32
  split <;> congr 1 <;> omega

theorem shl32_byte (c k : Nat) (hc : c < 256) :
    shl32 (c : Int) k = ofBits32 (c * 2 ^ k) := by
  unfold shl32
  rw [toBits32_natCast, Nat.shiftLeft_eq, Nat.mod_eq_of_lt (by omega : c < 4294967296)]

theorem or32_ofBits32 (m n : Nat) (hm : m < 4294967296) (hn : n < 4294967296) :
    or32 (ofBits32 m) (ofBits32 n) = ofBits32 (m ||| n) := by
  unfold or32
  rw [toBits32_ofBits32, toBits32_ofBits32, Nat.mod_eq_of_lt hm, Nat.mod_eq_of_lt hn]

theorem combine_eq (x b c d : Nat) (hx : x < 256) (hb : b < 256) (hc : c < 256) (hd : d < 256) :
    combine x b c d = ofBits32 (x * 16777216 + b * 65536 + c * 256 + d) := by
  unfold combine
  simp only [ofChar_and, Nat.mod_eq_of_lt hx, Nat.mod_eq_of_lt hb, Nat.mod_eq_of_lt hc,
    Nat.mod_eq_of_lt hd]
  rw [shl32_byte x 24 hx, shl32_byte b 16 hb, shl32_byte c 8 hc]
  have hd2 : ((d : Nat) : Int) = ofBits32 d := (ofBits32_small d (by omega)).symm
  rw [hd2]
  have h1 : x * 2 ^ 24 ||| b * 2 ^ 16 = x * 16777216 + b * 65536 := by
    have := @Nat.mul_add_lt_is_or 24 (b * 2 ^ 16) (by omega) x
    rw [Nat.mul_comm x, ← this]; omega
  have h2 : (x * 16777216 + b * 65536) ||| c * 2 ^ 8 = x * 16777216 + b * 65536 + c * 256 := by
    have := @Nat.mul_add_lt_is_or 16 (c * 2 ^ 8) (by omega) (x * 256 + b)
    rw [show x * 16777216 + b * 65536 = 2 ^ 16 * (x * 256 + b) by omega, ← this]; omega
  have h3 : (x * 16777216 + b * 65536 + c * 256) ||| d = x * 16777216 + b * 65536 + c * 256 + d := by
    have := @Nat.mul_add_lt_is_or 8 d (by omega) (x * 65536 + b * 256 + c)
    rw [show x * 16777216 + b * 65536 + c * 256 = 2 ^ 8 * (x * 65536 + b * 256 + c) by omega, ← this]
  rw [or32_ofBits32 _ _ (by omega) (by omega), h1, or32_ofBits32 _ _ (by omega) (by omega), h2,
    or32_ofBits32 _ _ (by omega) (by omega), h3]

theorem combine_be32 (v : Int) (h : IsInt32 v) :
    combine (toBits32 v / 16777216 % 256) (toBits32 v / 65536 % 256) (toBits32 v / 256 % 256)
      (toBits32 v % 256) = v := by
  rw [combine_eq _ _ _ _ (Nat.mod_lt _ (by omega)) (Nat.mod_lt _ (by omega))
    (Nat.mod_lt _ (by omega)) (Nat.mod_lt _ (by omega))]
  have hb : toBits32 v < 4294967296 := by unfold toBits32; omega
  have : toBits32 v / 16777216 % 256 * 16777216 + toBits32 v / 65536 % 256 * 65536
      + toBits32 v / 256 % 256 * 256 + toBits32 v % 256 = toBits32 v := by omega
  rw [this]
  exact toInt32_of_isInt32 v h

namespace BinaryWriteArchive

theorem wf_new : WF new := ⟨by simp [new], ⟨0, by omega, rfl⟩, by simp [new]⟩

theorem cap_lt (k : Nat) (hk : k < 10) : 1024 * 2 ^ k < MAXIMUM_ARCHIVE_SIZE := by
  unfold MAXIMUM_ARCHIVE_SIZE; interval_cases k <;> norm_num

theorem cap_le (k : Nat) (hk : k ≤ 10) : 1024 * 2 ^ k ≤ MAXIMUM_ARCHIVE_SIZE := by
  unfold MAXIMUM_ARCHIVE_SIZE; interval_cases k <;> norm_num

theorem WF.le_max {a : BinaryWriteArchive} (h : WF a) : a.mLength ≤ MAXIMUM_ARCHIVE_SIZE := by
  obtain ⟨k, hk, hc⟩ := h.cap
  rw [hc]; exact cap_le k hk

theorem growBuffer_ok (a : BinaryWriteArchive) (k : Nat) (hl : a.mData.length = a.mLength)
    (hk : k < 10) (hc : a.mLength = 1024 * 2 ^ k) :
    growBuffer a = (.ok (), { mData := a.mData ++ List.replicate a.mLength 0,
                              mLength := 2 * a.mLength, mPosition := a.mPosition }) := by
  have h1 : ¬ a.mLength ≥ MAXIMUM_ARCHIVE_SIZE := by
    have := cap_lt k hk; omega
  have h2 : (if a.mLength < MAXIMUM_ARCHIVE_SIZE / 2 then a.mLength * 2 else MAXIMUM_ARCHIVE_SIZE)
      = 2 * a.mLength := by
    rw [hc]; unfold MAXIMUM_ARCHIVE_SIZE; interval_cases k <;> norm_num
  unfold growBuffer
  rw [if_neg h1]
  simp only [h2]
  rw [List.take_of_length_le (by omega), show 2 * a.mLength - a.mLength = a.mLength by omega]

theorem growBuffer_full (a : BinaryWriteArchive) (hc : a.mLength = MAXIMUM_ARCHIVE_SIZE) :
    growBuffer a = (.error .sizeTooBig, a) := by
  unfold growBuffer
  rw [if_pos (by omega)]

theorem growWhile_ok (need : Nat) (hn : need < MAXIMUM_ARCHIVE_SIZE) :
    ∀ (fuel k : Nat) (a : BinaryWriteArchive), a.mData.length = a.mLength → k ≤ 10 →
      a.mLength = 1024 * 2 ^ k → 10 ≤ fuel + k →
      ∃ a1, growWhile need fuel a = (.ok (), a1) ∧ a1.mData.length = a1.mLength ∧
        (∃ j, j ≤ 10 ∧ a1.mLength = 1024 * 2 ^ j) ∧ a1.mPosition = a.mPosition ∧
        need < a1.mLength ∧ a.mLength ≤ a1.mLength ∧ a1.mData.take a.mLength = a.mData := by
  intro fuel
  induction fuel with
  | zero =>
    intro k a hl hk hc hf
    have hk10 : k = 10 := by omega
    subst hk10
    refine ⟨a, ?_, hl, ⟨10, le_refl _, hc⟩, rfl, ?_, le_refl _, ?_⟩
    · unfold growWhile
      rw [if_neg]
      rw [hc]; unfold MAXIMUM_ARCHIVE_SIZE at hn; omega
    · rw [hc]; unfold MAXIMUM_ARCHIVE_SIZE at hn; omega
    · exact List.take_of_length_le (by omega)
  | succ fuel ih =>
    intro k a hl hk hc hf
    by_cases hneed : need ≥ a.mLength
    · have hk10 : k < 10 := by
        rcases Nat.lt_or_ge k 10 with h | h
        · exact h
        · have : k = 10 := by omega
          subst this
          rw [hc] at hneed; unfold MAXIMUM_ARCHIVE_SIZE at hn; omega
      obtain ⟨a1, h1, h2, h3, h4, h5, h6, h7⟩ := ih (k + 1)
        { mData := a.mData ++ List.replicate a.mLength 0, mLength := 2 * a.mLength,
          mPosition := a.mPosition }
        (by simp; omega) (by omega) (by simp only [hc, pow_succ]; omega) (by omega)
      refine ⟨a1, ?_, h2, h3, h4, h5, ?_, ?_⟩
      · unfold growWhile
        rw [if_pos hneed, growBuffer_ok a k hl hk10 hc]
        exact h1
      · simp only at h6; omega
      · simp only at h6 h7
        have := congrArg (List.take a.mLength) h7
        rw [List.take_take, Nat.min_eq_left (by omega)] at this
        rw [this, List.take_append_of_le_length (by omega), List.take_of_length_le (by omega)]
    · refine ⟨a, ?_, hl, ⟨k, hk, hc⟩, rfl, by omega, le_refl _, List.take_of_length_le (by omega)⟩
      unfold growWhile
      rw [if_neg hneed]

theorem growWhile_full (need : Nat) (hn : MAXIMUM_ARCHIVE_SIZE ≤ need) :
    ∀ (fuel k : Nat) (a : BinaryWriteArchive), a.mData.length = a.mLength → k ≤ 10 →
      a.mLength = 1024 * 2 ^ k → 11 ≤ fuel + k →
      ∃ a1, growWhile need fuel a = (.error .sizeTooBig, a1) ∧ a1.mData.length = a1.mLength ∧
        a1.mLength = MAXIMUM_ARCHIVE_SIZE ∧ a1.mPosition = a.mPosition ∧
        a1.mData.take a.mLength = a.mData := by
  intro fuel
  induction fuel with
  | zero => intro k a hl hk hc hf; omega
  | succ fuel ih =>
    intro k a hl hk hc hf
    have hneed : need ≥ a.mLength := by
      have := cap_le k hk; omega
    rcases Nat.lt_or_ge k 10 with hk10 | hk10
    · obtain ⟨a1, h1, h2, h3, h4, h5⟩ := ih (k + 1)
        { mData := a.mData ++ List.replicate a.mLength 0, mLength := 2 * a.mLength,
          mPosition := a.mPosition }
        (by simp; omega) (by omega) (by simp only [hc, pow_succ]; omega) (by omega)
      refine ⟨a1, ?_, h2, h3, h4, ?_⟩
      · unfold growWhile
        rw [if_pos hneed, growBuffer_ok a k hl hk10 hc]
        exact h1
      · simp only at h5
        have := congrArg (List.take a.mLength) h5
        rw [List.take_take, Nat.min_eq_left (by omega)] at this
        rw [this, List.take_append_of_le_length (by omega), List.take_of_length_le (by omega)]
    · have : k = 10 := by omega
      subst this
      have hm : a.mLength = MAXIMUM_ARCHIVE_SIZE := by rw [hc]; rfl
      refine ⟨a, ?_, hl, hm, rfl, List.take_of_length_le (by omega)⟩
      unfold growWhile
      rw [if_pos hneed, growBuffer_full a hm]


theorem take_succ_set (l : List Nat) (n c : Nat) (h : n < l.length) :
    (l.set n c).take (n + 1) = l.take n ++ [c] := by
  induction l generalizing n with
  | nil => simp at h
  | cons x xs ih =>
    cases n with
    | zero => simp
    | succ m =>
      simp only [List.set_cons_succ, List.take_succ_cons, List.cons_append, List.cons.injEq, true_and]
      exact ih m (by simpa using h)

theorem writeChar_ok (c : Nat) (a : BinaryWriteArchive) (h : WF a)
    (hp : a.mPosition < MAXIMUM_ARCHIVE_SIZE) :
    ∃ a1, writeChar c a = (.ok (), a1) ∧ WF a1 ∧ a1.mPosition = a.mPosition + 1 ∧
      a1.getData = a.getData ++ [c] := by
  obtain ⟨k, hk, hc⟩ := h.cap
  obtain ⟨a1, h1, h2, h3, h4, h5, h6, h7⟩ :=
    growWhile_ok a.mPosition hp GROW_FUEL k a h.len hk hc (by unfold GROW_FUEL; omega)
  refine ⟨{ a1 with mData := a1.mData.set a1.mPosition c, mPosition := a1.mPosition + 1 },
    ?_, ⟨?_, h3, ?_⟩, ?_, ?_⟩
  · unfold writeChar; rw [h1]
  · simp [h2]
  · simp only; omega
  · simp only; omega
  · unfold getData size
    simp only
    rw [take_succ_set _ _ _ (by omega), h4]
    congr 1
    have := congrArg (List.take a.mPosition) h7
    rw [List.take_take, Nat.min_eq_left h.pos] at this
    exact this

theorem writeChar_full (c : Nat) (a : BinaryWriteArchive) (h : WF a)
    (hp : MAXIMUM_ARCHIVE_SIZE ≤ a.mPosition) :
    ∃ a1, writeChar c a = (.error .sizeTooBig, a1) ∧ a1.mPosition = a.mPosition ∧
      a1.getData = a.getData := by
  obtain ⟨k, hk, hc⟩ := h.cap
  obtain ⟨a1, h1, h2, h3, h4, h5⟩ :=
    growWhile_full a.mPosition hp GROW_FUEL k a h.len hk hc (by unfold GROW_FUEL; omega)
  refine ⟨a1, ?_, h4, ?_⟩
  · unfold writeChar; rw [h1]
  · unfold getData size
    rw [h4]
    have := congrArg (List.take a.mPosition) h5
    rw [List.take_take, Nat.min_eq_left h.pos] at this
    exact this

theorem writeInt_bytes (v : Int) (hv : IsInt32 v) :
    [toChar (and32 0xff (sar32 v 24)), toChar (and32 0xff (sar32 v 16)),
      toChar (and32 0xff (sar32 v 8)), toChar (and32 0xff v)] = be32 v := by
  have h3 := toChar_and_sar v hv 3 (by omega)
  have h2 := toChar_and_sar v hv 2 (by omega)
  have h1 := toChar_and_sar v hv 1 (by omega)
  have h0 := toChar_and_sar v hv 0 (by omega)
  simp only [sar32, Nat.mul_zero, pow_zero, Int.ediv_one, Nat.div_one] at h0
  norm_num at h3 h2 h1
  unfold be32
  rw [h3, h2, h1]
  congr 3
  rw [← h0]

theorem writeInt_ok (v : Int) (hv : IsInt32 v) (a : BinaryWriteArchive) (h : WF a)
    (hp : a.mPosition + 4 ≤ MAXIMUM_ARCHIVE_SIZE) :
    ∃ a1, writeInt v a = (.ok (), a1) ∧ WF a1 ∧ a1.mPosition = a.mPosition + 4 ∧
      a1.getData = a.getData ++ be32 v := by
  obtain ⟨a1, e1, w1, p1, d1⟩ := writeChar_ok (toChar (and32 0xff (sar32 v 24))) a h (by omega)
  obtain ⟨a2, e2, w2, p2, d2⟩ := writeChar_ok (toChar (and32 0xff (sar32 v 16))) a1 w1 (by omega)
  obtain ⟨a3, e3, w3, p3, d3⟩ := writeChar_ok (toChar (and32 0xff (sar32 v 8))) a2 w2 (by omega)
  obtain ⟨a4, e4, w4, p4, d4⟩ := writeChar_ok (toChar (and32 0xff v)) a3 w3 (by omega)
  refine ⟨a4, ?_, w4, by omega, ?_⟩
  · unfold writeInt
    simp only [e1, e2, e3, e4]
  · rw [d4, d3, d2, d1, ← writeInt_bytes v hv]
    simp


theorem isInt32_toInt32 (v : Int) : IsInt32 (toInt32 v) := by
  unfold IsInt32 toInt32 ofBits32 toBits32; split <;> omega

theorem isInt32_natCast (n : Nat) (h : n < 2147483648) : IsInt32 (n : Int) := by
  unfold IsInt32; omega

theorem writeString_ok (s : CString) (a : BinaryWriteArchive) (h : WF a)
    (hp : a.mPosition + 4 + s.length < MAXIMUM_ARCHIVE_SIZE) :
    ∃ a1, writeString s a = (.ok (), a1) ∧ WF a1 ∧ a1.mPosition = a.mPosition + 4 + s.length ∧
      a1.getData = a.getData ++ be32 (s.length : Int) ++ s := by
  have hM : MAXIMUM_ARCHIVE_SIZE = 1048576 := rfl
  have hlen : toInt32 (s.length : Int) = (s.length : Int) :=
    toInt32_of_isInt32 _ (isInt32_natCast _ (by omega))
  obtain ⟨a1, e1, w1, p1, d1⟩ := writeInt_ok (s.length : Int) (isInt32_natCast _ (by omega)) a h
    (by omega)
  obtain ⟨k, hk, hc⟩ := w1.cap
  obtain ⟨a2, h1, h2, h3, h4, h5, h6, h7⟩ :=
    growWhile_ok (a1.mPosition + s.length) (by omega) GROW_FUEL k a1 w1.len hk hc
      (by unfold GROW_FUEL; omega)
  refine ⟨BinaryWriteArchive.mk
      (a2.mData.take a2.mPosition ++ s ++ a2.mData.drop (a2.mPosition + s.length))
      a2.mLength (a2.mPosition + s.length), ?_, ⟨?_, h3, ?_⟩, ?_, ?_⟩
  · unfold writeString; rw [hlen, e1]; simp only; rw [h1]
  · simp only [List.length_append, List.length_take, List.length_drop]; omega
  · simp only; omega
  · simp only; omega
  · unfold getData size
    simp only
    rw [List.take_append_of_le_length (by simp; omega)]
    rw [List.take_of_length_le (by simp)]
    have := congrArg (List.take a1.mPosition) h7
    rw [List.take_take, Nat.min_eq_left w1.pos] at this
    rw [h4, this]
    have d1' := d1
    unfold getData size at d1'
    rw [d1']

theorem writeString_full (s : CString) (a : BinaryWriteArchive) (h : WF a)
    (hp4 : a.mPosition + 4 ≤ MAXIMUM_ARCHIVE_SIZE)
    (hp : MAXIMUM_ARCHIVE_SIZE ≤ a.mPosition + 4 + s.length) :
    ∃ a1, writeString s a = (.error .sizeTooBig, a1) ∧ a1.mPosition = a.mPosition + 4 ∧
      a1.getData = a.getData ++ be32 (toInt32 (s.length : Int)) := by
  obtain ⟨a1, e1, w1, p1, d1⟩ := writeInt_ok (toInt32 (s.length : Int)) (isInt32_toInt32 _) a h hp4
  obtain ⟨k, hk, hc⟩ := w1.cap
  obtain ⟨a2, h1, h2, h3, h4, h5⟩ :=
    growWhile_full (a1.mPosition + s.length) (by omega) GROW_FUEL k a1 w1.len hk hc
      (by unfold GROW_FUEL; omega)
  refine ⟨a2, ?_, by omega, ?_⟩
  · unfold writeString; rw [e1]; simp only; rw [h1]
  · rw [← d1]
    unfold getData size
    rw [h4]
    have := congrArg (List.take a1.mPosition) h5
    rw [List.take_take, Nat.min_eq_left w1.pos] at this
    exact this

end BinaryWriteArchive
namespace BinaryReadArchive

theorem drop_cons {l : List Nat} {n c : Nat} {rest : List Nat} (h : l.drop n = c :: rest) :
    l.getD n 0 = c ∧ l.drop (n + 1) = rest ∧ n < l.length := by
  induction l generalizing n with
  | nil => simp at h
  | cons x xs ih =>
    cases n with
    | zero => simp at h; simp [h.1, h.2]
    | succ m =>
      simp only [List.drop_succ_cons] at h
      obtain ⟨h1, h2, h3⟩ := ih h
      refine ⟨?_, ?_, ?_⟩
      · rw [List.getD_cons_succ]; exact h1
      · rw [List.drop_succ_cons]; exact h2
      · simp only [List.length_cons]; omega

theorem readChar_ok (a : BinaryReadArchive) (h : WF a) (c : Nat) (rest : List Nat)
    (hd : a.mData.drop a.mPosition.toNat = c :: rest) :
    readChar a = (.ok c, { a with mPosition := a.mPosition + 1 }) ∧
      WF { a with mPosition := a.mPosition + 1 } ∧
      a.mData.drop (a.mPosition + 1).toNat = rest := by
  obtain ⟨h1, h2, h3⟩ := drop_cons hd
  have hlo := h.lo
  have hlen := h.len
  have hlt : a.mPosition < a.mLength := by omega
  refine ⟨?_, ⟨h.len, ?_, ?_, h.small⟩, ?_⟩
  · unfold readChar
    rw [if_neg (by omega), h1]
  · simp only; omega
  · simp only; omega
  · rw [show (a.mPosition + 1).toNat = a.mPosition.toNat + 1 by omega]
    exact h2

theorem readChar_eof (a : BinaryReadArchive) (h : a.mPosition ≥ a.mLength) :
    readChar a = (.error .endOfStream, a) := by
  unfold readChar
  rw [if_pos h]

theorem readInt_ok (a : BinaryReadArchive) (h : WF a) (x b c d : Nat) (rest : List Nat)
    (hd : a.mData.drop a.mPosition.toNat = x :: b :: c :: d :: rest) :
    readInt a = (.ok (combine x b c d), { a with mPosition := a.mPosition + 4 }) ∧
      WF { a with mPosition := a.mPosition + 4 } ∧
      a.mData.drop (a.mPosition + 4).toNat = rest := by
  obtain ⟨e1, w1, d1⟩ := readChar_ok a h x _ hd
  obtain ⟨e2, w2, d2⟩ := readChar_ok _ w1 b _ d1
  obtain ⟨e3, w3, d3⟩ := readChar_ok _ w2 c _ d2
  obtain ⟨e4, w4, d4⟩ := readChar_ok _ w3 d _ d3
  simp only at e2 e3 e4 w2 w3 w4 d2 d3 d4
  have hp : a.mPosition + 1 + 1 + 1 + 1 = a.mPosition + 4 := by omega
  rw [hp] at e4 w4 d4
  refine ⟨?_, w4, d4⟩
  unfold readInt
  simp only [e1, e2, e3, e4]

theorem readString_ok (a : BinaryReadArchive) (h : WF a) (s rest : List Nat)
    (hd : a.mData.drop a.mPosition.toNat = be32 (s.length : Int) ++ s ++ rest) :
    readString a = (.ok s, { a with mPosition := a.mPosition + 4 + s.length }) ∧
      WF { a with mPosition := a.mPosition + 4 + s.length } ∧
      a.mData.drop (a.mPosition + 4 + s.length).toNat = rest := by
  have hlo := h.lo
  have hlen := h.len
  have hsm := h.small
  have hdl := congrArg List.length hd
  simp only [List.length_drop, List.length_append, be32, List.length_cons, List.length_nil] at hdl
  have hs : IsInt32 (s.length : Int) := by unfold IsInt32; omega
  obtain ⟨e1, w1, d1⟩ := readInt_ok a h (toBits32 (s.length : Int) / 16777216 % 256)
    (toBits32 (s.length : Int) / 65536 % 256) (toBits32 (s.length : Int) / 256 % 256)
    (toBits32 (s.length : Int) % 256) (s ++ rest) (by rw [hd]; simp [be32])
  rw [combine_be32 _ hs] at e1
  have hsum : toInt32 (a.mPosition + 4 + (s.length : Int)) = a.mPosition + 4 + s.length :=
    toInt32_of_isInt32 _ (by unfold IsInt32; omega)
  refine ⟨?_, ⟨h.len, ?_, ?_, h.small⟩, ?_⟩
  · unfold readString
    rw [e1]
    simp only [hsum]
    rw [if_neg (by omega), if_neg (by omega), d1]
    simp
  · simp only; omega
  · simp only; omega
  · rw [show (a.mPosition + 4 + (s.length : Int)).toNat = (a.mPosition + 4).toNat + s.length by omega,
      ← List.drop_drop, d1]
    simp

end BinaryReadArchive

theorem find_ge (text delimiter : CString) (pos i : Nat) (h : find text delimiter pos = some i) :
    pos ≤ i := by
  unfold find at h
  have := List.mem_of_find?_eq_some h
  rw [List.mem_range'_1] at this
  exact this.1

namespace StringTokenizer

theorem scan_ok (text delimiter : CString) (hd : 0 < delimiter.length) :
    ∀ (fuel pos : Nat) (tokens : List CString), text.length < pos + fuel →
      ∃ r, scan text delimiter fuel pos (find text delimiter pos) tokens = .ok r := by
  intro fuel
  induction fuel with
  | zero =>
    intro pos tokens h
    cases hf : find text delimiter pos with
    | none => exact ⟨_, by unfold scan; rfl⟩
    | some idx =>
      refine ⟨(pos, tokens), ?_⟩
      unfold scan
      rw [if_neg (by omega)]
  | succ fuel ih =>
    intro pos tokens h
    cases hf : find text delimiter pos with
    | none => exact ⟨_, by unfold scan; rfl⟩
    | some idx =>
      have hge := find_ge _ _ _ _ hf
      by_cases hp : pos < text.length
      · obtain ⟨r, hr⟩ := ih (idx + delimiter.length) (tokens ++ [substr text pos (idx - pos)])
          (by omega)
        refine ⟨r, ?_⟩
        unfold scan
        rw [if_pos hp]
        exact hr
      · refine ⟨(pos, tokens), ?_⟩
        unfold scan
        rw [if_neg hp]

theorem new_ok (text delimiter : CString) (hd : 0 < delimiter.length) :
    ∃ tokens, new text delimiter = .ok { mPos := 0, mTokens := tokens } := by
  obtain ⟨r, hr⟩ := scan_ok text delimiter hd (text.length + 1) 0 [] (by omega)
  unfold new
  rw [hr]
  obtain ⟨pos, tokens⟩ := r
  simp only
  split
  · exact ⟨_, rfl⟩
  · exact ⟨_, rfl⟩

theorem new_comma_ok (text : CString) :
    ∃ tokens, new text (lit ",") = .ok { mPos := 0, mTokens := tokens } :=
  new_ok text (lit ",") (by decide)

end StringTokenizer

namespace DefaultObjectFactory

variable {σ : Type}

theorem createLoop_eq (V : Serializable σ) (f : DefaultObjectFactory σ) (tokens : List CString) :
    ∀ (fuel pos : Nat), tokens.length ≤ pos + fuel →
      createLoop V f fuel { mPos := pos, mTokens := tokens }
        = .ok ((firstRegistered f (tokens.drop pos)).map V.createInstance) := by
  intro fuel
  induction fuel with
  | zero =>
    intro pos h
    unfold createLoop StringTokenizer.hasMoreTokens
    simp only
    rw [List.drop_of_length_le (by omega)]
    simp [firstRegistered]
    omega
  | succ fuel ih =>
    intro pos h
    unfold createLoop StringTokenizer.hasMoreTokens
    simp only
    by_cases hp : pos < tokens.length
    · have hdrop : tokens.drop pos = tokens.getD pos [] :: tokens.drop (pos + 1) := by
        rw [List.getD_eq_getElem _ _ hp]
        exact List.drop_eq_getElem_cons hp
      simp only [hp, decide_True, if_true]
      unfold StringTokenizer.nextToken
      simp only
      rw [if_neg (by omega)]
      simp only
      rw [hdrop, firstRegistered]
      cases hfp : f.findPrototype (tokens.getD pos []) with
      | none => simp only; exact ih (pos + 1) (by omega)
      | some p => simp
    · simp only [hp, decide_False]
      rw [List.drop_of_length_le (by omega)]
      simp [firstRegistered]

theorem findPrototype_assign (f : DefaultObjectFactory σ) (t k : CString) (p : σ) :
    (f.assign t p).findPrototype k = if k = t then some p else f.findPrototype k := by
  unfold findPrototype assign
  simp only [List.find?_cons]
  by_cases h : k = t
  · subst h; simp
  · have h2 : ¬ t = k := fun e => h e.symm
    simp only [h2, decide_False, h, if_false]
    rw [List.find?_filter]
    have : (fun (e : CString × σ) => decide (decide (e.1 ≠ t) = true ∧ decide (e.1 = k) = true))
        = (fun (e : CString × σ) => decide (e.1 = k)) := by
      funext e
      by_cases he : e.1 = k
      · simp [he, h]
      · simp [he]
    rw [this]

theorem registerLoop_eq (p : σ) (tokens : List CString) :
    ∀ (fuel pos : Nat) (f : DefaultObjectFactory σ), tokens.length ≤ pos + fuel →
      registerLoop p fuel { mPos := pos, mTokens := tokens } f
        = (.ok (), assignAll p (tokens.drop pos) f) := by
  intro fuel
  induction fuel with
  | zero =>
    intro pos f h
    unfold registerLoop StringTokenizer.hasMoreTokens
    rw [List.drop_of_length_le (by omega)]
    simp [assignAll]
    omega
  | succ fuel ih =>
    intro pos f h
    unfold registerLoop StringTokenizer.hasMoreTokens
    simp only
    by_cases hp : pos < tokens.length
    · have hdrop : tokens.drop pos = tokens.getD pos [] :: tokens.drop (pos + 1) := by
        rw [List.getD_eq_getElem _ _ hp]
        exact List.drop_eq_getElem_cons hp
      simp only [hp, decide_True, if_true]
      unfold StringTokenizer.nextToken
      simp only
      rw [if_neg (by omega)]
      simp only
      rw [hdrop, assignAll]
      exact ih (pos + 1) _ (by omega)
    · simp only [hp, decide_False]
      rw [List.drop_of_length_le (by omega)]
      simp [assignAll]

theorem findPrototype_assignAll (p : σ) (k : CString) :
    ∀ (tokens : List CString) (f : DefaultObjectFactory σ),
      (assignAll p tokens f).findPrototype k
        = if k ∈ tokens ∧ k ≠ [] then some p else f.findPrototype k := by
  intro tokens
  induction tokens with
  | nil => intro f; simp [assignAll]
  | cons t ts ih =>
    intro f
    rw [assignAll, ih]
    by_cases hk : k ∈ ts ∧ k ≠ []
    · rw [if_pos hk, if_pos ⟨List.mem_cons_of_mem _ hk.1, hk.2⟩]
    · rw [if_neg hk]
      by_cases ht : t.length > 0
      · rw [if_pos ht, findPrototype_assign]
        by_cases hkt : k = t
        · subst hkt
          rw [if_pos rfl, if_pos ⟨List.mem_cons_self _ _, by intro e; simp [e] at ht⟩]
        · rw [if_neg hkt, if_neg]
          rintro ⟨hm, hne⟩
          rcases List.mem_cons.mp hm with h | h
          · exact hkt h
          · exact hk ⟨h, hne⟩
      · rw [if_neg ht, if_neg]
        rintro ⟨hm, hne⟩
        rcases List.mem_cons.mp hm with h | h
        · subst h
          apply ht
          exact List.length_pos.mpr hne
        · exact hk ⟨h, hne⟩

end DefaultObjectFactory
end aqlib

namespace aqlib

theorem getData_new : BinaryWriteArchive.new.getData = [] := by
  simp [BinaryWriteArchive.getData, BinaryWriteArchive.size, BinaryWriteArchive.new]

theorem BinaryWriteArchive.WF.length_getData {a : BinaryWriteArchive} (h : a.WF) :
    a.getData.length = a.mPosition := by
  unfold BinaryWriteArchive.getData BinaryWriteArchive.size
  rw [List.length_take, h.len]
  exact Nat.min_eq_left h.pos

theorem wf_ofData (data : List Nat) (h : data.length < 2147483648) :
    BinaryReadArchive.WF { mData := data, mLength := data.length, mPosition := 0 } :=
  ⟨rfl, le_refl _, by simp, by simp only; omega⟩

theorem new_ofData (data : List Nat) (n : Nat) :
    BinaryReadArchive.new data (n : Int) = .ok { mData := data, mLength := n, mPosition := 0 } := by
  unfold BinaryReadArchive.new
  rw [if_neg (by omega)]

theorem toInt32_natCast (n : Nat) (h : n < 2147483648) : toInt32 (n : Int) = (n : Int) :=
  toInt32_of_isInt32 _ (BinaryWriteArchive.isInt32_natCast n h)

namespace AQLIB_IMPLEMENT_SERIAL

variable {σ : Type}

theorem readFrom_base_error
    (base cr : σ → BinaryReadArchive → Except Exception σ × BinaryReadArchive)
    (self : σ) (archive : BinaryReadArchive) (e : Exception) (a1 : BinaryReadArchive)
    (hb : base self archive = (.error e, a1)) :
    readFrom base cr self archive = (.error e, a1) := by
  unfold readFrom; rw [hb]

theorem readFrom_no_data
    (base cr : σ → BinaryReadArchive → Except Exception σ × BinaryReadArchive)
    (self : σ) (archive : BinaryReadArchive) (s1 : σ) (a1 : BinaryReadArchive)
    (hb : base self archive = (.ok s1, a1)) (hn : a1.available ≤ 0) :
    readFrom base cr self archive = (.ok s1, a1) := by
  unfold readFrom; rw [hb]
  simp only [BinaryReadArchive.hasMoreData]
  rw [if_pos (by simp; exact hn)]

theorem readFrom_layer
    (base cr : σ → BinaryReadArchive → Except Exception σ × BinaryReadArchive)
    (self : σ) (archive : BinaryReadArchive) (s1 : σ) (a1 : BinaryReadArchive)
    (body rest : List Nat)
    (hb : base self archive = (.ok s1, a1)) (hwf : a1.WF)
    (hd : a1.mData.drop a1.mPosition.toNat = be32 (body.length : Int) ++ body ++ rest) :
    readFrom base cr self archive
      = ((cr s1 { mData := body, mLength := body.length, mPosition := 0 }).1,
          { a1 with mPosition := a1.mPosition + 4 + body.length }) := by
  have hlo := hwf.lo
  have hlen := hwf.len
  have hsm := hwf.small
  have hdl := congrArg List.length hd
  simp only [List.length_drop, List.length_append, be32, List.length_cons, List.length_nil] at hdl
  obtain ⟨e1, _, _⟩ := BinaryReadArchive.readString_ok a1 hwf body rest hd
  have hav : a1.available > 0 := by
    unfold BinaryReadArchive.available
    rw [toInt32_of_isInt32 _ (by unfold IsInt32; omega)]
    omega
  unfold readFrom
  rw [hb]
  simp only [BinaryReadArchive.hasMoreData, hav, decide_True, Bool.not_true, if_false]
  rw [e1]
  simp only
  rw [toInt32_natCast _ (by omega), new_ofData]
  simp only
  rcases hc : cr s1 { mData := body, mLength := (body.length : Int), mPosition := 0 } with ⟨r, ca⟩
  cases r <;> rfl

variable (baseW cw : σ → BinaryWriteArchive → Except Exception Unit × BinaryWriteArchive)

theorem writeTo_layer (self : σ) (archive a1 ca : BinaryWriteArchive)
    (hb : baseW self archive = (.ok (), a1)) (hwf : a1.WF)
    (hc : cw self BinaryWriteArchive.new = (.ok (), ca))
    (hp : a1.mPosition + 4 + ca.getData.length < BinaryWriteArchive.MAXIMUM_ARCHIVE_SIZE) :
    ∃ a2, writeTo baseW cw self archive = (.ok (), a2) ∧ a2.WF ∧
      a2.mPosition = a1.mPosition + 4 + ca.getData.length ∧
      a2.getData = a1.getData ++ be32 (ca.getData.length : Int) ++ ca.getData := by
  obtain ⟨a2, e, w, p, d⟩ := BinaryWriteArchive.writeString_ok ca.getData a1 hwf hp
  refine ⟨a2, ?_, w, p, d⟩
  unfold writeTo
  rw [hb]; simp only; rw [hc]; simp only; exact e

theorem writeTo_class_error (self : σ) (archive a1 ca : BinaryWriteArchive) (e : Exception)
    (hb : baseW self archive = (.ok (), a1))
    (hc : cw self BinaryWriteArchive.new = (.error e, ca)) :
    writeTo baseW cw self archive = (.error e, a1) := by
  unfold writeTo
  rw [hb]; simp only; rw [hc]

end AQLIB_IMPLEMENT_SERIAL

section objects

variable {σ : Type} (V : Serializable σ)

theorem writeObject_some_ok (x : σ) (a1 a2 : BinaryWriteArchive)
    (h1 : BinaryWriteArchive.writeString (V.getClassHierarchy x) BinaryWriteArchive.new
      = (.ok (), a1))
    (h2 : V.writeTo x a1 = (.ok (), a2))
    (hp : 4 + a2.getData.length < BinaryWriteArchive.MAXIMUM_ARCHIVE_SIZE) :
    ∃ w, BinaryWriteArchive.writeObject V (some x) BinaryWriteArchive.new = (.ok (), w) ∧ w.WF ∧
      w.size = 4 + a2.getData.length ∧
      w.getData = be32 (a2.getData.length : Int) ++ a2.getData := by
  obtain ⟨w, e, wf, p, d⟩ := BinaryWriteArchive.writeString_ok a2.getData BinaryWriteArchive.new
    BinaryWriteArchive.wf_new (by simp only [BinaryWriteArchive.new]; omega)
  rw [getData_new, List.nil_append] at d
  refine ⟨w, ?_, wf, ?_, d⟩
  · unfold BinaryWriteArchive.writeObject
    simp only [h1, h2]
    exact e
  · unfold BinaryWriteArchive.size; rw [p]; simp [BinaryWriteArchive.new]

theorem writeObject_some_full (x : σ) (a1 a2 : BinaryWriteArchive)
    (h1 : BinaryWriteArchive.writeString (V.getClassHierarchy x) BinaryWriteArchive.new
      = (.ok (), a1))
    (h2 : V.writeTo x a1 = (.ok (), a2))
    (hp : BinaryWriteArchive.MAXIMUM_ARCHIVE_SIZE ≤ 4 + a2.getData.length) :
    (BinaryWriteArchive.writeObject V (some x) BinaryWriteArchive.new).1 = .error .sizeTooBig := by
  obtain ⟨w, e, _, _⟩ := BinaryWriteArchive.writeString_full a2.getData BinaryWriteArchive.new
    BinaryWriteArchive.wf_new (by decide) (by simp only [BinaryWriteArchive.new]; omega)
  unfold BinaryWriteArchive.writeObject
  simp only [h1, h2]
  rw [e]

theorem readObject_frame (f : DefaultObjectFactory σ) (a : BinaryReadArchive) (hwf : a.WF)
    (h body rest : List Nat)
    (hd : a.mData.drop a.mPosition.toNat
      = be32 ((be32 (h.length : Int) ++ h ++ body).length : Int)
        ++ (be32 (h.length : Int) ++ h ++ body) ++ rest) :
    BinaryReadArchive.readObject V f a
      = (match f.createObject V h with
          | .error e => .error e
          | .ok none => .error .unknownType
          | .ok (some instance0) =>
            match (V.readFrom instance0
                { mData := be32 (h.length : Int) ++ h ++ body,
                  mLength := ((be32 (h.length : Int) ++ h ++ body).length : Nat),
                  mPosition := 0 + 4 + h.length }).1 with
            | .error e => .error e
            | .ok instance1 => .ok (some instance1),
         { a with mPosition := a.mPosition + 4 + (be32 (h.length : Int) ++ h ++ body).length }) := by
  have hlo := hwf.lo
  have hlen := hwf.len
  have hsm := hwf.small
  have hdl := congrArg List.length hd
  simp only [List.length_drop, List.length_append, be32, List.length_cons, List.length_nil] at hdl
  generalize hblob : be32 (h.length : Int) ++ h ++ body = blob at hd ⊢
  have hbl : blob.length = 4 + h.length + body.length := by
    rw [← hblob]; simp [be32]; omega
  obtain ⟨e1, _, _⟩ := BinaryReadArchive.readString_ok a hwf blob rest hd
  have hwfb : BinaryReadArchive.WF { mData := blob, mLength := blob.length, mPosition := 0 } :=
    wf_ofData blob (by omega)
  obtain ⟨e2, _, _⟩ := BinaryReadArchive.readString_ok _ hwfb h body (by simp [hblob])
  unfold BinaryReadArchive.readObject
  rw [e1]
  simp only
  rw [if_neg (by omega), toInt32_natCast _ (by omega), new_ofData]
  simp only
  rw [e2]
  simp only
  rcases hc : f.createObject V h with e | o
  · rfl
  · cases o with
    | none => rfl
    | some i =>
      simp only
      rcases hr : V.readFrom i (BinaryReadArchive.mk blob (blob.length : Int)
        (0 + 4 + (h.length : Int))) with ⟨r, ca⟩
      cases r <;> rfl

end objects

end aqlib

namespace aqlib.DefaultObjectFactory
variable {σ : Type}

theorem firstRegistered_hit (f : DefaultObjectFactory σ) (pre post : List CString) (t : CString)
    (p : σ) (hpre : ∀ u ∈ pre, f.findPrototype u = none) (ht : f.findPrototype t = some p) :
    f.firstRegistered (pre ++ t :: post) = some p := by
  induction pre with
  | nil => simp [firstRegistered, ht]
  | cons u us ih =>
    rw [List.cons_append, firstRegistered, hpre u (List.mem_cons_self _ _)]
    exact ih (fun w hw => hpre w (List.mem_cons_of_mem _ hw))

theorem firstRegistered_eq_none (f : DefaultObjectFactory σ) (tokens : List CString) :
    f.firstRegistered tokens = none ↔ ∀ t ∈ tokens, f.findPrototype t = none := by
  induction tokens with
  | nil => simp [firstRegistered]
  | cons u us ih =>
    rw [firstRegistered]
    cases hu : f.findPrototype u with
    | none =>
      simp only [ih, List.mem_cons, forall_eq_or_imp, hu, true_and]
    | some p =>
      simp only [List.mem_cons, forall_eq_or_imp, hu, false_and]
      simp

theorem createObject_eq (V : Serializable σ) (f : DefaultObjectFactory σ) (h : CString)
    (tokens : List CString)
    (ht : StringTokenizer.new h (lit ",") = .ok { mPos := 0, mTokens := tokens }) :
    f.createObject V h = .ok ((f.firstRegistered tokens).map V.createInstance) := by
  unfold createObject
  rw [ht]
  simp only
  rw [createLoop_eq V f tokens tokens.length 0 (by omega), List.drop_zero]

end aqlib.DefaultObjectFactory

theorem regex_replace_eq_nil (s : CString) : regex_replace s = [] ↔ s = [] := by
  constructor
  · intro h
    match s with
    | [] => rfl
    | [c] => simp [regex_replace] at h
    | c :: d :: rest =>
      unfold regex_replace at h
      split at h <;> simp at h
  · intro h; subst h; rfl

namespace scenario

theorem length_encode (vs : List Int) : (encode vs).length = 4 * vs.length := by
  induction vs with
  | nil => rfl
  | cons v vs ih => simp only [encode, List.length_append, be32, List.length_cons, List.length_nil, ih]; omega

theorem classWriteTo_ok (vs : List Int) :
    ∀ (a : BinaryWriteArchive), (∀ v ∈ vs, IsInt32 v) → a.WF →
      a.mPosition + 4 * vs.length ≤ BinaryWriteArchive.MAXIMUM_ARCHIVE_SIZE →
      ∃ a1, classWriteTo vs a = (.ok (), a1) ∧ a1.WF ∧ a1.mPosition = a.mPosition + 4 * vs.length ∧
        a1.getData = a.getData ++ encode vs := by
  induction vs with
  | nil => intro a _ h _; exact ⟨a, rfl, h, rfl, by simp [encode]⟩
  | cons v vs ih =>
    intro a hall h hp
    simp only [List.length_cons] at hp
    obtain ⟨a1, e1, w1, p1, d1⟩ := BinaryWriteArchive.writeInt_ok v (hall v (List.mem_cons_self _ _))
      a h (by omega)
    obtain ⟨a2, e2, w2, p2, d2⟩ := ih a1 (fun u hu => hall u (List.mem_cons_of_mem _ hu)) w1
      (by omega)
    refine ⟨a2, ?_, w2, ?_, ?_⟩
    · rw [classWriteTo, e1]; exact e2
    · simp only [List.length_cons]; omega
    · rw [d2, d1, encode, List.append_assoc]

theorem classReadFrom_ok (vs : List Int) :
    ∀ (a : BinaryReadArchive) (rest : List Nat), (∀ v ∈ vs, IsInt32 v) → a.WF →
      a.mData.drop a.mPosition.toNat = encode vs ++ rest →
      (classReadFrom vs.length a).1 = .ok vs := by
  induction vs with
  | nil => intro a rest _ _ _; rfl
  | cons v vs ih =>
    intro a rest hall h hd
    obtain ⟨e1, w1, d1⟩ := BinaryReadArchive.readInt_ok a h (toBits32 v / 16777216 % 256)
      (toBits32 v / 65536 % 256) (toBits32 v / 256 % 256) (toBits32 v % 256) (encode vs ++ rest)
      (by rw [hd]; simp [encode, be32])
    rw [combine_be32 v (hall v (List.mem_cons_self _ _))] at e1
    have := ih _ rest (fun u hu => hall u (List.mem_cons_of_mem _ hu)) w1 d1
    simp only [List.length_cons, classReadFrom, e1, andThen]
    rcases hc : classReadFrom vs.length (BinaryReadArchive.mk a.mData a.mLength (a.mPosition + 4))
      with ⟨r, ca⟩
    rw [hc] at this
    simp only at this
    subst this
    rfl

end scenario

namespace simulation

theorem writePoints_ok (pts : List (Int × Int)) :
    ∀ (a : BinaryWriteArchive), (∀ p ∈ pts, IsInt32 p.1 ∧ IsInt32 p.2) → a.WF →
      a.mPosition + 8 * pts.length ≤ BinaryWriteArchive.MAXIMUM_ARCHIVE_SIZE →
      ∃ a1, SimulationResult.writePoints pts a = (.ok (), a1) ∧ a1.WF ∧
        a1.mPosition = a.mPosition + 8 * pts.length := by
  induction pts with
  | nil => intro a _ h _; exact ⟨a, rfl, h, rfl⟩
  | cons p pts ih =>
    intro a hall h hp
    simp only [List.length_cons] at hp
    have hpp := hall p (List.mem_cons_self _ _)
    obtain ⟨a1, e1, w1, p1, _⟩ := BinaryWriteArchive.writeInt_ok p.1 hpp.1 a h (by omega)
    obtain ⟨a2, e2, w2, p2, _⟩ := BinaryWriteArchive.writeInt_ok p.2 hpp.2 a1 w1 (by omega)
    obtain ⟨a3, e3, w3, p3⟩ := ih a2 (fun u hu => hall u (List.mem_cons_of_mem _ hu)) w2
      (by omega)
    refine ⟨a3, ?_, w3, ?_⟩
    · rw [SimulationResult.writePoints]
      simp only [BinaryWriteArchive.writeFloat, e1, e2, thenWrite]
      exact e3
    · simp only [List.length_cons]; omega

end simulation

namespace simulation

theorem writeGraphs_ok (graphs : Graphs) :
    ∀ (a : BinaryWriteArchive), (∀ g ∈ graphs, ∀ p ∈ g, IsInt32 p.1 ∧ IsInt32 p.2) → a.WF →
      a.mPosition + graphsSize graphs ≤ BinaryWriteArchive.MAXIMUM_ARCHIVE_SIZE →
      ∃ a1, SimulationResult.writeGraphs graphs a = (.ok (), a1) ∧ a1.WF ∧
        a1.mPosition = a.mPosition + graphsSize graphs := by
  induction graphs with
  | nil => intro a _ h _; exact ⟨a, rfl, h, rfl⟩
  | cons g gs ih =>
    intro a hall h hp
    simp only [graphsSize] at hp
    obtain ⟨a1, e1, w1, p1, _⟩ := BinaryWriteArchive.writeInt_ok (toInt32 (g.length : Int))
      (BinaryWriteArchive.isInt32_toInt32 _) a h (by omega)
    obtain ⟨a2, e2, w2, p2⟩ := writePoints_ok g a1 (hall g (List.mem_cons_self _ _)) w1 (by omega)
    obtain ⟨a3, e3, w3, p3⟩ := ih a2 (fun u hu => hall u (List.mem_cons_of_mem _ hu)) w2
      (by omega)
    refine ⟨a3, ?_, w3, ?_⟩
    · rw [SimulationResult.writeGraphs]
      simp only [e1, e2, thenWrite]
      exact e3
    · simp only [graphsSize]; omega

theorem resultClassWriteTo_ok (graphs : Graphs) (a : BinaryWriteArchive)
    (hall : ∀ g ∈ graphs, ∀ p ∈ g, IsInt32 p.1 ∧ IsInt32 p.2) (h : a.WF)
    (hp : a.mPosition + 4 + graphsSize graphs ≤ BinaryWriteArchive.MAXIMUM_ARCHIVE_SIZE) :
    ∃ a1, SimulationResult.classWriteTo graphs a = (.ok (), a1) ∧ a1.WF ∧
      a1.mPosition = a.mPosition + 4 + graphsSize graphs := by
  obtain ⟨a1, e1, w1, p1, _⟩ := BinaryWriteArchive.writeInt_ok (toInt32 (graphs.length : Int))
    (BinaryWriteArchive.isInt32_toInt32 _) a h (by omega)
  obtain ⟨a2, e2, w2, p2⟩ := writeGraphs_ok graphs a1 hall w1 (by omega)
  refine ⟨a2, ?_, w2, by omega⟩
  unfold SimulationResult.classWriteTo
  simp only [e1, thenWrite]
  exact e2

end simulation

theorem sendMessage_error {σ : Type} (V : Serializable σ) (message : Option σ) (e : Exception)
    (h : (BinaryWriteArchive.writeObject V message BinaryWriteArchive.new).1 = .error e) :
    net.Connection.sendMessage V message = .error e := by
  unfold net.Connection.sendMessage
  rcases hw : BinaryWriteArchive.writeObject V message BinaryWriteArchive.new with ⟨r, b⟩
  rw [hw] at h
  simp only at h
  subst h
  rfl

theorem length_be32 (v : Int) : (be32 v).length = 4 := rfl

theorem length_encString (s : CString) : (encString s).length = 4 + s.length := by
  unfold encString; rw [List.length_append, length_be32]

/-- A class without members, built with the macro on `Serializable`, whose prototype is
registered under the one token of its hierarchy: what `writeObject` writes for an object
`x` of it, `readObject` reads back as a new instance of the prototype. -/
theorem roundtrip_of_memberless {σ : Type} (V : Serializable σ) (f : DefaultObjectFactory σ)
    (x p : σ)
    (cw : σ → BinaryWriteArchive → Except Exception Unit × BinaryWriteArchive)
    (cr : σ → BinaryReadArchive → Except Exception σ × BinaryReadArchive)
    (hcw : ∀ s a, cw s a = (.ok (), a)) (hcr : ∀ s a, cr s a = (.ok s, a))
    (hn : (V.getClassHierarchy x).length < 1000)
    (htok : StringTokenizer.new (V.getClassHierarchy x) (lit ",")
      = .ok { mPos := 0, mTokens := [V.getClassHierarchy x] })
    (hw : V.writeTo x = AQLIB_IMPLEMENT_SERIAL.writeTo Serializable.rootWriteTo cw x)
    (hr : V.readFrom (V.createInstance p)
      = AQLIB_IMPLEMENT_SERIAL.readFrom Serializable.rootReadFrom cr (V.createInstance p))
    (hf : f.findPrototype (V.getClassHierarchy x) = some p) :
    ∃ w, BinaryWriteArchive.writeObject V (some x) BinaryWriteArchive.new = (.ok (), w) ∧
      ∃ r, BinaryReadArchive.new w.getData w.size = .ok r ∧
        ∃ r1, BinaryReadArchive.readObject V f r = (.ok (some (V.createInstance p)), r1) ∧
          r1.available = 0 := by
  have hM : BinaryWriteArchive.MAXIMUM_ARCHIVE_SIZE = 1048576 := rfl
  have h0 : BinaryWriteArchive.new.mPosition = 0 := rfl
  generalize hname : V.getClassHierarchy x = name at *
  obtain ⟨a1, e1, w1, p1, d1⟩ := BinaryWriteArchive.writeString_ok name _
    BinaryWriteArchive.wf_new (by rw [h0, hM]; omega)
  rw [getData_new, List.nil_append] at d1
  rw [h0] at p1
  obtain ⟨a2, e2, w2, p2, d2⟩ := AQLIB_IMPLEMENT_SERIAL.writeTo_layer Serializable.rootWriteTo
    cw x a1 a1 BinaryWriteArchive.new rfl w1 (hcw _ _)
    (by rw [getData_new, p1, hM, List.length_nil]; omega)
  rw [getData_new, List.length_nil, List.append_nil, d1] at d2
  rw [← hw] at e2
  have hl2 : a2.getData.length = 4 + name.length + 4 := by
    rw [d2]; simp only [List.length_append, length_be32]
  obtain ⟨w, e, wf, hs, hd⟩ := writeObject_some_ok V x a1 a2 (by rw [hname]; exact e1) e2
    (by rw [hl2, hM]; omega)
  refine ⟨w, e, _, new_ofData _ _, ?_⟩
  rw [hd, hs, d2]
  have hblob : ((be32 (name.length : Int) ++ name ++ be32 ((0 : Nat) : Int)).length : Int)
      = ((4 + name.length + 4 : Nat) : Int) := by
    simp only [List.length_append, length_be32]
  have hwf : BinaryReadArchive.WF
      (BinaryReadArchive.mk
        (be32 ((be32 (name.length : Int) ++ name ++ be32 ((0 : Nat) : Int)).length : Int)
          ++ (be32 (name.length : Int) ++ name ++ be32 ((0 : Nat) : Int)))
        ((4 + (be32 (name.length : Int) ++ name ++ be32 ((0 : Nat) : Int)).length : Nat) : Int)
        0) := by
    refine ⟨?_, le_refl _, ?_, ?_⟩
    · simp only [List.length_append, length_be32]
    · simp only [List.length_append, length_be32]; omega
    · simp only [List.length_append, length_be32]; omega
  have hfr := readObject_frame V f _ hwf name (be32 ((0 : Nat) : Int)) []
    (by simp only [List.append_nil]; rfl)
  have hc := DefaultObjectFactory.createObject_eq V f name [name] htok
  rw [DefaultObjectFactory.firstRegistered, hf] at hc
  rw [hc] at hfr
  simp only [Option.map] at hfr
  have hwfi : BinaryReadArchive.WF
      (BinaryReadArchive.mk (be32 (name.length : Int) ++ name ++ be32 ((0 : Nat) : Int))
        (((be32 (name.length : Int) ++ name ++ be32 ((0 : Nat) : Int)).length : Nat) : Int)
        (0 + 4 + (name.length : Int))) := by
    refine ⟨rfl, ?_, ?_, ?_⟩
    · simp only; omega
    · simp only [List.length_append, length_be32]; omega
    · simp only [List.length_append, length_be32]; omega
  have hlayer := AQLIB_IMPLEMENT_SERIAL.readFrom_layer Serializable.rootReadFrom cr
    (V.createInstance p) _ (V.createInstance p) _ [] [] rfl hwfi
    (by
      simp only [List.append_nil, List.length_nil]
      rw [show (0 + 4 + (name.length : Int)).toNat = (be32 (name.length : Int) ++ name).length by
        simp only [List.length_append, length_be32]; omega]
      exact List.drop_left _ _)
  rw [← hr, hcr] at hlayer
  rw [hlayer] at hfr
  refine ⟨_, hfr, ?_⟩
  unfold BinaryReadArchive.available
  simp only [List.length_append, length_be32]
  have : (((4 + (4 + name.length + 4) : Nat) : Int) - (0 + 4 + ((4 + name.length + 4 : Nat) : Int))) = 0 := by
    omega
  rw [this]; rfl

namespace aqlib
namespace StringTokenizer

theorem split_eq (d : Nat) (s : CString) :
    ∀ cur : CString, split d s cur =
      match firstIndex d s with
      | none => if cur.reverse ++ s = [] then [] else [cur.reverse ++ s]
      | some i => (cur.reverse ++ s.take i) :: split d (s.drop (i + 1)) [] := by
  induction s with
  | nil => intro cur; simp [split, firstIndex]
  | cons c rest ih =>
    intro cur
    by_cases hc : c = d
    · simp [split, firstIndex, hc]
    · rw [split, if_neg hc, ih (c :: cur), firstIndex, if_neg hc]
      cases firstIndex d rest with
      | none => simp
      | some i => simp

theorem find_eq (text : CString) (d : Nat) :
    ∀ (n pos : Nat), pos + n = text.length →
      find text [d] pos = (firstIndex d (text.drop pos)).map (pos + ·) := by
  intro n
  induction n with
  | zero =>
    intro pos h
    have hp : pos = text.length := by omega
    subst hp
    unfold find
    simp [firstIndex, List.range'_one]
  | succ n ih =>
    intro pos h
    have hlt : pos < text.length := by omega
    have hdrop : text.drop pos = text[pos] :: text.drop (pos + 1) := List.drop_eq_getElem_cons hlt
    have hnext := ih (pos + 1) (by omega)
    unfold find at hnext ⊢
    rw [show text.length + 1 - pos = (text.length + 1 - (pos + 1)) + 1 by omega, List.range'_succ,
      List.find?_cons, hdrop]
    by_cases hc : text[pos] = d
    · have hle : pos + 1 ≤ text.length := hlt
      simp [startsWith, firstIndex, hc, hle]
    · have hpred : (decide (pos + [d].length ≤ text.length)
          && startsWith (text[pos] :: text.drop (pos + 1)) [d]) = false := by
        simp [startsWith, hc]
      rw [hpred]
      simp only
      rw [hnext, firstIndex, if_neg hc]
      cases firstIndex d (text.drop (pos + 1)) with
      | none => rfl
      | some i => simp; omega

theorem firstIndex_lt (d : Nat) (s : CString) (i : Nat) (h : firstIndex d s = some i) :
    i < s.length := by
  induction s generalizing i with
  | nil => simp [firstIndex] at h
  | cons c rest ih =>
    by_cases hc : c = d
    · simp [firstIndex, hc] at h; subst h; simp
    · rw [firstIndex, if_neg hc] at h
      cases hf : firstIndex d rest with
      | none => rw [hf] at h; simp at h
      | some j =>
        rw [hf] at h
        simp at h
        have := ih j hf
        simp only [List.length_cons]; omega

theorem scan_eq (text : CString) (d : Nat) :
    ∀ (fuel pos : Nat) (tokens : List CString), pos ≤ text.length → text.length < pos + fuel →
      ∃ pos1 tokens1, scan text [d] fuel pos (find text [d] pos) tokens = .ok (pos1, tokens1) ∧
        (if pos1 < text.length then tokens1 ++ [text.drop pos1] else tokens1)
          = tokens ++ split d (text.drop pos) [] := by
  intro fuel
  induction fuel with
  | zero => intro pos tokens h1 h2; omega
  | succ fuel ih =>
    intro pos tokens h1 h2
    have hfind := find_eq text d (text.length - pos) pos (by omega)
    have hsplit := split_eq d (text.drop pos) []
    cases hf : firstIndex d (text.drop pos) with
    | none =>
      rw [hf] at hfind hsplit
      simp only [Option.map, List.reverse_nil, List.nil_append] at hfind hsplit
      refine ⟨pos, tokens, by rw [hfind]; unfold scan; rfl, ?_⟩
      rw [hsplit]
      by_cases hp : pos < text.length
      · rw [if_pos hp, if_neg]
        intro h0
        have := congrArg List.length h0
        simp at this; omega
      · rw [if_neg hp, if_pos (List.drop_of_length_le (by omega))]
        simp
    | some i =>
      rw [hf] at hfind hsplit
      simp only [Option.map, List.reverse_nil, List.nil_append] at hfind hsplit
      have hi := firstIndex_lt d _ i hf
      rw [List.length_drop] at hi
      have hp : pos < text.length := by omega
      obtain ⟨pos1, tokens1, e, hfin⟩ := ih (pos + i + 1)
        (tokens ++ [substr text pos (pos + i - pos)]) (by omega) (by omega)
      refine ⟨pos1, tokens1, ?_, ?_⟩
      · rw [hfind]
        unfold scan
        rw [if_pos hp]
        exact e
      · rw [hfin, hsplit, List.append_assoc]
        congr 1
        simp only [List.singleton_append, substr, List.drop_drop]
        rw [show pos + i - pos = i by omega, show pos + (i + 1) = pos + i + 1 by omega]

/-- With a delimiter of one character the constructor yields the segments of the
text between the delimiters. -/
theorem new_eq_split (text : CString) (d : Nat) :
    new text [d] = .ok { mPos := 0, mTokens := split d text [] } := by
  obtain ⟨pos1, tokens1, e, hfin⟩ := scan_eq text d (text.length + 1) 0 [] (by omega) (by omega)
  unfold new
  rw [e]
  simp only [List.drop_zero, List.nil_append] at hfin
  simp only
  split <;> rename_i hp
  · rw [if_pos hp] at hfin; rw [hfin]
  · rw [if_neg hp] at hfin; rw [hfin]

theorem firstIndex_none (d : Nat) (s : CString) (h : d ∉ s) : firstIndex d s = none := by
  induction s with
  | nil => rfl
  | cons c rest ih =>
    have hc : ¬ c = d := fun e => h (by rw [e]; exact List.mem_cons_self _ _)
    rw [firstIndex, if_neg hc, ih (fun hm => h (List.mem_cons_of_mem _ hm))]
    rfl

theorem firstIndex_append (d : Nat) (s rest : CString) (h : d ∉ s) :
    firstIndex d (s ++ d :: rest) = some s.length := by
  induction s with
  | nil => simp [firstIndex]
  | cons c tail ih =>
    have hc : ¬ c = d := fun e => h (by rw [e]; exact List.mem_cons_self _ _)
    rw [List.cons_append, firstIndex, if_neg hc, ih (fun hm => h (List.mem_cons_of_mem _ hm))]
    rfl

end StringTokenizer
end aqlib

namespace aqlib

theorem BinaryReadArchive.readInt_be32 (a : BinaryReadArchive) (h : a.WF) (v : Int) (hv : IsInt32 v)
    (rest : List Nat) (hd : a.mData.drop a.mPosition.toNat = be32 v ++ rest) :
    a.readInt = (.ok v, { a with mPosition := a.mPosition + 4 }) ∧
      BinaryReadArchive.WF { a with mPosition := a.mPosition + 4 } ∧
      a.mData.drop (a.mPosition + 4).toNat = rest := by
  obtain ⟨e1, w1, d1⟩ := BinaryReadArchive.readInt_ok a h (toBits32 v / 16777216 % 256)
    (toBits32 v / 65536 % 256) (toBits32 v / 256 % 256) (toBits32 v % 256) rest
    (by rw [hd]; simp [be32])
  rw [combine_be32 v hv] at e1
  exact ⟨e1, w1, d1⟩

theorem BinaryReadArchive.readString_negative (a : BinaryReadArchive) (h : a.WF) (v : Int)
    (hv : IsInt32 v) (hneg : v < 0) (rest : List Nat)
    (hd : a.mData.drop a.mPosition.toNat = be32 v ++ rest) :
    a.readString = (.error .lengthError, { a with mPosition := a.mPosition + 4 }) ∧
      a.mPosition + 4 ≤ a.mLength := by
  obtain ⟨e1, w1, _⟩ := BinaryReadArchive.readInt_be32 a h v hv rest hd
  have hlo := h.lo
  have hhi := w1.hi
  have hsm := h.small
  simp only at hhi
  have hi32 : IsInt32 (a.mPosition + 4 + v) := by
    unfold IsInt32 at hv ⊢; omega
  refine ⟨?_, hhi⟩
  unfold BinaryReadArchive.readString
  rw [e1]
  simp only [toInt32_of_isInt32 _ hi32]
  rw [if_neg (by omega), if_pos hneg]

theorem BinaryReadArchive.readObject_null_iff {σ : Type} (V : Serializable σ)
    (f : DefaultObjectFactory σ) (a : BinaryReadArchive) (hwf : a.WF) (blob rest : List Nat)
    (hd : a.mData.drop a.mPosition.toNat = be32 (blob.length : Int) ++ blob ++ rest) :
    (BinaryReadArchive.readObject V f a).1 = .ok none ↔ blob = [] := by
  obtain ⟨e, _, _⟩ := BinaryReadArchive.readString_ok a hwf blob rest hd
  unfold BinaryReadArchive.readObject
  rw [e]
  simp only
  constructor
  · intro h
    by_contra hne
    have hl : ¬ blob.length = 0 := fun h0 => hne (List.length_eq_zero.mp h0)
    rw [if_neg hl] at h
    revert h
    split
    · intro h; simp at h
    · split
      · intro h; simp at h
      · split
        · intro h; simp at h
        · intro h; simp at h
        · split
          · intro h; simp at h
          · intro h; simp at h
  · intro h
    subst h
    simp

end aqlib

namespace aqlib.BinaryWriteArchive

theorem growBuffer_wf (a : BinaryWriteArchive) (h : WF a) :
    WF (growBuffer a).2 ∧ (growBuffer a).2.mPosition = a.mPosition ∧
      a.mLength ≤ (growBuffer a).2.mLength ∧
      (growBuffer a).2.mData.take a.mLength = a.mData := by
  obtain ⟨k, hk, hc⟩ := h.cap
  by_cases hfull : a.mLength = MAXIMUM_ARCHIVE_SIZE
  · rw [growBuffer_full a hfull]
    exact ⟨h, rfl, le_refl _, by rw [← h.len, List.take_length]⟩
  · have hk10 : k < 10 := by
      rcases Nat.lt_or_ge k 10 with h1 | h1
      · exact h1
      · exfalso; apply hfull
        have : k = 10 := by omega
        rw [hc, this]; rfl
    rw [growBuffer_ok a k h.len hk10 hc]
    refine ⟨⟨?_, ⟨k + 1, by omega, ?_⟩, ?_⟩, rfl, by simp only; omega, ?_⟩
    · simp only [List.length_append, List.length_replicate, h.len]; omega
    · simp only; rw [hc, pow_succ]; ring
    · have := h.pos; simp only; omega
    · simp only; rw [← h.len, List.take_left]

theorem growWhile_wf (need : Nat) :
    ∀ (fuel : Nat) (a : BinaryWriteArchive), WF a →
      WF (growWhile need fuel a).2 ∧ (growWhile need fuel a).2.mPosition = a.mPosition ∧
        a.mLength ≤ (growWhile need fuel a).2.mLength ∧
        (growWhile need fuel a).2.mData.take a.mLength = a.mData ∧
        ((growWhile need fuel a).1 = .ok () → need < (growWhile need fuel a).2.mLength) := by
  intro fuel
  induction fuel with
  | zero =>
    intro a h
    unfold growWhile
    split
    · exact ⟨h, rfl, le_refl _, by rw [← h.len, List.take_length], fun e => by simp at e⟩
    · exact ⟨h, rfl, le_refl _, by rw [← h.len, List.take_length], fun _ => by simp only; omega⟩
  | succ n ih =>
    intro a h
    obtain ⟨g1, g2, g3, g4⟩ := growBuffer_wf a h
    unfold growWhile
    split
    · cases hg : growBuffer a with
      | mk r a1 =>
        rw [hg] at g1 g2 g3 g4
        simp only at g1 g2 g3 g4
        cases r with
        | error e =>
          exact ⟨g1, g2, g3, g4, fun e => by simp at e⟩
        | ok u =>
          obtain ⟨i1, i2, i3, i4, i5⟩ := ih a1 g1
          refine ⟨i1, by rw [i2, g2], le_trans g3 i3, ?_, i5⟩
          rw [← g4, ← i4, List.take_take, Nat.min_eq_left g3]
    · exact ⟨h, rfl, le_refl _, by rw [← h.len, List.take_length], fun _ => by simp only; omega⟩

theorem writeChar_wf (c : Nat) (a : BinaryWriteArchive) (h : WF a) : WF (writeChar c a).2 := by
  obtain ⟨g1, g2, _, _, g5⟩ := growWhile_wf a.mPosition GROW_FUEL a h
  unfold writeChar
  cases hg : growWhile a.mPosition GROW_FUEL a with
  | mk r a1 =>
    rw [hg] at g1 g2 g5
    simp only at g1 g2 g5
    cases r with
    | error e => exact g1
    | ok u =>
      have hlt := g5 rfl
      exact ⟨by simp only [List.length_set]; exact g1.len, g1.cap, by simp only; omega⟩

theorem writeChar_cases (c : Nat) (a : BinaryWriteArchive) (h : WF a) :
    (a.mPosition < MAXIMUM_ARCHIVE_SIZE ∧
      ∃ a1, writeChar c a = (.ok (), a1) ∧ WF a1 ∧ a1.mPosition = a.mPosition + 1) ∨
    (a.mPosition = MAXIMUM_ARCHIVE_SIZE ∧
      ∃ a1, writeChar c a = (.error .sizeTooBig, a1) ∧ WF a1 ∧ a1.mPosition = a.mPosition) := by
  have hw := writeChar_wf c a h
  rcases Nat.lt_or_ge a.mPosition MAXIMUM_ARCHIVE_SIZE with hp | hp
  · obtain ⟨a1, e, w, p, _⟩ := writeChar_ok c a h hp
    exact Or.inl ⟨hp, a1, e, w, p⟩
  · obtain ⟨a1, e, p, _⟩ := writeChar_full c a h hp
    rw [e] at hw
    have := h.pos
    have := h.le_max
    exact Or.inr ⟨by omega, a1, e, hw, p⟩

theorem writeInt_wf (v : Int) (a : BinaryWriteArchive) (h : WF a) : WF (writeInt v a).2 := by
  unfold writeInt
  simp only
  have w1 := writeChar_wf (toChar (and32 0xff (sar32 v 24))) a h
  cases h1 : writeChar (toChar (and32 0xff (sar32 v 24))) a with
  | mk r1 a1 =>
    rw [h1] at w1
    cases r1 with
    | error e => exact w1
    | ok u =>
      simp only
      have w2 := writeChar_wf (toChar (and32 0xff (sar32 v 16))) a1 w1
      cases h2 : writeChar (toChar (and32 0xff (sar32 v 16))) a1 with
      | mk r2 a2 =>
        rw [h2] at w2
        cases r2 with
        | error e => exact w2
        | ok u =>
          simp only
          have w3 := writeChar_wf (toChar (and32 0xff (sar32 v 8))) a2 w2
          cases h3 : writeChar (toChar (and32 0xff (sar32 v 8))) a2 with
          | mk r3 a3 =>
            rw [h3] at w3
            cases r3 with
            | error e => exact w3
            | ok u => exact writeChar_wf _ a3 w3

theorem writeInt_beyond (v : Int) (a : BinaryWriteArchive) (h : WF a)
    (hp : MAXIMUM_ARCHIVE_SIZE < a.mPosition + 4) :
    (writeInt v a).1 = .error .sizeTooBig := by
  unfold writeInt
  simp only
  rcases writeChar_cases (toChar (and32 0xff (sar32 v 24))) a h with
    ⟨_, a1, e1, w1, p1⟩ | ⟨_, a1, e1, _, _⟩
  · rw [e1]
    simp only
    rcases writeChar_cases (toChar (and32 0xff (sar32 v 16))) a1 w1 with
      ⟨_, a2, e2, w2, p2⟩ | ⟨_, a2, e2, _, _⟩
    · rw [e2]
      simp only
      rcases writeChar_cases (toChar (and32 0xff (sar32 v 8))) a2 w2 with
        ⟨_, a3, e3, w3, p3⟩ | ⟨_, a3, e3, _, _⟩
      · rw [e3]
        simp only
        rcases writeChar_cases (toChar (and32 0xff v)) a3 w3 with
          ⟨q, _, _, _, _⟩ | ⟨_, a4, e4, _, _⟩
        · omega
        · rw [e4]
      · rw [e3]
    · rw [e2]
  · rw [e1]

theorem writeString_wf (s : CString) (a : BinaryWriteArchive) (h : WF a) :
    WF (writeString s a).2 := by
  unfold writeString
  have w1 := writeInt_wf (toInt32 (s.length : Int)) a h
  cases h1 : writeInt (toInt32 (s.length : Int)) a with
  | mk r1 a1 =>
    rw [h1] at w1
    cases r1 with
    | error e => exact w1
    | ok u =>
      simp only
      obtain ⟨g1, g2, _, _, g5⟩ := growWhile_wf (a1.mPosition + s.length) GROW_FUEL a1 w1
      cases hg : growWhile (a1.mPosition + s.length) GROW_FUEL a1 with
      | mk r2 a2 =>
        rw [hg] at g1 g2 g5
        simp only at g1 g2 g5
        cases r2 with
        | error e => exact g1
        | ok u =>
          have hlt := g5 rfl
          have hl := g1.len
          refine ⟨?_, g1.cap, by simp only; omega⟩
          simp only [List.length_append, List.length_take, List.length_drop]
          omega

theorem writeString_beyond (s : CString) (a : BinaryWriteArchive) (h : WF a)
    (hp : MAXIMUM_ARCHIVE_SIZE < a.mPosition + (4 + s.length)) :
    (writeString s a).1 = .error .sizeTooBig := by
  rcases Nat.lt_or_ge MAXIMUM_ARCHIVE_SIZE (a.mPosition + 4) with h4 | h4
  · have e := writeInt_beyond (toInt32 (s.length : Int)) a h h4
    unfold writeString
    cases h1 : writeInt (toInt32 (s.length : Int)) a with
    | mk r1 a1 =>
      rw [h1] at e
      simp only at e
      rw [e]
  · obtain ⟨a1, e, _, _⟩ := writeString_full s a h h4 (by omega)
    rw [e]

theorem thenWrite_wf (r : Except Exception Unit × BinaryWriteArchive)
    (k : BinaryWriteArchive → Except Exception Unit × BinaryWriteArchive) (h : WF r.2)
    (hk : ∀ a, WF a → WF (k a).2) : WF (thenWrite r k).2 := by
  unfold thenWrite
  cases r with
  | mk x a =>
    cases x with
    | error e => exact h
    | ok u => exact hk a h

theorem writeTime_wf (year month day hours minutes seconds fractional_seconds : Int)
    (a : BinaryWriteArchive) (h : WF a) :
    WF (writeTime year month day hours minutes seconds fractional_seconds a).2 := by
  unfold writeTime
  refine thenWrite_wf _ _ (writeInt_wf _ a h) fun a h => ?_
  refine thenWrite_wf _ _ (writeInt_wf _ a h) fun a h => ?_
  refine thenWrite_wf _ _ (writeInt_wf _ a h) fun a h => ?_
  refine thenWrite_wf _ _ (writeInt_wf _ a h) fun a h => ?_
  refine thenWrite_wf _ _ (writeInt_wf _ a h) fun a h => ?_
  refine thenWrite_wf _ _ (writeInt_wf _ a h) fun a h => ?_
  exact writeInt_wf _ a h

theorem writeObject_wf {σ : Type} (V : Serializable σ) (value : Option σ)
    (a : BinaryWriteArchive) (h : WF a) : WF (writeObject V value a).2 := by
  unfold writeObject
  cases value with
  | none => exact writeString_wf _ a h
  | some v =>
    simp only
    split
    · exact h
    · split
      · exact h
      · exact writeString_wf _ a h

theorem call_wf {σ : Type} (V : Serializable σ) (c : Call σ) (a : BinaryWriteArchive)
    (h : WF a) : WF (call V c a).2 := by
  cases c with
  | writeInt value => exact writeInt_wf value a h
  | writeFloat value => exact writeInt_wf value a h
  | writeBool value => exact writeInt_wf _ a h
  | writeString value => exact writeString_wf value a h
  | writeObject value => exact writeObject_wf V value a h
  | writeTime year month day hours minutes seconds fractional_seconds =>
    exact writeTime_wf year month day hours minutes seconds fractional_seconds a h

theorem calls_wf {σ : Type} (V : Serializable σ) (cs : List (Call σ)) :
    ∀ a : BinaryWriteArchive, WF a → WF (calls V cs a) := by
  induction cs with
  | nil => intro a h; exact h
  | cons c rest ih => intro a h; exact ih _ (call_wf V c a h)

end aqlib.BinaryWriteArchive

namespace aqlib

theorem regex_replace_cons (c : Nat) (s : CString) (hc : c ≠ 58) :
    regex_replace (c :: s) = c :: regex_replace s := by
  cases s with
  | nil => rfl
  | cons d rest =>
    rw [regex_replace, if_neg (fun h => hc h.1)]

theorem regex_replace_idem : ∀ s : CString, regex_replace (regex_replace s) = regex_replace s
  | [] => rfl
  | [c] => rfl
  | c :: d :: rest => by
    have ih1 := regex_replace_idem rest
    have ih2 := regex_replace_idem (d :: rest)
    rw [regex_replace]
    split
    · rw [regex_replace_cons 46 _ (by decide), ih1]
    · rename_i hcd
      by_cases hc : c = 58
      · have hd : d ≠ 58 := fun h => hcd ⟨hc, h⟩
        rw [regex_replace_cons d rest hd] at ih2 ⊢
        rw [regex_replace, if_neg (fun h => hd h.2), ih2]
      · rw [regex_replace_cons c _ hc, ih2]

theorem length_regex_replace : ∀ s : CString, (regex_replace s).length ≤ s.length
  | [] => by simp [regex_replace]
  | [c] => by simp [regex_replace]
  | c :: d :: rest => by
    have ih1 := length_regex_replace rest
    have ih2 := length_regex_replace (d :: rest)
    rw [regex_replace]
    split
    · simp only [List.length_cons]; omega
    · simp only [List.length_cons] at ih2 ⊢; omega

theorem regex_replace_append (c : Nat) (hc : c ≠ 58) (y : CString) :
    ∀ x : CString, regex_replace (x ++ c :: y) = regex_replace x ++ c :: regex_replace y
  | [] => by rw [List.nil_append, regex_replace_cons c y hc]; rfl
  | [a] => by
    have e : regex_replace (a :: c :: y) = a :: regex_replace (c :: y) := by
      rw [regex_replace, if_neg (fun h => hc h.2)]
    show regex_replace (a :: c :: y) = _
    rw [e, regex_replace_cons c y hc]
    rfl
  | a :: b :: r => by
    have ih1 := regex_replace_append c hc y r
    have ih2 := regex_replace_append c hc y (b :: r)
    show regex_replace (a :: b :: (r ++ c :: y)) = regex_replace (a :: b :: r) ++ _
    by_cases hab : a = 58 ∧ b = 58
    · have e1 : regex_replace (a :: b :: (r ++ c :: y)) = 46 :: regex_replace (r ++ c :: y) := by
        rw [regex_replace, if_pos hab]
      have e2 : regex_replace (a :: b :: r) = 46 :: regex_replace r := by
        rw [regex_replace, if_pos hab]
      rw [e1, e2, ih1]; rfl
    · have e1 : regex_replace (a :: b :: (r ++ c :: y))
          = a :: regex_replace (b :: (r ++ c :: y)) := by
        rw [regex_replace, if_neg hab]
      have e2 : regex_replace (a :: b :: r) = a :: regex_replace (b :: r) := by
        rw [regex_replace, if_neg hab]
      rw [e1, e2, ← List.cons_append, ih2]; rfl

theorem regex_replace_append_fixed (c : Nat) (hc : c ≠ 58) (x y : CString)
    (h : regex_replace (x ++ c :: y) = x ++ c :: y) :
    regex_replace x = x ∧ regex_replace y = y := by
  rw [regex_replace_append c hc y x] at h
  have h1 := length_regex_replace x
  have h2 := length_regex_replace y
  have hl := congrArg List.length h
  simp only [List.length_append, List.length_cons] at hl
  have := List.append_inj h (by omega)
  exact ⟨this.1, by simpa using this.2⟩

theorem StringTokenizer.split_fixed (d : Nat) (hd : d ≠ 58) :
    ∀ (s cur : CString), regex_replace (cur.reverse ++ s) = cur.reverse ++ s →
      ∀ t ∈ StringTokenizer.split d s cur, regex_replace t = t := by
  intro s
  induction s with
  | nil =>
    intro cur h t ht
    rw [List.append_nil] at h
    unfold StringTokenizer.split at ht
    split at ht
    · simp at ht
    · simp only [List.mem_singleton] at ht
      rw [ht]; exact h
  | cons c rest ih =>
    intro cur h t ht
    unfold StringTokenizer.split at ht
    split at ht
    · rename_i hcd
      subst hcd
      obtain ⟨h1, h2⟩ := regex_replace_append_fixed c hd _ _ h
      rcases List.mem_cons.mp ht with e | e
      · rw [e]; exact h1
      · exact ih [] (by simpa using h2) t e
    · exact ih (c :: cur) (by simpa using h) t ht

theorem DefaultObjectFactory.keys_assignAll {σ : Type} (P : CString → Prop) (p : σ) :
    ∀ (tokens : List CString) (f : DefaultObjectFactory σ),
      (∀ e ∈ f.mPrototypes, P e.1) → (∀ t ∈ tokens, P t) →
      ∀ e ∈ (DefaultObjectFactory.assignAll p tokens f).mPrototypes, P e.1 := by
  intro tokens
  induction tokens with
  | nil => intro f hf _ e he; exact hf e he
  | cons t ts ih =>
    intro f hf ht
    unfold DefaultObjectFactory.assignAll
    apply ih
    · split
      · intro e he
        unfold DefaultObjectFactory.assign at he
        simp only [List.mem_cons, List.mem_filter] at he
        rcases he with e1 | e1
        · rw [e1]; exact ht t (List.mem_cons_self _ _)
        · exact hf e e1.1
      · exact hf
    · intro u hu; exact ht u (List.mem_cons_of_mem _ hu)

theorem DefaultObjectFactory.findPrototype_key {σ : Type} (f : DefaultObjectFactory σ)
    (t : CString) (p : σ) (h : f.findPrototype t = some p) : (t, p) ∈ f.mPrototypes := by
  unfold DefaultObjectFactory.findPrototype at h
  split at h
  · rename_i e he
    have h1 := List.find?_some he
    have h2 := List.mem_of_find?_eq_some he
    simp only [decide_eq_true_eq] at h1
    simp only [Option.some.injEq] at h
    rw [← h1, ← h]
    exact h2
  · simp at h

theorem DefaultObjectFactory.firstRegistered_filter {σ : Type} (f : DefaultObjectFactory σ)
    (q : CString → Bool) (hq : ∀ t p, f.findPrototype t = some p → q t = true) :
    ∀ tokens : List CString,
      f.firstRegistered (tokens.filter q) = f.firstRegistered tokens := by
  intro tokens
  induction tokens with
  | nil => rfl
  | cons t ts ih =>
    cases hqt : q t with
    | true =>
      rw [List.filter_cons_of_pos hqt]
      unfold DefaultObjectFactory.firstRegistered
      rw [ih]
    | false =>
      rw [List.filter_cons_of_neg (by simp [hqt]), ih]
      have hn : f.findPrototype t = none := by
        cases hf : f.findPrototype t with
        | none => rfl
        | some p => rw [hq t p hf] at hqt; simp at hqt
      conv => rhs; unfold DefaultObjectFactory.firstRegistered
      rw [hn]

end aqlib

namespace net

theorem Socket.length_next :
    ∀ (incoming : List (Option CString)) (n : Nat) (bytes : CString)
      (incoming1 : List (Option CString)),
      Socket.next n incoming = some (bytes, incoming1) → bytes.length = n := by
  intro incoming
  induction incoming with
  | nil =>
    intro n bytes incoming1 h
    cases n with
    | zero => simp [Socket.next] at h; rw [h.1]; rfl
    | succ m => simp [Socket.next] at h
  | cons ev rest ih =>
    intro n bytes incoming1 h
    cases n with
    | zero => simp [Socket.next] at h; rw [h.1]; rfl
    | succ m =>
      cases ev with
      | none => simp [Socket.next] at h
      | some b =>
        unfold Socket.next at h
        split at h
        · simp at h
        · rename_i hb
          split at h
          · rename_i hle
            cases hn : Socket.next (m + 1 - b.length) rest with
            | none => rw [hn] at h; simp at h
            | some r =>
              obtain ⟨more, inc⟩ := r
              rw [hn] at h
              simp only [Option.some.injEq, Prod.mk.injEq] at h
              have := ih _ _ _ hn
              rw [← h.1, List.length_append, this]
              omega
          · rename_i hgt
            simp only [Option.some.injEq, Prod.mk.injEq] at h
            rw [← h.1, List.length_take]
            omega

namespace ReceiverThread

variable {σ : Type}

theorem receiveLoop_next :
    ∀ (fuel len : Nat) (buf : CString) (off : Nat) (t : ReceiverThread σ) (bytes : CString)
      (incoming1 : List (Option CString)),
      len ≤ fuel → off + len ≤ buf.length →
      Socket.next len t.mSocket.mIncoming = some (bytes, incoming1) →
      receiveLoop fuel buf off len t
        = (.ok (buf.take off ++ bytes ++ buf.drop (off + len)),
            { t with mSocket := { mIncoming := incoming1 } }) := by
  intro fuel
  induction fuel with
  | zero =>
    intro len buf off t bytes incoming1 hf hb hn
    have h0 : len = 0 := by omega
    subst h0
    simp only [Socket.next, Option.some.injEq, Prod.mk.injEq] at hn
    unfold receiveLoop
    rw [← hn.1, ← hn.2]
    simp
  | succ fuel ih =>
    intro len buf off t bytes incoming1 hf hb hn
    cases len with
    | zero =>
      simp only [Socket.next, Option.some.injEq, Prod.mk.injEq] at hn
      unfold receiveLoop
      rw [← hn.1, ← hn.2]
      simp
    | succ len =>
      obtain ⟨stop, ⟨incoming⟩, owner⟩ := t
      simp only at hn
      cases incoming with
      | nil => simp [Socket.next] at hn
      | cons ev rest =>
        cases ev with
        | none => simp [Socket.next] at hn
        | some b =>
          unfold Socket.next at hn
          split at hn
          · simp at hn
          · rename_i hb0
            split at hn
            · rename_i hle
              cases hm : Socket.next (len + 1 - b.length) rest with
              | none => rw [hm] at hn; simp at hn
              | some r =>
                obtain ⟨more, inc⟩ := r
                rw [hm] at hn
                simp only [Option.some.injEq, Prod.mk.injEq] at hn
                have hml := Socket.length_next _ _ _ _ hm
                unfold receiveLoop
                simp only [Socket.recv, if_pos hle, if_neg hb0]
                rw [ih (len + 1 - b.length) _ (off + b.length)
                  { mStopRequested := stop, mSocket := { mIncoming := rest }, mOwner := owner }
                  more inc (by omega)
                  (by simp only [List.length_append, List.length_take, List.length_drop]; omega)
                  hm]
                rw [← hn.1, ← hn.2]
                congr 2
                have e1 : (buf.take off ++ b ++ buf.drop (off + b.length)).take (off + b.length)
                    = buf.take off ++ b := by
                  rw [List.take_append_of_le_length
                    (by simp only [List.length_append, List.length_take]; omega)]
                  rw [List.take_of_length_le
                    (by simp only [List.length_append, List.length_take]; omega)]
                have e2 : (buf.take off ++ b ++ buf.drop (off + b.length)).drop
                    (off + b.length + (len + 1 - b.length)) = buf.drop (off + (len + 1)) := by
                  rw [List.drop_append_eq_append_drop]
                  rw [List.drop_of_length_le
                    (by simp only [List.length_append, List.length_take]; omega)]
                  simp only [List.length_append, List.length_take, List.nil_append, List.drop_drop]
                  congr 1
                  omega
                rw [e1, e2]
                simp
            · rename_i hgt
              simp only [Option.some.injEq, Prod.mk.injEq] at hn
              unfold receiveLoop
              have hne : ¬ (b.take (len + 1)).length = 0 := by
                rw [List.length_take]; omega
              simp only [Socket.recv, if_neg hgt, if_neg hne]
              have hz : len + 1 - (b.take (len + 1)).length = 0 := by
                rw [List.length_take]; omega
              rw [hz]
              cases fuel <;> simp only [receiveLoop]
              all_goals
                rw [← hn.1, ← hn.2]
                congr 3
                rw [List.length_take]
                congr 1
                omega

theorem receiveLoop_error :
    ∀ (fuel len : Nat) (buf : CString) (off : Nat) (t : ReceiverThread σ) (e : Exception),
      len ≤ fuel → (receiveLoop fuel buf off len t).1 = .error e → e = .recvError := by
  intro fuel
  induction fuel with
  | zero =>
    intro len buf off t e hf h
    have h0 : len = 0 := by omega
    subst h0
    simp [receiveLoop] at h
  | succ fuel ih =>
    intro len buf off t e hf h
    cases len with
    | zero => simp [receiveLoop] at h
    | succ len =>
      obtain ⟨stop, ⟨incoming⟩, owner⟩ := t
      unfold receiveLoop at h
      cases incoming with
      | nil => simp [Socket.recv] at h
      | cons ev rest =>
        cases ev with
        | none =>
          simp only [Socket.recv] at h
          injection h with h
          exact h.symm
        | some b =>
          by_cases hle : b.length ≤ len + 1
          · simp only [Socket.recv, if_pos hle] at h
            split at h
            · simp at h
            · exact ih _ _ _ _ e (by omega) h
          · simp only [Socket.recv, if_neg hle] at h
            split at h
            · simp at h
            · exact ih _ _ _ _ e (by rw [List.length_take]; omega) h

end ReceiverThread

end net

namespace net.ConnectionManager

variable {κ : Type}

theorem findAndErase_none (getId : κ → Int) (connectionId : Int) :
    ∀ l : List κ, (∀ c ∈ l, getId c ≠ connectionId) →
      findAndErase getId connectionId l = (none, l) := by
  intro l
  induction l with
  | nil => intro _; rfl
  | cons c rest ih =>
    intro h
    unfold findAndErase
    rw [if_pos (h c (List.mem_cons_self _ _)),
      ih (fun x hx => h x (List.mem_cons_of_mem _ hx))]

theorem findAndErase_some (getId : κ → Int) (connectionId : Int) (c : κ) (post : List κ)
    (hc : getId c = connectionId) :
    ∀ pre : List κ, (∀ x ∈ pre, getId x ≠ connectionId) →
      findAndErase getId connectionId (pre ++ c :: post) = (some c, pre ++ post) := by
  intro pre
  induction pre with
  | nil =>
    intro _
    simp only [List.nil_append]
    unfold findAndErase
    rw [if_neg (by simp [hc])]
  | cons x rest ih =>
    intro h
    rw [List.cons_append]
    unfold findAndErase
    rw [if_pos (h x (List.mem_cons_self _ _)),
      ih (fun y hy => h y (List.mem_cons_of_mem _ hy))]
    rfl

end net.ConnectionManager

namespace aqlib.StringTokenizer

theorem split_eq_nil (d : Nat) :
    ∀ (s cur : CString), split d s cur = [] ↔ s = [] ∧ cur = [] := by
  intro s
  induction s with
  | nil =>
    intro cur
    unfold split
    by_cases h : cur = []
    · simp [h]
    · simp [h]
  | cons c rest ih =>
    intro cur
    unfold split
    by_cases h : c = d
    · simp [h]
    · rw [if_neg h, ih]
      simp

theorem split_no_delimiter (d : Nat) :
    ∀ (s cur : CString), d ∉ cur → ∀ tok ∈ split d s cur, d ∉ tok := by
  intro s
  induction s with
  | nil =>
    intro cur hc tok ht
    unfold split at ht
    split at ht
    · simp at ht
    · simp only [List.mem_singleton] at ht
      rw [ht]
      simpa using hc
  | cons c rest ih =>
    intro cur hc tok ht
    unfold split at ht
    split at ht
    · rcases List.mem_cons.mp ht with e | e
      · rw [e]; simpa using hc
      · exact ih [] (by simp) tok e
    · rename_i hcd
      exact ih (c :: cur) (by
        intro hm
        rcases List.mem_cons.mp hm with e | e
        · exact hcd e.symm
        · exact hc e) tok ht

theorem intercalate_cons (sep x : CString) (ys : List CString) (h : ys ≠ []) :
    List.intercalate sep (x :: ys) = x ++ sep ++ List.intercalate sep ys := by
  cases ys with
  | nil => exact absurd rfl h
  | cons y rest => simp [List.intercalate, List.intersperse]

theorem intercalate_split (d : Nat) :
    ∀ (s cur : CString), d ∉ cur →
      (∀ s1, s = s1 ++ [d] → List.intercalate [d] (split d s cur) = cur.reverse ++ s1) ∧
      ((∀ s1, s ≠ s1 ++ [d]) → List.intercalate [d] (split d s cur) = cur.reverse ++ s) := by
  intro s
  induction s with
  | nil =>
    intro cur _
    constructor
    · intro s1 h
      simp at h
    · intro _
      unfold split
      by_cases h : cur = []
      · simp [h, List.intercalate]
      · simp [h, List.intercalate]
  | cons c rest ih =>
    intro cur hc
    by_cases hcd : c = d
    · subst hcd
      have hs : split c (c :: rest) cur = cur.reverse :: split c rest [] := by
        rw [split, if_pos rfl]
      rw [hs]
      by_cases hr : rest = []
      · subst hr
        constructor
        · intro s1 h
          have : s1 = [] := by
            cases s1 with
            | nil => rfl
            | cons x xs =>
              have hl := congrArg List.length h
              simp at hl
          subst this
          simp [split, List.intercalate]
        · intro h
          exact absurd rfl (h [])
      · have hne : split c rest [] ≠ [] := by
          intro h0
          exact hr ((split_eq_nil c rest []).mp h0).1
        rw [intercalate_cons _ _ _ hne]
        obtain ⟨i1, i2⟩ := ih [] (by simp)
        constructor
        · intro s1 h
          cases s1 with
          | nil =>
            simp only [List.nil_append, List.cons.injEq] at h
            exact absurd h.2 hr
          | cons x xs =>
            simp only [List.cons_append, List.cons.injEq] at h
            rw [i1 xs h.2, ← h.1]
            simp
        · intro h
          rw [i2 (fun s1 e => h (c :: s1) (by rw [e]; rfl))]
          simp
    · have hs : split d (c :: rest) cur = split d rest (c :: cur) := by
        rw [split, if_neg hcd]
      rw [hs]
      obtain ⟨i1, i2⟩ := ih (c :: cur) (by
        intro hm
        rcases List.mem_cons.mp hm with e | e
        · exact hcd e.symm
        · exact hc e)
      constructor
      · intro s1 h
        cases s1 with
        | nil =>
          simp only [List.nil_append, List.cons.injEq] at h
          exact absurd h.1 hcd
        | cons x xs =>
          simp only [List.cons_append, List.cons.injEq] at h
          rw [i1 xs h.2, ← h.1]
          simp
      · intro h
        rw [i2 (fun s1 e => h (c :: s1) (by rw [e]; rfl))]
        simp

end aqlib.StringTokenizer

namespace net.SenderThread

theorem queue_wf_new : WF new := ⟨rfl, by decide⟩

theorem post_eq (b : CString) (t : SenderThread) (h : WF t) (h0 : 0 < b.length)
    (hb : (b.length : Int) ≤ 2147483647 - MAX_QUEUE_SIZE) :
    t.post b (b.length : Int)
      = if t.mQueueSize + (b.length : Int) > MAX_QUEUE_SIZE ∧ t.mStopRequested = false then
          (.waits, t)
        else if t.mStopRequested = true then (.returned (), t)
        else (.returned (), { t with mPackets := t.mPackets ++ [b],
                                     mQueueSize := t.mQueueSize + (b.length : Int) }) := by
  have hM : MAX_QUEUE_SIZE = 10485760 := rfl
  have hq0 : 0 ≤ t.mQueueSize := by rw [h.sum]; omega
  have hmax := h.max
  have hi : toInt32 (t.mQueueSize + (b.length : Int)) = t.mQueueSize + (b.length : Int) :=
    toInt32_of_isInt32 _ (by unfold IsInt32; omega)
  unfold post
  rw [if_neg (by omega), hi]
  simp only [Int.toNat_ofNat, List.take_length, Bool.not_eq_true]

theorem post_wf (b : CString) (t : SenderThread) (h : WF t)
    (hb : (b.length : Int) ≤ 2147483647 - MAX_QUEUE_SIZE) :
    WF (t.post b (b.length : Int)).2 := by
  rcases Nat.eq_zero_or_pos b.length with h0 | h0
  · unfold post
    rw [if_pos (by omega)]
    exact h
  · rw [post_eq b t h h0 hb]
    split
    · exact h
    · split
      · exact h
      · rename_i h1 h2
        refine ⟨?_, ?_⟩
        · simp only [List.map_append, List.map_cons, List.map_nil, List.sum_append,
            List.sum_cons, List.sum_nil]
          rw [h.sum]
          push_cast
          ring
        · simp only
          by_contra hgt
          apply h1
          refine ⟨by omega, ?_⟩
          cases hs : t.mStopRequested with
          | false => rfl
          | true => exact absurd hs h2

theorem getNextPacket_wf (t : SenderThread) (h : WF t) : WF t.getNextPacket.2 := by
  have hM : MAX_QUEUE_SIZE = 10485760 := rfl
  unfold getNextPacket
  split
  · exact h
  · split
    · exact h
    · cases hp : t.mPackets with
      | nil => simp only; exact h
      | cons packet rest =>
        simp only
        have hs := h.sum
        have hmax := h.max
        rw [hp] at hs
        simp only [List.map_cons, List.sum_cons] at hs
        have hi : toInt32 (t.mQueueSize - (packet.length : Int))
            = t.mQueueSize - (packet.length : Int) :=
          toInt32_of_isInt32 _ (by unfold IsInt32; omega)
        refine ⟨?_, ?_⟩
        · simp only [hi]; omega
        · simp only [hi]; omega

theorem queue_calls_wf :
    ∀ (cs : List Call) (t : SenderThread), WF t →
      (∀ b, Call.post b ∈ cs → (b.length : Int) ≤ 2147483647 - MAX_QUEUE_SIZE) →
      WF (calls cs t) := by
  intro cs
  induction cs with
  | nil => intro t h _; exact h
  | cons c rest ih =>
    intro t h hb
    unfold calls
    apply ih
    · cases c with
      | post b => exact post_wf b t h (hb b (List.mem_cons_self _ _))
      | getNextPacket => exact getNextPacket_wf t h
      | requestStop => exact ⟨h.sum, h.max⟩
    · intro b hm
      exact hb b (List.mem_cons_of_mem _ hm)

end net.SenderThread

namespace net.ReceiverThread

variable {σ : Type}

theorem process_packet (V : Serializable σ) (mFactory : DefaultObjectFactory σ)
    (t : ReceiverThread σ) (n : Int) (h0 : 0 ≤ n) (h1 : n ≤ 1048576)
    (body : CString) (incoming1 incoming2 : List (Option CString))
    (hh : Socket.next 4 t.mSocket.mIncoming = some (be32 n, incoming1))
    (hbody : Socket.next n.toNat incoming1 = some (body, incoming2)) :
    t.process V mFactory
      = (.ok (),
          match (BinaryReadArchive.readObject V mFactory
            { mData := be32 n ++ body, mLength := n + 4, mPosition := 0 }).1 with
          | .ok (some message) =>
            { t with mSocket := { mIncoming := incoming2 },
                     mOwner := t.mOwner ++ [.messageReceived message] }
          | _ => { t with mSocket := { mIncoming := incoming2 } }) := by
  have hM : BinaryWriteArchive.MAXIMUM_ARCHIVE_SIZE = 1048576 := rfl
  have hn : IsInt32 n := by unfold IsInt32; omega
  have e1 : receivePacket (List.replicate 4 0) 0 4 t
      = (.ok (be32 n), { t with mSocket := { mIncoming := incoming1 } }) := by
    unfold receivePacket
    rw [receiveLoop_next 4 4 _ 0 t (be32 n) incoming1 (le_refl _) (by simp) hh]
    simp
  have e2 : BinaryReadArchive.new (be32 n) (toInt32 ((be32 n).length : Int))
      = .ok { mData := be32 n, mLength := ((4 : Nat) : Int), mPosition := 0 } := by
    rw [length_be32, toInt32_natCast 4 (by omega)]
    exact new_ofData _ _
  have e3 : BinaryReadArchive.readInt
      { mData := be32 n, mLength := ((4 : Nat) : Int), mPosition := 0 }
      = (.ok n, { mData := be32 n, mLength := ((4 : Nat) : Int), mPosition := 0 + 4 }) :=
    (BinaryReadArchive.readInt_be32 _ (wf_ofData (be32 n) (by simp [be32])) n hn []
      (by simp)).1
  have hbl := Socket.length_next _ _ _ _ hbody
  have hlen : ((be32 n ++ body).length : Int) = n + 4 := by
    rw [List.length_append, length_be32, hbl]
    push_cast
    rw [Int.toNat_of_nonneg h0]
    ring
  have e4 : receivePacket (be32 n ++ List.replicate n.toNat 0)
      (be32 n).length n.toNat { t with mSocket := { mIncoming := incoming1 } }
      = (.ok (be32 n ++ body), { t with mSocket := { mIncoming := incoming2 } }) := by
    unfold receivePacket
    rw [receiveLoop_next n.toNat n.toNat _ _ _ body incoming2 (le_refl _)
      (by simp [length_be32]) hbody]
    simp [length_be32]
  have e5 : BinaryReadArchive.new (be32 n ++ body) (toInt32 ((be32 n ++ body).length : Int))
      = .ok { mData := be32 n ++ body, mLength := n + 4, mPosition := 0 } := by
    rw [hlen, toInt32_of_isInt32 _ (by unfold IsInt32; omega)]
    unfold BinaryReadArchive.new
    rw [if_neg (by omega)]
  unfold process
  rw [e1]; simp only; rw [e2]; simp only; rw [e3]; simp only
  rw [hM, if_neg (by push_cast; omega), e4]
  simp only
  rw [e5]
  simp only
  cases hro : BinaryReadArchive.readObject V mFactory
      { mData := be32 n ++ body, mLength := n + 4, mPosition := 0 } with
  | mk r a1 =>
    cases r with
    | error e => rfl
    | ok o =>
      cases o with
      | none => rfl
      | some message => rfl

end net.ReceiverThread

namespace aqlib

theorem BinaryWriteArchive.writeString_inv (s : CString) (a a1 : BinaryWriteArchive) (h : a.WF)
    (hp4 : a.mPosition + 4 ≤ BinaryWriteArchive.MAXIMUM_ARCHIVE_SIZE)
    (e : BinaryWriteArchive.writeString s a = (.ok (), a1)) :
    a.mPosition + 4 + s.length < BinaryWriteArchive.MAXIMUM_ARCHIVE_SIZE ∧ a1.WF ∧
      a1.mPosition = a.mPosition + 4 + s.length ∧
      a1.getData = a.getData ++ be32 (s.length : Int) ++ s := by
  by_cases hfit : a.mPosition + 4 + s.length < BinaryWriteArchive.MAXIMUM_ARCHIVE_SIZE
  · obtain ⟨a2, e2, w, p, d⟩ := BinaryWriteArchive.writeString_ok s a h hfit
    rw [e] at e2
    have h12 : a1 = a2 := (Prod.mk.inj e2).2
    subst h12
    exact ⟨hfit, w, p, d⟩
  · obtain ⟨a2, e2, _, _⟩ := BinaryWriteArchive.writeString_full s a h hp4 (by omega)
    rw [e] at e2
    have h1 := (Prod.mk.inj e2).1
    simp at h1

theorem AQLIB_IMPLEMENT_SERIAL.writeTo_layer_inv {σ : Type}
    (baseW cw : σ → BinaryWriteArchive → Except Exception Unit × BinaryWriteArchive)
    (self : σ) (archive a1 a2 : BinaryWriteArchive)
    (hb : baseW self archive = (.ok (), a1)) (hwf : a1.WF)
    (hp4 : a1.mPosition + 4 ≤ BinaryWriteArchive.MAXIMUM_ARCHIVE_SIZE)
    (e : AQLIB_IMPLEMENT_SERIAL.writeTo baseW cw self archive = (.ok (), a2)) :
    ∃ ca, cw self BinaryWriteArchive.new = (.ok (), ca) ∧
      a1.mPosition + 4 + ca.getData.length < BinaryWriteArchive.MAXIMUM_ARCHIVE_SIZE ∧ a2.WF ∧
      a2.mPosition = a1.mPosition + 4 + ca.getData.length ∧
      a2.getData = a1.getData ++ be32 (ca.getData.length : Int) ++ ca.getData := by
  unfold AQLIB_IMPLEMENT_SERIAL.writeTo at e
  rw [hb] at e
  simp only at e
  rcases hc : cw self BinaryWriteArchive.new with ⟨r, ca⟩
  rw [hc] at e
  cases r with
  | error x =>
    have h1 := (Prod.mk.inj e).1
    simp at h1
  | ok u =>
    simp only at e
    exact ⟨ca, rfl, BinaryWriteArchive.writeString_inv _ _ _ hwf hp4 e⟩

theorem writeObject_some_inv {σ : Type} (V : Serializable σ) (x : σ) (a w : BinaryWriteArchive)
    (hwf : a.WF) (hp4 : a.mPosition + 4 ≤ BinaryWriteArchive.MAXIMUM_ARCHIVE_SIZE)
    (hn : 4 + (V.getClassHierarchy x).length < BinaryWriteArchive.MAXIMUM_ARCHIVE_SIZE)
    (e : BinaryWriteArchive.writeObject V (some x) a = (.ok (), w)) :
    ∃ a1 a2, a1.WF ∧ a1.mPosition = 4 + (V.getClassHierarchy x).length ∧
      a1.getData = be32 ((V.getClassHierarchy x).length : Int) ++ V.getClassHierarchy x ∧
      V.writeTo x a1 = (.ok (), a2) ∧
      a.mPosition + 4 + a2.getData.length < BinaryWriteArchive.MAXIMUM_ARCHIVE_SIZE ∧ w.WF ∧
      w.mPosition = a.mPosition + 4 + a2.getData.length ∧
      w.getData = a.getData ++ be32 (a2.getData.length : Int) ++ a2.getData := by
  have h0 : BinaryWriteArchive.new.mPosition = 0 := rfl
  obtain ⟨a1, e1, w1, p1, d1⟩ := BinaryWriteArchive.writeString_ok (V.getClassHierarchy x) _
    BinaryWriteArchive.wf_new (by rw [h0]; omega)
  rw [getData_new, List.nil_append] at d1
  rw [h0] at p1
  unfold BinaryWriteArchive.writeObject at e
  simp only [e1] at e
  rcases h2 : V.writeTo x a1 with ⟨r, a2⟩
  rw [h2] at e
  cases r with
  | error y =>
    have h1 := (Prod.mk.inj e).1
    simp at h1
  | ok u =>
    simp only at e
    exact ⟨a1, a2, w1, by omega, d1, h2, BinaryWriteArchive.writeString_inv _ _ _ hwf hp4 e⟩

theorem AQLIB_IMPLEMENT_SERIAL.readFrom_after_name {σ : Type}
    (cr : σ → BinaryReadArchive → Except Exception σ × BinaryReadArchive)
    (self : σ) (name cd : CString) (hn : 4 + name.length + 4 + cd.length < 2147483648) :
    (AQLIB_IMPLEMENT_SERIAL.readFrom Serializable.rootReadFrom cr self
        { mData := be32 (name.length : Int) ++ name ++ (be32 (cd.length : Int) ++ cd),
          mLength := ((be32 (name.length : Int) ++ name ++ (be32 (cd.length : Int) ++ cd)).length : Nat),
          mPosition := 0 + 4 + name.length }).1
      = (cr self { mData := cd, mLength := cd.length, mPosition := 0 }).1 := by
  have hwfi : BinaryReadArchive.WF
      (BinaryReadArchive.mk (be32 (name.length : Int) ++ name ++ (be32 (cd.length : Int) ++ cd))
        (((be32 (name.length : Int) ++ name ++ (be32 (cd.length : Int) ++ cd)).length : Nat) : Int)
        (0 + 4 + (name.length : Int))) := by
    refine ⟨rfl, ?_, ?_, ?_⟩
    · simp only; omega
    · simp only [List.length_append, length_be32]; omega
    · simp only [List.length_append, length_be32]; omega
  have hlayer := AQLIB_IMPLEMENT_SERIAL.readFrom_layer Serializable.rootReadFrom cr
    self _ self _ cd [] rfl hwfi
    (by
      simp only [List.append_nil]
      rw [show (0 + 4 + (name.length : Int)).toNat = (be32 (name.length : Int) ++ name).length by
        simp only [List.length_append, length_be32]; omega]
      rw [List.drop_left])
  rw [hlayer]

end aqlib

namespace aqlib

theorem writeObject_layer_inv {σ τ : Type} (V : Serializable σ) (x : σ) (s : τ)
    (cw : τ → BinaryWriteArchive → Except Exception Unit × BinaryWriteArchive)
    (hw : ∀ a, V.writeTo x a = AQLIB_IMPLEMENT_SERIAL.writeTo Serializable.rootWriteTo cw s a)
    (a w : BinaryWriteArchive) (hwf : a.WF)
    (hp4 : a.mPosition + 4 ≤ BinaryWriteArchive.MAXIMUM_ARCHIVE_SIZE)
    (hn : 8 + (V.getClassHierarchy x).length < BinaryWriteArchive.MAXIMUM_ARCHIVE_SIZE)
    (e : BinaryWriteArchive.writeObject V (some x) a = (.ok (), w)) :
    ∃ ca, cw s BinaryWriteArchive.new = (.ok (), ca) ∧ w.WF ∧
      w.getData = a.getData
        ++ be32 ((be32 ((V.getClassHierarchy x).length : Int) ++ V.getClassHierarchy x
            ++ (be32 (ca.getData.length : Int) ++ ca.getData)).length : Int)
        ++ (be32 ((V.getClassHierarchy x).length : Int) ++ V.getClassHierarchy x
            ++ (be32 (ca.getData.length : Int) ++ ca.getData)) ∧
      w.mPosition = a.mPosition + 4 + (4 + (V.getClassHierarchy x).length + 4 + ca.getData.length) ∧
      a.mPosition + 4 + (4 + (V.getClassHierarchy x).length + 4 + ca.getData.length)
        < BinaryWriteArchive.MAXIMUM_ARCHIVE_SIZE := by
  obtain ⟨a1, a2, w1, p1, d1, e2, hfit, ww, pw, dw⟩ :=
    writeObject_some_inv V x a w hwf hp4 (by omega) e
  rw [hw] at e2
  obtain ⟨ca, ec, _, w2, p2, d2⟩ := AQLIB_IMPLEMENT_SERIAL.writeTo_layer_inv
    Serializable.rootWriteTo cw s a1 a1 a2 rfl w1 (by omega) e2
  have hl2 : a2.getData.length = 4 + (V.getClassHierarchy x).length + 4 + ca.getData.length := by
    rw [d2, d1]; simp only [List.length_append, length_be32]
  have hd2 : a2.getData = be32 ((V.getClassHierarchy x).length : Int) ++ V.getClassHierarchy x
      ++ (be32 (ca.getData.length : Int) ++ ca.getData) := by
    rw [d2, d1]; simp only [List.append_assoc]
  refine ⟨ca, ec, ww, ?_, ?_, ?_⟩
  · rw [dw, hd2]
  · rw [pw, hl2]
  · rw [← hl2]; exact hfit

theorem writeObject_layer_ok {σ τ : Type} (V : Serializable σ) (x : σ) (s : τ)
    (cw : τ → BinaryWriteArchive → Except Exception Unit × BinaryWriteArchive)
    (hw : ∀ a, V.writeTo x a = AQLIB_IMPLEMENT_SERIAL.writeTo Serializable.rootWriteTo cw s a)
    (ca : BinaryWriteArchive) (hc : cw s BinaryWriteArchive.new = (.ok (), ca))
    (hn : 4 + (4 + (V.getClassHierarchy x).length + 4 + ca.getData.length)
      < BinaryWriteArchive.MAXIMUM_ARCHIVE_SIZE) :
    ∃ w, BinaryWriteArchive.writeObject V (some x) BinaryWriteArchive.new = (.ok (), w) ∧ w.WF ∧
      w.getData = be32 ((be32 ((V.getClassHierarchy x).length : Int) ++ V.getClassHierarchy x
            ++ (be32 (ca.getData.length : Int) ++ ca.getData)).length : Int)
        ++ (be32 ((V.getClassHierarchy x).length : Int) ++ V.getClassHierarchy x
            ++ (be32 (ca.getData.length : Int) ++ ca.getData)) ∧
      w.mPosition = 4 + (4 + (V.getClassHierarchy x).length + 4 + ca.getData.length) := by
  have h0 : BinaryWriteArchive.new.mPosition = 0 := rfl
  obtain ⟨a1, e1, w1, p1, d1⟩ := BinaryWriteArchive.writeString_ok (V.getClassHierarchy x) _
    BinaryWriteArchive.wf_new (by rw [h0]; omega)
  rw [getData_new, List.nil_append] at d1
  rw [h0] at p1
  obtain ⟨a2, e2, w2, p2, d2⟩ := AQLIB_IMPLEMENT_SERIAL.writeTo_layer Serializable.rootWriteTo
    cw s a1 a1 ca rfl w1 hc (by omega)
  rw [← hw] at e2
  have hl2 : a2.getData.length = 4 + (V.getClassHierarchy x).length + 4 + ca.getData.length := by
    rw [d2, d1]; simp only [List.length_append, length_be32]
  have hd2 : a2.getData = be32 ((V.getClassHierarchy x).length : Int) ++ V.getClassHierarchy x
      ++ (be32 (ca.getData.length : Int) ++ ca.getData) := by
    rw [d2, d1]; simp only [List.append_assoc]
  obtain ⟨w, e, wf, hs, hd⟩ := writeObject_some_ok V x a1 a2 e1 e2 (by omega)
  refine ⟨w, e, wf, ?_, ?_⟩
  · rw [hd, hd2]
  · have : w.size = w.mPosition := rfl
    rw [← this, hs, hl2]

theorem readObject_one_layer {σ : Type} (V : Serializable σ) (f : DefaultObjectFactory σ)
    (name cd : CString) (p : σ) (a : BinaryReadArchive) (hwf : a.WF) (rest : List Nat)
    (htok : StringTokenizer.new name (lit ",") = .ok { mPos := 0, mTokens := [name] })
    (hf : f.findPrototype name = some p)
    (hd : a.mData.drop a.mPosition.toNat
      = be32 ((be32 (name.length : Int) ++ name ++ (be32 (cd.length : Int) ++ cd)).length : Int)
        ++ (be32 (name.length : Int) ++ name ++ (be32 (cd.length : Int) ++ cd)) ++ rest) :
    BinaryReadArchive.readObject V f a
      = (match (V.readFrom (V.createInstance p)
            { mData := be32 (name.length : Int) ++ name ++ (be32 (cd.length : Int) ++ cd),
              mLength := ((be32 (name.length : Int) ++ name
                ++ (be32 (cd.length : Int) ++ cd)).length : Nat),
              mPosition := 0 + 4 + name.length }).1 with
          | .error e => .error e
          | .ok instance1 => .ok (some instance1),
         { a with mPosition := a.mPosition + 4
            + (be32 (name.length : Int) ++ name ++ (be32 (cd.length : Int) ++ cd)).length }) := by
  have hfr := readObject_frame V f a hwf name (be32 (cd.length : Int) ++ cd) rest hd
  have hc := DefaultObjectFactory.createObject_eq V f name [name] htok
  rw [DefaultObjectFactory.firstRegistered, hf] at hc
  rw [hc] at hfr
  simp only [Option.map] at hfr
  exact hfr

theorem readObject_null {σ : Type} (V : Serializable σ) (f : DefaultObjectFactory σ)
    (a : BinaryReadArchive) (hwf : a.WF) (rest : List Nat)
    (hd : a.mData.drop a.mPosition.toNat = be32 0 ++ rest) :
    BinaryReadArchive.readObject V f a = (.ok none, { a with mPosition := a.mPosition + 4 }) := by
  obtain ⟨e, _, _⟩ := BinaryReadArchive.readString_ok a hwf [] rest (by simpa using hd)
  unfold BinaryReadArchive.readObject
  rw [e]
  simp

/-- What `writeObject` has written into a new archive, as the archive to read it from. -/
theorem wf_written (w : BinaryWriteArchive) (hw : w.WF) :
    BinaryReadArchive.new w.getData w.size
        = .ok { mData := w.getData, mLength := w.getData.length, mPosition := 0 } ∧
      BinaryReadArchive.WF { mData := w.getData, mLength := w.getData.length, mPosition := 0 } := by
  have hM : BinaryWriteArchive.MAXIMUM_ARCHIVE_SIZE = 1048576 := rfl
  have hl := hw.length_getData
  have hle := hw.le_max
  have hpos := hw.pos
  have hs : w.size = w.getData.length := by rw [hl]; rfl
  rw [hs]
  exact ⟨new_ofData _ _, wf_ofData _ (by rw [hl]; omega)⟩

end aqlib

namespace net

theorem resultMessageClassWriteTo_null (V : Serializable Obj) (p : Int) (hp : IsInt32 p) :
    ∃ ca, SimulationResultMessage.classWriteTo (BinaryWriteArchive.writeObject V) p none
        BinaryWriteArchive.new = (.ok (), ca) ∧
      ca.getData = be32 p ++ be32 0 := by
  have hM : BinaryWriteArchive.MAXIMUM_ARCHIVE_SIZE = 1048576 := rfl
  have h0 : BinaryWriteArchive.new.mPosition = 0 := rfl
  obtain ⟨a1, e1, w1, p1, d1⟩ := BinaryWriteArchive.writeInt_ok p hp BinaryWriteArchive.new
    BinaryWriteArchive.wf_new (by rw [h0, hM]; omega)
  rw [getData_new, List.nil_append] at d1
  obtain ⟨a2, e2, w2, p2, d2⟩ := BinaryWriteArchive.writeString_ok [] a1 w1
    (by rw [p1, h0, hM]; simp)
  refine ⟨a2, ?_, ?_⟩
  · unfold SimulationResultMessage.classWriteTo BinaryWriteArchive.writeFloat
    rw [e1]
    simp only [thenWrite, Option.map, BinaryWriteArchive.writeObject, getData_new]
    exact e2
  · rw [d2, d1]; simp

theorem resultMessageClassReadFrom_null (V : Serializable Obj) (f : DefaultObjectFactory Obj)
    (p : Int) (hp : IsInt32 p) :
    (SimulationResultMessage.classReadFrom (BinaryReadArchive.readObject V f)
        { mData := be32 p ++ be32 0, mLength := ((be32 p ++ be32 0).length : Nat),
          mPosition := 0 }).1 = .ok (p, none) := by
  have hwf := wf_ofData (be32 p ++ be32 0) (by simp [length_be32])
  obtain ⟨e1, w1, d1⟩ := BinaryReadArchive.readInt_be32 _ hwf p hp (be32 0) rfl
  have e2 := readObject_null V f _ w1 [] (by rw [d1]; simp)
  unfold SimulationResultMessage.classReadFrom BinaryReadArchive.readFloat
  rw [e1]
  simp only [andThen]
  rw [e2]
  rfl

theorem resultMessageClassWriteTo_inv (V : Serializable Obj) (p : Int) (hp : IsInt32 p)
    (g : simulation.Graphs) (ca : BinaryWriteArchive)
    (hh : V.getClassHierarchy (.SimulationResult g) = lit "simulation.SimulationResult")
    (hw : ∀ a, V.writeTo (.SimulationResult g) a
      = AQLIB_IMPLEMENT_SERIAL.writeTo Serializable.rootWriteTo
          simulation.SimulationResult.classWriteTo g a)
    (e : SimulationResultMessage.classWriteTo (BinaryWriteArchive.writeObject V) p (some g)
        BinaryWriteArchive.new = (.ok (), ca)) :
    ∃ cd : CString,
      ca.getData = be32 p ++
        (be32 ((be32 ((lit "simulation.SimulationResult").length : Int)
            ++ lit "simulation.SimulationResult" ++ (be32 (cd.length : Int) ++ cd)).length : Int)
          ++ (be32 ((lit "simulation.SimulationResult").length : Int)
            ++ lit "simulation.SimulationResult" ++ (be32 (cd.length : Int) ++ cd))) ∧
      ca.getData.length < BinaryWriteArchive.MAXIMUM_ARCHIVE_SIZE := by
  have hM : BinaryWriteArchive.MAXIMUM_ARCHIVE_SIZE = 1048576 := rfl
  have h0 : BinaryWriteArchive.new.mPosition = 0 := rfl
  have hl : (lit "simulation.SimulationResult").length = 27 := by decide
  obtain ⟨a1, e1, w1, p1, d1⟩ := BinaryWriteArchive.writeInt_ok p hp BinaryWriteArchive.new
    BinaryWriteArchive.wf_new (by rw [h0, hM]; omega)
  rw [getData_new, List.nil_append] at d1
  rw [h0] at p1
  unfold SimulationResultMessage.classWriteTo BinaryWriteArchive.writeFloat at e
  rw [e1] at e
  simp only [thenWrite, Option.map] at e
  obtain ⟨cb, _, wca, dca, pca, hfit⟩ := writeObject_layer_inv V (.SimulationResult g) g
    simulation.SimulationResult.classWriteTo hw a1 ca w1 (by rw [p1, hM]; omega)
    (by rw [hh, hl, hM]; omega) e
  rw [hh] at dca hfit
  refine ⟨cb.getData, ?_, ?_⟩
  · rw [dca, d1]; simp only [List.append_assoc]
  · rw [wca.length_getData, pca, hh]
    exact hfit

end net

theorem Obj.readFrom_result (f : DefaultObjectFactory Obj) (depth : Nat) (cd : CString)
    (hn : 4 + (lit "simulation.SimulationResult").length + 4 + cd.length < 2147483648) :
    ((Obj.vtable f (depth + 1)).readFrom (.SimulationResult [])
        { mData := be32 ((lit "simulation.SimulationResult").length : Int)
            ++ lit "simulation.SimulationResult" ++ (be32 (cd.length : Int) ++ cd),
          mLength := ((be32 ((lit "simulation.SimulationResult").length : Int)
            ++ lit "simulation.SimulationResult" ++ (be32 (cd.length : Int) ++ cd)).length : Nat),
          mPosition := 0 + 4 + (lit "simulation.SimulationResult").length }).1
      = .error .notImplemented :=
  AQLIB_IMPLEMENT_SERIAL.readFrom_after_name simulation.SimulationResult.classReadFrom
    (Obj.SimulationResult []) (lit "simulation.SimulationResult") cd hn

theorem Obj.readFrom_resultMessage (f : DefaultObjectFactory Obj) (depth : Nat) (q : Int)
    (mr : Option simulation.Graphs) (cd : CString)
    (hn : 4 + (lit "net.SimulationResultMessage").length + 4 + cd.length < 2147483648) :
    ((Obj.vtable f (depth + 1)).readFrom (.SimulationResultMessage q mr)
        { mData := be32 ((lit "net.SimulationResultMessage").length : Int)
            ++ lit "net.SimulationResultMessage" ++ (be32 (cd.length : Int) ++ cd),
          mLength := ((be32 ((lit "net.SimulationResultMessage").length : Int)
            ++ lit "net.SimulationResultMessage" ++ (be32 (cd.length : Int) ++ cd)).length : Nat),
          mPosition := 0 + 4 + (lit "net.SimulationResultMessage").length }).1
      = match (net.SimulationResultMessage.classReadFrom
            (BinaryReadArchive.readObject (Obj.vtable f depth) f)
            { mData := cd, mLength := cd.length, mPosition := 0 }).1 with
        | .ok members => .ok (.SimulationResultMessage members.1 members.2)
        | .error e => .error e := by
  have h := AQLIB_IMPLEMENT_SERIAL.readFrom_after_name
    (fun (_ : Int × Option simulation.Graphs) classArchive =>
      net.SimulationResultMessage.classReadFrom
        (BinaryReadArchive.readObject (Obj.vtable f depth) f) classArchive)
    (q, mr) (lit "net.SimulationResultMessage") cd hn
  simp only at h
  rw [← h]
  show (match AQLIB_IMPLEMENT_SERIAL.readFrom Serializable.rootReadFrom
      (fun (_ : Int × Option simulation.Graphs) classArchive =>
        net.SimulationResultMessage.classReadFrom
          (BinaryReadArchive.readObject (Obj.vtable f depth) f) classArchive)
      (q, mr) _ with
    | (.ok members, archive1) => (Except.ok (Obj.SimulationResultMessage members.1 members.2), archive1)
    | (.error e, archive1) => (.error e, archive1)).1 = _
  rcases AQLIB_IMPLEMENT_SERIAL.readFrom Serializable.rootReadFrom
      (fun (_ : Int × Option simulation.Graphs) classArchive =>
        net.SimulationResultMessage.classReadFrom
          (BinaryReadArchive.readObject (Obj.vtable f depth) f) classArchive)
      (q, mr) _ with ⟨r, a1⟩
  cases r <;> rfl

theorem net.resultMessageClassReadFrom_result (f : DefaultObjectFactory Obj) (depth : Nat)
    (p : Int) (hp : IsInt32 p) (cb : CString)
    (hreg : f.findPrototype (lit "simulation.SimulationResult") = some (.SimulationResult []))
    (hn : 4 + (4 + (4 + (lit "simulation.SimulationResult").length + 4 + cb.length))
      < 2147483648) :
    (net.SimulationResultMessage.classReadFrom
        (BinaryReadArchive.readObject (Obj.vtable f (depth + 1)) f)
        { mData := be32 p ++
            (be32 ((be32 ((lit "simulation.SimulationResult").length : Int)
                ++ lit "simulation.SimulationResult" ++ (be32 (cb.length : Int) ++ cb)).length : Int)
              ++ (be32 ((lit "simulation.SimulationResult").length : Int)
                ++ lit "simulation.SimulationResult" ++ (be32 (cb.length : Int) ++ cb))),
          mLength := ((be32 p ++
            (be32 ((be32 ((lit "simulation.SimulationResult").length : Int)
                ++ lit "simulation.SimulationResult" ++ (be32 (cb.length : Int) ++ cb)).length : Int)
              ++ (be32 ((lit "simulation.SimulationResult").length : Int)
                ++ lit "simulation.SimulationResult" ++ (be32 (cb.length : Int) ++ cb)))).length
                  : Nat),
          mPosition := 0 }).1 = .error .notImplemented := by
  have hwf := wf_ofData (be32 p ++
      (be32 ((be32 ((lit "simulation.SimulationResult").length : Int)
          ++ lit "simulation.SimulationResult" ++ (be32 (cb.length : Int) ++ cb)).length : Int)
        ++ (be32 ((lit "simulation.SimulationResult").length : Int)
          ++ lit "simulation.SimulationResult" ++ (be32 (cb.length : Int) ++ cb))))
    (by simp only [List.length_append, length_be32]; omega)
  obtain ⟨e1, w1, d1⟩ := BinaryReadArchive.readInt_be32 _ hwf p hp _ rfl
  have e2 := readObject_one_layer (Obj.vtable f (depth + 1)) f (lit "simulation.SimulationResult")
    cb (.SimulationResult []) _ w1 [] rfl hreg (by rw [d1, List.append_nil])
  have e3 := Obj.readFrom_result f depth cb (by omega)
  have hci : (Obj.vtable f (depth + 1)).createInstance (.SimulationResult [])
      = .SimulationResult [] := rfl
  rw [hci, e3] at e2
  unfold net.SimulationResultMessage.classReadFrom BinaryReadArchive.readFloat
  rw [e1]
  simp only [andThen]
  rw [e2]

theorem aqlib.BinaryReadArchive.readString_wrapped (behind : List Nat) :
    BinaryReadArchive.readString
        { mData := [127, 255, 255, 255] ++ behind, mLength := 4, mPosition := 0 }
      = (.ok (behind.take 2147483647),
          { mData := [127, 255, 255, 255] ++ behind, mLength := 4, mPosition := -2147483645 }) := by
  have e : BinaryReadArchive.readInt
      { mData := [127, 255, 255, 255] ++ behind, mLength := 4, mPosition := 0 }
      = (.ok 2147483647,
          { mData := [127, 255, 255, 255] ++ behind, mLength := 4, mPosition := 4 }) := by
    have hc : combine 127 255 255 255 = 2147483647 := by decide
    simp [BinaryReadArchive.readInt, BinaryReadArchive.readChar, hc]
  unfold BinaryReadArchive.readString
  rw [e]
  have hs : toInt32 ((4 : Int) + 2147483647) = -2147483645 := by decide
  simp only [hs]
  rw [if_neg (by decide), if_neg (by decide)]
  simp

theorem aqlib.BinaryReadArchive.readObjectWithMemory_cursor {σ : Type} (behind : List Nat)
    (V : Serializable σ) (f : DefaultObjectFactory σ) (a : BinaryReadArchive) (hwf : a.WF)
    (data rest : List Nat)
    (hd : a.mData.drop a.mPosition.toNat = be32 (data.length : Int) ++ data ++ rest) :
    (BinaryReadArchive.readObjectWithMemory behind V f a).2
        = { a with mPosition := a.mPosition + 4 + data.length } ∧
      ((BinaryReadArchive.readObjectWithMemory behind V f a).1 = .ok none ↔ data.length = 0) := by
  obtain ⟨e, _, _⟩ := BinaryReadArchive.readString_ok a hwf data rest hd
  unfold BinaryReadArchive.readObjectWithMemory
  rw [e]
  simp only
  by_cases h0 : data.length = 0
  · rw [if_pos h0]; exact ⟨rfl, by simp [h0]⟩
  · rw [if_neg h0]
    cases h1 : BinaryReadArchive.new (data ++ behind) (toInt32 (data.length : Int)) with
    | error x => exact ⟨rfl, by simp [h0]⟩
    | ok archive =>
      simp only
      cases h2 : BinaryReadArchive.readString archive with
      | mk r2 archive1 =>
        cases r2 with
        | error x => exact ⟨rfl, by simp [h0]⟩
        | ok type =>
          simp only
          cases h3 : f.createObject V type with
          | error x => exact ⟨rfl, by simp [h0]⟩
          | ok o =>
            cases o with
            | none => exact ⟨rfl, by simp [h0]⟩
            | some instance0 =>
              simp only
              cases h4 : V.readFrom instance0 archive1 with
              | mk r4 archive2 =>
                cases r4 with
                | error x => exact ⟨rfl, by simp [h0]⟩
                | ok y => exact ⟨rfl, by simp [h0]⟩

theorem aqlib.BinaryReadArchive.readObjectWithMemory_nil {σ : Type} (V : Serializable σ)
    (f : DefaultObjectFactory σ) (a : BinaryReadArchive) :
    BinaryReadArchive.readObjectWithMemory [] V f a = BinaryReadArchive.readObject V f a := by
  unfold BinaryReadArchive.readObjectWithMemory BinaryReadArchive.readObject
  simp only [List.append_nil]

/-! # The claims -/

/-- C1. For every `int32_t` value `v`, `writeInt(v)` on a fresh write archive
succeeds, and `readInt` on a read archive over the bytes written returns `v`
and leaves nothing to read. -/
theorem readInt_writeInt_roundtrip (v : Int) (hv : IsInt32 v) :
    ∃ w, BinaryWriteArchive.writeInt v BinaryWriteArchive.new = (.ok (), w) ∧
      ∃ r, BinaryReadArchive.new w.getData w.size = .ok r ∧
        ∃ r1, BinaryReadArchive.readInt r = (.ok v, r1) ∧ r1.available = 0 ∧
          r1.hasMoreData = false := by
  obtain ⟨w, e, wf, hp, hd⟩ := BinaryWriteArchive.writeInt_ok v hv _ BinaryWriteArchive.wf_new
    (by decide)
  rw [getData_new, List.nil_append] at hd
  have hsz : w.size = 4 := by
    unfold BinaryWriteArchive.size; rw [hp]; rfl
  refine ⟨w, e, _, new_ofData _ _, ?_⟩
  rw [hd, hsz]
  have hwf : BinaryReadArchive.WF { mData := be32 v, mLength := ((4 : Nat) : Int), mPosition := 0 } :=
    wf_ofData (be32 v) (by simp [be32])
  obtain ⟨e1, w1, d1⟩ := BinaryReadArchive.readInt_ok _ hwf (toBits32 v / 16777216 % 256)
    (toBits32 v / 65536 % 256) (toBits32 v / 256 % 256) (toBits32 v % 256) [] (by simp [be32])
  rw [combine_be32 v hv] at e1
  refine ⟨_, e1, ?_, ?_⟩
  · simp [BinaryReadArchive.available]; decide
  · simp [BinaryReadArchive.hasMoreData, BinaryReadArchive.available]; decide

theorem readInt_writeInt_roundtrip_witness :
    IsInt32 (-2147483648) ∧
    ∃ w, BinaryWriteArchive.writeInt (-2147483648) BinaryWriteArchive.new = (.ok (), w) ∧
      ∃ r, BinaryReadArchive.new w.getData w.size = .ok r ∧
        ∃ r1, BinaryReadArchive.readInt r = (.ok (-2147483648), r1) ∧ r1.available = 0 ∧
          r1.hasMoreData = false :=
  ⟨by decide, readInt_writeInt_roundtrip (-2147483648) (by decide)⟩

/-- C2. For every `int32_t` value `v` and every archive with room for four more
bytes, `writeInt(v)` succeeds, moves the cursor by 4 and leaves the archive
holding what it held followed by the four bytes of the two's-complement pattern
of `v`, the most significant first. -/
theorem writeInt_appends_big_endian (v : Int) (hv : IsInt32 v) (a : BinaryWriteArchive)
    (h : a.WF) (hp : a.mPosition + 4 ≤ BinaryWriteArchive.MAXIMUM_ARCHIVE_SIZE) :
    ∃ a1, BinaryWriteArchive.writeInt v a = (.ok (), a1) ∧ a1.WF ∧ a1.size = a.size + 4 ∧
      a1.getData = a.getData ++
        [toBits32 v / 2 ^ 24 % 256, toBits32 v / 2 ^ 16 % 256, toBits32 v / 2 ^ 8 % 256,
          toBits32 v % 256] := by
  obtain ⟨a1, e, wf, hp1, hd⟩ := BinaryWriteArchive.writeInt_ok v hv a h hp
  exact ⟨a1, e, wf, hp1, hd⟩

theorem writeInt_appends_big_endian_witness :
    IsInt32 0x01020304 ∧ BinaryWriteArchive.new.WF ∧
    ∃ a1, BinaryWriteArchive.writeInt 0x01020304 BinaryWriteArchive.new = (.ok (), a1) ∧ a1.WF ∧
      a1.size = 4 ∧ a1.getData = [1, 2, 3, 4] :=
  ⟨by decide, BinaryWriteArchive.wf_new,
    writeInt_appends_big_endian 0x01020304 (by decide) BinaryWriteArchive.new
      BinaryWriteArchive.wf_new (by decide)⟩

/-- Below the limit of `writeString`. For every string `s` with `4 + |s|` below the maximum archive
size, `writeString(s)` on a fresh archive succeeds and leaves the size of `s`, big-endian,
followed by the bytes of `s`; `readString` over these bytes returns `s`. -/
theorem writeString_readString_below_limit (s : CString)
    (hs : 4 + s.length < BinaryWriteArchive.MAXIMUM_ARCHIVE_SIZE) :
    ∃ w, BinaryWriteArchive.writeString s BinaryWriteArchive.new = (.ok (), w) ∧
      w.getData = be32 (s.length : Int) ++ s ∧
      ∃ r, BinaryReadArchive.new w.getData w.size = .ok r ∧
        ∃ r1, BinaryReadArchive.readString r = (.ok s, r1) ∧ r1.available = 0 := by
  have hM : BinaryWriteArchive.MAXIMUM_ARCHIVE_SIZE = 1048576 := rfl
  obtain ⟨w, e, wf, hp, hd⟩ := BinaryWriteArchive.writeString_ok s _ BinaryWriteArchive.wf_new
    (by simp only [BinaryWriteArchive.new]; omega)
  rw [getData_new, List.nil_append] at hd
  have hsz : w.size = 4 + s.length := by
    unfold BinaryWriteArchive.size; rw [hp]; simp [BinaryWriteArchive.new]
  refine ⟨w, e, hd, _, new_ofData _ _, ?_⟩
  rw [hd, hsz]
  have hl : (be32 (s.length : Int) ++ s).length = 4 + s.length := by simp [be32]; omega
  have hwf : BinaryReadArchive.WF
      { mData := be32 (s.length : Int) ++ s, mLength := ((4 + s.length : Nat) : Int),
        mPosition := 0 } := by
    have := wf_ofData (be32 (s.length : Int) ++ s) (by omega)
    rw [hl] at this
    exact this
  obtain ⟨e1, w1, d1⟩ := BinaryReadArchive.readString_ok _ hwf s [] (by simp)
  refine ⟨_, e1, ?_⟩
  simp only [BinaryReadArchive.available]
  have : ((4 + s.length : Nat) : Int) - (0 + 4 + (s.length : Int)) = 0 := by omega
  rw [this]; decide

/-- C3, at the limit. A string of `MAXIMUM_ARCHIVE_SIZE - 4` bytes: `writeString` on a
fresh archive throws the size exception, after it has written the four bytes of
the size. -/
theorem writeString_at_limit_throws :
    (List.replicate 1048572 0).length = BinaryWriteArchive.MAXIMUM_ARCHIVE_SIZE - 4 ∧
    (BinaryWriteArchive.writeString (List.replicate 1048572 0) BinaryWriteArchive.new).1
      = .error .sizeTooBig ∧
    (BinaryWriteArchive.writeString (List.replicate 1048572 0) BinaryWriteArchive.new).2.size
      = 4 := by
  have hM : BinaryWriteArchive.MAXIMUM_ARCHIVE_SIZE = 1048576 := rfl
  have hl : (List.replicate 1048572 0).length = 1048572 := List.length_replicate _ _
  obtain ⟨a1, e, hp, _⟩ := BinaryWriteArchive.writeString_full (List.replicate 1048572 0) _
    BinaryWriteArchive.wf_new (by decide) (by rw [hl]; decide)
  refine ⟨by rw [hl, hM], ?_, ?_⟩
  · rw [e]
  · rw [e]; simp only [BinaryWriteArchive.size, hp]; rfl

/-- C4, as the code has it. For an object `x` that is not `NULL`, whose hierarchy string
fits a new archive, whose `writeTo` returns on the archive that holds that string, adding
the bytes `body`, and whose blob of `n` bytes has `4 + n` below the maximum archive size:
`writeObject(x)` on a fresh archive succeeds and leaves the big-endian `n` followed by the
blob, `n` being the size less 4; the blob is the hierarchy string as a string followed by
`body`; and `sendMessage` hands exactly these bytes to `post`. -/
theorem writeObject_frame {σ : Type} (V : Serializable σ) (x : σ) (a1 a2 : BinaryWriteArchive)
    (body : List Nat)
    (h1 : BinaryWriteArchive.writeString (V.getClassHierarchy x) BinaryWriteArchive.new
      = (.ok (), a1))
    (h2 : V.writeTo x a1 = (.ok (), a2))
    (hb : a2.getData = a1.getData ++ body)
    (hfit : 4 + a2.getData.length < BinaryWriteArchive.MAXIMUM_ARCHIVE_SIZE) :
    ∃ w, BinaryWriteArchive.writeObject V (some x) BinaryWriteArchive.new = (.ok (), w) ∧
      w.getData = be32 ((encString (V.getClassHierarchy x) ++ body).length : Int)
        ++ (encString (V.getClassHierarchy x) ++ body) ∧
      (encString (V.getClassHierarchy x) ++ body).length = w.size - 4 ∧ 4 ≤ w.size ∧
      net.Connection.sendMessage V (some x) = .ok w.getData := by
  have hM : BinaryWriteArchive.MAXIMUM_ARCHIVE_SIZE = 1048576 := rfl
  have ha1 : a1.getData = encString (V.getClassHierarchy x) := by
    rcases Nat.lt_or_ge (4 + (V.getClassHierarchy x).length)
      BinaryWriteArchive.MAXIMUM_ARCHIVE_SIZE with hlt | hge
    · obtain ⟨a, e, _, _, d⟩ := BinaryWriteArchive.writeString_ok (V.getClassHierarchy x) _
        BinaryWriteArchive.wf_new (by simp only [BinaryWriteArchive.new]; omega)
      rw [h1] at e
      injection e with _ e2
      subst e2
      rw [d, getData_new, List.nil_append]; rfl
    · obtain ⟨a, e, _, _⟩ := BinaryWriteArchive.writeString_full (V.getClassHierarchy x) _
        BinaryWriteArchive.wf_new (by decide) (by simp only [BinaryWriteArchive.new]; omega)
      rw [h1] at e
      injection e with e1 _
      cases e1
  obtain ⟨w, e, wf, hs, hd⟩ := writeObject_some_ok V x a1 a2 h1 h2 hfit
  rw [hb, ha1] at hd hs
  refine ⟨w, e, hd, by omega, by omega, ?_⟩
  unfold net.Connection.sendMessage
  rw [e]

theorem writeObject_frame_witness :
    ∃ w, BinaryWriteArchive.writeObject (scenario.vtable (lit "ns::Derived") 2) (some [7, 9])
        BinaryWriteArchive.new = (.ok (), w) ∧
      w.getData = [0, 0, 0, 26, 0, 0, 0, 10, 110, 115, 46, 68, 101, 114, 105, 118, 101, 100,
        0, 0, 0, 8, 0, 0, 0, 7, 0, 0, 0, 9] ∧
      26 = w.size - 4 ∧ 4 ≤ w.size ∧
      net.Connection.sendMessage (scenario.vtable (lit "ns::Derived") 2) (some [7, 9])
        = .ok w.getData :=
  writeObject_frame (scenario.vtable (lit "ns::Derived") 2) [7, 9]
    (BinaryWriteArchive.writeString (lit "ns.Derived") BinaryWriteArchive.new).2
    ((scenario.vtable (lit "ns::Derived") 2).writeTo [7, 9]
      (BinaryWriteArchive.writeString (lit "ns.Derived") BinaryWriteArchive.new).2).2
    [0, 0, 0, 8, 0, 0, 0, 7, 0, 0, 0, 9] rfl rfl rfl (by decide)

/-- C4 as stated fails. A `SimulationResult` with an empty graph and a graph of 131,066
points: its hierarchy string and its `writeTo` fit the nested archive, which then holds
1,048,575 bytes; `writeObject` throws the size exception when it stores them as a string,
and `sendMessage` posts nothing. -/
theorem writeObject_large_result_throws :
    ∃ a1 a2,
      BinaryWriteArchive.writeString
        (Obj.getClassHierarchy (.SimulationResult [[], List.replicate 131066 (0, 0)]))
        BinaryWriteArchive.new = (.ok (), a1) ∧
      (Obj.vtable { mPrototypes := [] } 1).writeTo
        (.SimulationResult [[], List.replicate 131066 (0, 0)]) a1 = (.ok (), a2) ∧
      a2.size = 1048575 ∧
      (BinaryWriteArchive.writeObject (Obj.vtable { mPrototypes := [] } 1)
        (some (.SimulationResult [[], List.replicate 131066 (0, 0)]))
        BinaryWriteArchive.new).1 = .error .sizeTooBig ∧
      net.Connection.sendMessage (Obj.vtable { mPrototypes := [] } 1)
        (some (.SimulationResult [[], List.replicate 131066 (0, 0)])) = .error .sizeTooBig := by
  have hM : BinaryWriteArchive.MAXIMUM_ARCHIVE_SIZE = 1048576 := rfl
  have h0 : BinaryWriteArchive.new.mPosition = 0 := rfl
  have hlen : (List.replicate 131066 ((0 : Int), (0 : Int))).length = 131066 :=
    List.length_replicate _ _
  have hmem : ∀ p ∈ List.replicate 131066 ((0 : Int), (0 : Int)), IsInt32 p.1 ∧ IsInt32 p.2 := by
    intro p hp
    rw [List.eq_of_mem_replicate hp]
    exact ⟨by decide, by decide⟩
  generalize List.replicate 131066 ((0 : Int), (0 : Int)) = big at hlen hmem ⊢
  have hall : ∀ g ∈ [[], big], ∀ p ∈ g, IsInt32 p.1 ∧ IsInt32 p.2 := by
    intro g hg p hp
    rcases List.mem_cons.mp hg with h | h
    · subst h; simp at hp
    · rw [List.mem_singleton.mp h] at hp; exact hmem p hp
  have hsz : simulation.graphsSize [[], big] = 1048536 := by
    have h := hlen
    rw [simulation.graphsSize, simulation.graphsSize, simulation.graphsSize, List.length_nil]
    omega
  have hh : Obj.getClassHierarchy (.SimulationResult [[], big]) = lit "simulation.SimulationResult" :=
    rfl
  have hhl : (lit "simulation.SimulationResult").length = 27 := by decide
  obtain ⟨a1, e1, w1, p1, _⟩ := BinaryWriteArchive.writeString_ok
    (lit "simulation.SimulationResult") _ BinaryWriteArchive.wf_new
    (by rw [hhl, h0, hM]; omega)
  have p1' : a1.mPosition = 31 := by rw [p1, hhl, h0]
  obtain ⟨ca, ec, wc, pc⟩ := simulation.resultClassWriteTo_ok [[], big] BinaryWriteArchive.new hall
    BinaryWriteArchive.wf_new (by rw [hsz, h0, hM]; omega)
  have pc' : ca.getData.length = 1048540 := by
    rw [wc.length_getData, pc, hsz, h0]
  obtain ⟨a2, e2, w2, p2, _⟩ := AQLIB_IMPLEMENT_SERIAL.writeTo_layer Serializable.rootWriteTo
    simulation.SimulationResult.classWriteTo [[], big] a1 a1 ca rfl w1 ec (by rw [pc', p1', hM]; omega)
  have e2' : (Obj.vtable { mPrototypes := [] } 1).writeTo (.SimulationResult [[], big]) a1
      = (.ok (), a2) := e2
  have p2' : a2.getData.length = 1048575 := by
    rw [w2.length_getData, p2, pc', p1']
  have hfull := writeObject_some_full (Obj.vtable { mPrototypes := [] } 1)
    (.SimulationResult [[], big]) a1 a2 (by rw [← e1]; rfl) e2' (by rw [p2', hM]; omega)
  refine ⟨a1, a2, ?_, ?_, ?_, ?_, ?_⟩
  · rw [hh]; exact e1
  · exact e2'
  · show a2.mPosition = 1048575
    rw [← w2.length_getData]; exact p2'
  · exact hfull
  · exact sendMessage_error _ _ _ hfull

/-- C5, as the code has it. Let the registry hold, under the name of the class of `x`,
the prototype of that class. If `x` is a `DemoSerializableNoMacros`, a plain
`SimulationRequest`, or a `SimulationResultMessage` whose result is null, its percentage
the pattern of a `float`, then `writeObject(x)` succeeds, and `readObject` over the bytes
written returns an object equal to `x`, member by member, and leaves nothing to read. If
`x` is a `BlackScholes` or a `SimulationRequestMessage`, `writeObject(x)` throws, for
`classWriteTo` is not implemented, and leaves the archive as it was. If `x` is a
`SimulationResult`, then whenever `writeObject(x)` succeeds, `readObject` over the bytes
written throws, for `classReadFrom` is not implemented; and so it is if `x` is a
`SimulationResultMessage` that carries a result and the registry holds the prototype of
`SimulationResult` under its name. -/
theorem roundtrip_where_implemented (f : DefaultObjectFactory Obj) (depth : Nat) (x : Obj)
    (hf : f.findPrototype (Obj.getClassHierarchy x) = some (Obj.createInstance x)) :
    ((x = .DemoSerializableNoMacros ∨ x = .SimulationRequest .plain ∨
        ∃ p, IsInt32 p ∧ x = .SimulationResultMessage p none) →
      ∃ w, BinaryWriteArchive.writeObject (Obj.vtable f (depth + 1)) (some x)
          BinaryWriteArchive.new = (.ok (), w) ∧
        ∃ r, BinaryReadArchive.new w.getData w.size = .ok r ∧
          ∃ r1, BinaryReadArchive.readObject (Obj.vtable f (depth + 1)) f r
              = (.ok (some x), r1) ∧
            r1.available = 0) ∧
    (((∃ members, x = .SimulationRequest (.blackScholes members)) ∨
        ∃ stop request, x = .SimulationRequestMessage stop request) →
      ∀ a, BinaryWriteArchive.writeObject (Obj.vtable f (depth + 1)) (some x) a
        = (.error .notImplemented, a)) ∧
    ((∃ g, x = .SimulationResult g) →
      ∀ w, BinaryWriteArchive.writeObject (Obj.vtable f (depth + 1)) (some x)
          BinaryWriteArchive.new = (.ok (), w) →
        ∃ r, BinaryReadArchive.new w.getData w.size = .ok r ∧
          (BinaryReadArchive.readObject (Obj.vtable f (depth + 1)) f r).1
            = .error .notImplemented) ∧
    ((∃ p g, IsInt32 p ∧ x = .SimulationResultMessage p (some g)) →
      f.findPrototype (lit "simulation.SimulationResult") = some (.SimulationResult []) →
      ∀ w, BinaryWriteArchive.writeObject (Obj.vtable f (depth + 2)) (some x)
          BinaryWriteArchive.new = (.ok (), w) →
        ∃ r, BinaryReadArchive.new w.getData w.size = .ok r ∧
          (BinaryReadArchive.readObject (Obj.vtable f (depth + 2)) f r).1
            = .error .notImplemented) := by
  have hM : BinaryWriteArchive.MAXIMUM_ARCHIVE_SIZE = 1048576 := rfl
  have h0 : BinaryWriteArchive.new.mPosition = 0 := rfl
  have hlr : (lit "simulation.SimulationResult").length = 27 := by decide
  have hlm : (lit "net.SimulationResultMessage").length = 27 := by decide
  refine ⟨?_, ?_, ?_, ?_⟩
  · rintro (hx | hx | ⟨p, hp, hx⟩)
    · subst hx
      exact roundtrip_of_memberless (Obj.vtable f (depth + 1)) f .DemoSerializableNoMacros
        .DemoSerializableNoMacros DemoSerializableNoMacros.classWriteTo
        DemoSerializableNoMacros.classReadFrom (fun _ _ => rfl) (fun _ _ => rfl)
        (by show (lit "aqlib.DemoSerializableNoMacros").length < 1000; decide) rfl
        rfl rfl hf
    · subst hx
      exact roundtrip_of_memberless (Obj.vtable f (depth + 1)) f (.SimulationRequest .plain)
        (.SimulationRequest .plain) simulation.SimulationRequest.classWriteTo
        simulation.SimulationRequest.classReadFrom (fun _ _ => rfl) (fun _ _ => rfl)
        (by show (lit "simulation.SimulationRequest").length < 1000; decide) rfl rfl rfl hf
    · subst hx
      have hh : (Obj.vtable f (depth + 1)).getClassHierarchy (.SimulationResultMessage p none)
          = lit "net.SimulationResultMessage" := rfl
      obtain ⟨ca, ec, dc⟩ := net.resultMessageClassWriteTo_null (Obj.vtable f depth) p hp
      have hcl : ca.getData.length = 8 := by rw [dc]; rfl
      obtain ⟨w, e, wf, dw, pw⟩ := writeObject_layer_ok (Obj.vtable f (depth + 1))
        (.SimulationResultMessage p none) (Obj.SimulationResultMessage p none)
        (fun _ classArchive => net.SimulationResultMessage.classWriteTo
          (BinaryWriteArchive.writeObject (Obj.vtable f depth)) p none classArchive)
        (fun _ => rfl) ca ec (by rw [hh, hlm, hcl, hM]; omega)
      rw [hh] at dw pw
      obtain ⟨hr, hrw⟩ := wf_written w wf
      refine ⟨w, e, _, hr, ?_⟩
      have e2 := readObject_one_layer (Obj.vtable f (depth + 1)) f
        (lit "net.SimulationResultMessage") ca.getData (.SimulationResultMessage 0 none) _ hrw []
        rfl hf (by rw [List.append_nil]; exact dw)
      have hci : (Obj.vtable f (depth + 1)).createInstance (.SimulationResultMessage 0 none)
          = .SimulationResultMessage 0 none := rfl
      have e3 := Obj.readFrom_resultMessage f depth 0 none ca.getData (by rw [hlm, hcl]; omega)
      rw [dc] at e3
      rw [net.resultMessageClassReadFrom_null (Obj.vtable f depth) f p hp] at e3
      rw [← dc] at e3
      rw [hci, e3] at e2
      refine ⟨_, e2, ?_⟩
      unfold BinaryReadArchive.available
      simp only
      rw [dw]
      simp only [List.length_append, length_be32]
      have : (((4 + (4 + (lit "net.SimulationResultMessage").length + (4 + ca.getData.length)) : Nat)
          : Int) - (0 + 4 + ((4 + (lit "net.SimulationResultMessage").length
            + (4 + ca.getData.length) : Nat) : Int))) = 0 := by omega
      rw [this]; rfl
  · intro hx a
    have key : ∀ (y : Obj) (name : CString),
        (Obj.vtable f (depth + 1)).getClassHierarchy y = name → name.length < 1000 →
        (∀ a1, (Obj.vtable f (depth + 1)).writeTo y a1 = (.error .notImplemented, a1)) →
        BinaryWriteArchive.writeObject (Obj.vtable f (depth + 1)) (some y) a
          = (.error .notImplemented, a) := by
      intro y name hh hl hwt
      obtain ⟨a1, e1, _, _, _⟩ := BinaryWriteArchive.writeString_ok name _
        BinaryWriteArchive.wf_new (by rw [h0, hM]; omega)
      unfold BinaryWriteArchive.writeObject
      simp only [hh, e1, hwt]
    rcases hx with ⟨m, hx⟩ | ⟨b, r, hx⟩
    · subst hx
      exact key _ (lit "simulation.BlackScholes") rfl (by decide) (fun a1 =>
        AQLIB_IMPLEMENT_SERIAL.writeTo_class_error Serializable.rootWriteTo
          simulation.BlackScholes.classWriteTo (Obj.SimulationRequest (.blackScholes m)) a1 a1
          BinaryWriteArchive.new .notImplemented
          rfl rfl)
    · subst hx
      exact key _ (lit "net.SimulationRequestMessage") rfl (by decide) (fun a1 =>
        AQLIB_IMPLEMENT_SERIAL.writeTo_class_error Serializable.rootWriteTo
          net.SimulationRequestMessage.classWriteTo (Obj.SimulationRequestMessage b r) a1 a1
          BinaryWriteArchive.new .notImplemented
          rfl rfl)
  · rintro ⟨g, hx⟩ w e
    subst hx
    have hh : (Obj.vtable f (depth + 1)).getClassHierarchy (.SimulationResult g)
        = lit "simulation.SimulationResult" := rfl
    obtain ⟨cb, _, wf, dw, pw, hfit⟩ := writeObject_layer_inv (Obj.vtable f (depth + 1))
      (.SimulationResult g) g simulation.SimulationResult.classWriteTo (fun _ => rfl)
      BinaryWriteArchive.new w BinaryWriteArchive.wf_new (by rw [h0, hM]; omega)
      (by rw [hh, hlr, hM]; omega) e
    rw [hh, h0] at hfit
    rw [hh, getData_new, List.nil_append] at dw
    obtain ⟨hr, hrw⟩ := wf_written w wf
    refine ⟨_, hr, ?_⟩
    have e2 := readObject_one_layer (Obj.vtable f (depth + 1)) f
      (lit "simulation.SimulationResult") cb.getData (.SimulationResult []) _ hrw []
      rfl hf (by rw [List.append_nil]; exact dw)
    have hci : (Obj.vtable f (depth + 1)).createInstance (.SimulationResult [])
        = .SimulationResult [] := rfl
    rw [hci, Obj.readFrom_result f depth cb.getData (by rw [hM] at hfit; omega)] at e2
    rw [e2]
  · rintro ⟨p, g, hp, hx⟩ hreg w e
    subst hx
    have hh : (Obj.vtable f (depth + 2)).getClassHierarchy (.SimulationResultMessage p (some g))
        = lit "net.SimulationResultMessage" := rfl
    obtain ⟨ca, ec, wf, dw, pw, hfit⟩ := writeObject_layer_inv (Obj.vtable f (depth + 2))
      (.SimulationResultMessage p (some g)) (Obj.SimulationResultMessage p (some g))
      (fun _ classArchive => net.SimulationResultMessage.classWriteTo
        (BinaryWriteArchive.writeObject (Obj.vtable f (depth + 1))) p (some g) classArchive)
      (fun _ => rfl)
      BinaryWriteArchive.new w BinaryWriteArchive.wf_new (by rw [h0, hM]; omega)
      (by rw [hh, hlm, hM]; omega) e
    rw [hh, h0] at hfit
    rw [hh, getData_new, List.nil_append] at dw
    obtain ⟨cd, dc, hcl⟩ := net.resultMessageClassWriteTo_inv (Obj.vtable f (depth + 1)) p hp g ca
      rfl (fun _ => rfl) ec
    obtain ⟨hr, hrw⟩ := wf_written w wf
    refine ⟨_, hr, ?_⟩
    have e2 := readObject_one_layer (Obj.vtable f (depth + 2)) f
      (lit "net.SimulationResultMessage") ca.getData (.SimulationResultMessage 0 none) _ hrw []
      rfl hf (by rw [List.append_nil]; exact dw)
    have hci : (Obj.vtable f (depth + 2)).createInstance (.SimulationResultMessage 0 none)
        = .SimulationResultMessage 0 none := rfl
    have e3 := Obj.readFrom_resultMessage f (depth + 1) 0 none ca.getData
      (by rw [hM] at hfit; omega)
    have hcdl := congrArg List.length dc
    simp only [List.length_append, length_be32] at hcdl
    rw [dc] at e3
    rw [net.resultMessageClassReadFrom_result f depth p hp cd hreg
      (by rw [hM] at hcl; omega)] at e3
    rw [← dc] at e3
    rw [hci, e3] at e2
    rw [e2]

theorem roundtrip_where_implemented_witness :
    (∃ w, BinaryWriteArchive.writeObject (Obj.vtable Application.mObjectFactory 1)
        (some (.SimulationResultMessage 1065353216 none)) BinaryWriteArchive.new = (.ok (), w) ∧
      ∃ r, BinaryReadArchive.new w.getData w.size = .ok r ∧
        ∃ r1, BinaryReadArchive.readObject (Obj.vtable Application.mObjectFactory 1)
            Application.mObjectFactory r
              = (.ok (some (.SimulationResultMessage 1065353216 none)), r1) ∧
          r1.available = 0) ∧
    (∀ a, BinaryWriteArchive.writeObject (Obj.vtable Application.mObjectFactory 1)
        (some (.SimulationRequest (.blackScholes simulation.BlackScholes.new))) a
      = (.error .notImplemented, a)) ∧
    (∃ r, BinaryReadArchive.new
        (BinaryWriteArchive.writeObject (Obj.vtable Application.mObjectFactory 1)
          (some (.SimulationResult [[(1, 2)]])) BinaryWriteArchive.new).2.getData
        (BinaryWriteArchive.writeObject (Obj.vtable Application.mObjectFactory 1)
          (some (.SimulationResult [[(1, 2)]])) BinaryWriteArchive.new).2.size = .ok r ∧
      (BinaryReadArchive.readObject (Obj.vtable Application.mObjectFactory 1)
        Application.mObjectFactory r).1 = .error .notImplemented) ∧
    (∃ r, BinaryReadArchive.new
        (BinaryWriteArchive.writeObject (Obj.vtable Application.mObjectFactory 2)
          (some (.SimulationResultMessage 0 (some [[(1, 2)]]))) BinaryWriteArchive.new).2.getData
        (BinaryWriteArchive.writeObject (Obj.vtable Application.mObjectFactory 2)
          (some (.SimulationResultMessage 0 (some [[(1, 2)]]))) BinaryWriteArchive.new).2.size
          = .ok r ∧
      (BinaryReadArchive.readObject (Obj.vtable Application.mObjectFactory 2)
        Application.mObjectFactory r).1 = .error .notImplemented) :=
  ⟨(roundtrip_where_implemented Application.mObjectFactory 0
      (.SimulationResultMessage 1065353216 none) (by decide)).1
        (Or.inr (Or.inr ⟨1065353216, by decide, rfl⟩)),
    (roundtrip_where_implemented Application.mObjectFactory 0
      (.SimulationRequest (.blackScholes simulation.BlackScholes.new)) (by decide)).2.1
        (Or.inl ⟨simulation.BlackScholes.new, rfl⟩),
    (roundtrip_where_implemented Application.mObjectFactory 0
      (.SimulationResult [[(1, 2)]]) (by decide)).2.2.1 ⟨[[(1, 2)]], rfl⟩ _
        (Prod.ext (by decide) rfl),
    (roundtrip_where_implemented Application.mObjectFactory 0
      (.SimulationResultMessage 0 (some [[(1, 2)]])) (by decide)).2.2.2
        ⟨0, [[(1, 2)]], by decide, rfl⟩ (by decide) _ (Prod.ext (by decide) rfl)⟩

/-- C5 as stated fails. A `SimulationRequestMessage` cannot be written: `writeObject`
throws, for `classWriteTo` is not implemented. A `SimulationResult` without graphs is
written, and `readObject` over its bytes, with the registry of the application, throws,
for `classReadFrom` is not implemented. -/
theorem registered_classes_without_roundtrip :
    (BinaryWriteArchive.writeObject (Obj.vtable Application.mObjectFactory 2)
      (some (.SimulationRequestMessage false none)) BinaryWriteArchive.new).1
        = .error .notImplemented ∧
    Application.mObjectFactory.findPrototype (lit "net.SimulationRequestMessage")
      = some (.SimulationRequestMessage false (some (.blackScholes simulation.BlackScholes.new))) ∧
    Application.mObjectFactory.findPrototype (lit "simulation.SimulationResult")
      = some (.SimulationResult []) ∧
    (BinaryWriteArchive.writeObject (Obj.vtable Application.mObjectFactory 2)
      (some (.SimulationResult [])) BinaryWriteArchive.new).1 = .ok () ∧
    (BinaryReadArchive.readObject (Obj.vtable Application.mObjectFactory 2)
      Application.mObjectFactory
      { mData := (BinaryWriteArchive.writeObject (Obj.vtable Application.mObjectFactory 2)
          (some (.SimulationResult [])) BinaryWriteArchive.new).2.getData
        mLength := 43
        mPosition := 0 }).1 = .error .notImplemented := by
  refine ⟨?_, ?_, ?_, ?_, ?_⟩
  · decide
  · decide
  · decide
  · decide
  · decide

/-- C6. `createObject(h)` goes through the tokens that `StringTokenizer` cuts `h` into,
which are the segments of `h` between the commas, in their order: it returns a new
instance made by the prototype stored under the first token that is a key of the registry,
whatever tokens follow it, and it returns `NULL` exactly when no token is a key. -/
theorem createObject_first_registered_token {σ : Type} (V : Serializable σ)
    (f : DefaultObjectFactory σ) (h : CString) :
    StringTokenizer.new h (lit ",")
      = .ok { mPos := 0, mTokens := StringTokenizer.split 44 h [] } ∧
    (∀ pre t post p, StringTokenizer.split 44 h [] = pre ++ t :: post →
      (∀ u ∈ pre, f.findPrototype u = none) → f.findPrototype t = some p →
      f.createObject V h = .ok (some (V.createInstance p))) ∧
    ((∀ t ∈ StringTokenizer.split 44 h [], f.findPrototype t = none)
      ↔ f.createObject V h = .ok none) := by
  have ht : StringTokenizer.new h (lit ",")
      = .ok { mPos := 0, mTokens := StringTokenizer.split 44 h [] } :=
    StringTokenizer.new_eq_split h 44
  have hc := DefaultObjectFactory.createObject_eq V f h _ ht
  refine ⟨ht, ?_, ?_⟩
  · intro pre t post p hsplit hpre hhit
    rw [hc, hsplit, DefaultObjectFactory.firstRegistered_hit f pre post t p hpre hhit]
    rfl
  · rw [hc, ← DefaultObjectFactory.firstRegistered_eq_none]
    constructor
    · intro h0; rw [h0]; rfl
    · intro h0
      cases hfr : f.firstRegistered (StringTokenizer.split 44 h []) with
      | none => rfl
      | some p => rw [hfr] at h0; simp at h0

theorem createObject_first_registered_token_witness :
    DefaultObjectFactory.createObject scenario.plantsApple
        { mPrototypes := [(lit "plants.Apple", ())] }
        (lit "plants.GrannySmith,plants.Apple,plants.Fruit") = .ok (some ()) ∧
    DefaultObjectFactory.createObject scenario.plantsApple
        { mPrototypes := [(lit "plants.Apple", ())] }
        (lit "plants.GrannySmith,plants.Fruit") = .ok none :=
  ⟨(createObject_first_registered_token scenario.plantsApple
      { mPrototypes := [(lit "plants.Apple", ())] }
      (lit "plants.GrannySmith,plants.Apple,plants.Fruit")).2.1
      [lit "plants.GrannySmith"] (lit "plants.Apple") [lit "plants.Fruit"] () (by decide)
      (by decide) (by decide),
   (createObject_first_registered_token scenario.plantsApple
      { mPrototypes := [(lit "plants.Apple", ())] }
      (lit "plants.GrannySmith,plants.Fruit")).2.2.mp (by decide)⟩

/-- C7, as the code has it. `registerPrototype(p)` throws and leaves the registry as it
was if the hierarchy of `p` is empty. Otherwise it takes the hierarchy with every `::`
replaced by a dot, cuts it at the commas, and stores `p` under every token that is not
empty; every other key keeps the prototype it had, or stays absent. -/
theorem registerPrototype_indexes_dotted_tokens {σ : Type} (V : Serializable σ) (p : σ)
    (f : DefaultObjectFactory σ) :
    (V.getClassHierarchy p = [] →
      f.registerPrototype V p = (.error .invalidClassHierarchy, f)) ∧
    (V.getClassHierarchy p ≠ [] →
      ∃ f1, f.registerPrototype V p = (.ok (), f1) ∧
        ∀ key, f1.findPrototype key
          = if key ∈ StringTokenizer.split 44 (regex_replace (V.getClassHierarchy p)) []
              ∧ key ≠ [] then some p
            else f.findPrototype key) := by
  constructor
  · intro h
    unfold DefaultObjectFactory.registerPrototype
    simp [h, regex_replace]
  · intro h
    have ht : StringTokenizer.new (regex_replace (V.getClassHierarchy p)) (lit ",")
        = .ok { mPos := 0,
                mTokens := StringTokenizer.split 44 (regex_replace (V.getClassHierarchy p)) [] } :=
      StringTokenizer.new_eq_split _ 44
    refine ⟨DefaultObjectFactory.assignAll p
      (StringTokenizer.split 44 (regex_replace (V.getClassHierarchy p)) []) f, ?_, ?_⟩
    · unfold DefaultObjectFactory.registerPrototype
      have hne : ¬ (regex_replace (V.getClassHierarchy p)).length = 0 := by
        intro h0
        exact h ((regex_replace_eq_nil _).mp (List.length_eq_zero.mp h0))
      simp only [hne, if_false, ht]
      rw [DefaultObjectFactory.registerLoop_eq p _ _ 0 f (by omega), List.drop_zero]
    · intro key
      exact DefaultObjectFactory.findPrototype_assignAll p key _ f

theorem registerPrototype_indexes_dotted_tokens_witness :
    scenario.plantsApple.getClassHierarchy () ≠ [] ∧
    StringTokenizer.split 44 (regex_replace (scenario.plantsApple.getClassHierarchy ())) []
      = [lit "plants.Apple"] ∧
    ∃ f1, DefaultObjectFactory.registerPrototype scenario.plantsApple ()
        { mPrototypes := [(lit "plants.Pear", ())] } = (.ok (), f1) ∧
      ∀ key, f1.findPrototype key
        = if key ∈ StringTokenizer.split 44
              (regex_replace (scenario.plantsApple.getClassHierarchy ())) [] ∧ key ≠ []
            then some ()
          else DefaultObjectFactory.findPrototype { mPrototypes := [(lit "plants.Pear", ())] } key :=
  ⟨by decide, by decide,
    (registerPrototype_indexes_dotted_tokens scenario.plantsApple ()
      { mPrototypes := [(lit "plants.Pear", ())] }).2 (by decide)⟩

/-- C7 as stated fails. The hierarchy `plants::Apple` has the one token `plants::Apple`;
after `registerPrototype` on an empty registry that token is not a key, and the key
`plants.Apple`, which is not a token of the hierarchy, has changed. -/
theorem registerPrototype_colon_token_not_key :
    StringTokenizer.new (scenario.plantsApple.getClassHierarchy ()) (lit ",")
      = .ok { mPos := 0, mTokens := [lit "plants::Apple"] } ∧
    (DefaultObjectFactory.registerPrototype scenario.plantsApple () { mPrototypes := [] }).1 = .ok () ∧
    (DefaultObjectFactory.registerPrototype scenario.plantsApple () { mPrototypes := [] }).2.findPrototype
      (lit "plants::Apple") = none ∧
    DefaultObjectFactory.findPrototype ({ mPrototypes := [] } : DefaultObjectFactory Unit)
      (lit "plants.Apple") = none ∧
    (DefaultObjectFactory.registerPrototype scenario.plantsApple () { mPrototypes := [] }).2.findPrototype
      (lit "plants.Apple") = some () :=
  ⟨rfl, rfl, rfl, rfl, rfl⟩

/-- C9. A class layer that was written with fields the reader does not know: the reader
knows the int members `known`, and the body holds them followed by any further bytes
`extra`. `readFrom` returns the object with the known members as they were written and
throws nothing; the archive around the layer has moved by 4 and the size of the body, so
that what follows the layer is what is read next. -/
theorem readFrom_discards_unread_fields (class_name : CString) (known : List Int)
    (hk : ∀ v ∈ known, IsInt32 v) (extra rest : List Nat) (self : List Int)
    (archive : BinaryReadArchive) (hwf : archive.WF)
    (hd : archive.mData.drop archive.mPosition.toNat
      = encString (scenario.encode known ++ extra) ++ rest) :
    (scenario.vtable class_name known.length).readFrom self archive
      = (.ok known, { archive with
          mPosition := archive.mPosition + 4 + (scenario.encode known ++ extra).length }) ∧
    archive.mData.drop
      (archive.mPosition + 4 + (scenario.encode known ++ extra).length).toNat = rest := by
  have hlen := hwf.len
  have hsm := hwf.small
  have hlo := hwf.lo
  have hdl := congrArg List.length hd
  simp only [List.length_drop, List.length_append, encString, be32, List.length_cons,
    List.length_nil] at hdl
  have hlayer := AQLIB_IMPLEMENT_SERIAL.readFrom_layer Serializable.rootReadFrom
    (fun _ a => scenario.classReadFrom known.length a) self archive self archive
    (scenario.encode known ++ extra) rest rfl hwf hd
  have hbody := scenario.classReadFrom_ok known
    (BinaryReadArchive.mk (scenario.encode known ++ extra)
      ((scenario.encode known ++ extra).length : Nat) 0) extra hk
    ⟨rfl, le_refl _, by simp only [List.length_append]; omega,
      by simp only [List.length_append]; omega⟩ rfl
  refine ⟨?_, (BinaryReadArchive.readString_ok archive hwf _ rest hd).2.2⟩
  show AQLIB_IMPLEMENT_SERIAL.readFrom Serializable.rootReadFrom
    (fun _ a => scenario.classReadFrom known.length a) self archive = _
  rw [hlayer, hbody]

theorem readFrom_discards_unread_fields_witness :
    (scenario.vtable (lit "ns::Derived") 1).readFrom [0]
        { mData := [0, 0, 0, 8, 0, 0, 0, 7, 0, 0, 0, 9, 0, 0, 0, 1], mLength := 16,
          mPosition := 0 }
      = (.ok [7],
          { mData := [0, 0, 0, 8, 0, 0, 0, 7, 0, 0, 0, 9, 0, 0, 0, 1], mLength := 16,
            mPosition := 12 }) ∧
    List.drop 12 [0, 0, 0, 8, 0, 0, 0, 7, 0, 0, 0, 9, 0, 0, 0, 1] = [0, 0, 0, 1] :=
  readFrom_discards_unread_fields (lit "ns::Derived") [7] (by decide) [0, 0, 0, 9] [0, 0, 0, 1]
    [0] (BinaryReadArchive.mk [0, 0, 0, 8, 0, 0, 0, 7, 0, 0, 0, 9, 0, 0, 0, 1] 16 0)
    ⟨rfl, by decide, by decide, by decide⟩ rfl

/-- C10. The `readFrom` that the macro generates, for any base class and any
`classReadFrom`: an exception of the base `readFrom` is passed on; if the base returns
and the archive has nothing left, `readFrom` returns the object and the archive as the base
left them, whatever `classReadFrom` is; if the next bytes are a string, `readFrom` returns
what `classReadFrom` makes of the object on an archive over exactly the bytes of that
string, and the archive has moved past that string and no further. -/
theorem readFrom_reads_one_layer {σ : Type}
    (baseReadFrom classReadFrom : σ → BinaryReadArchive → Except Exception σ × BinaryReadArchive)
    (self : σ) (archive : BinaryReadArchive) :
    (∀ e a1, baseReadFrom self archive = (.error e, a1) →
      AQLIB_IMPLEMENT_SERIAL.readFrom baseReadFrom classReadFrom self archive = (.error e, a1)) ∧
    (∀ s1 a1, baseReadFrom self archive = (.ok s1, a1) → a1.available = 0 →
      AQLIB_IMPLEMENT_SERIAL.readFrom baseReadFrom classReadFrom self archive = (.ok s1, a1)) ∧
    (∀ s1 a1 body rest, baseReadFrom self archive = (.ok s1, a1) → a1.WF →
      a1.mData.drop a1.mPosition.toNat = encString body ++ rest →
      AQLIB_IMPLEMENT_SERIAL.readFrom baseReadFrom classReadFrom self archive
        = ((classReadFrom s1 { mData := body, mLength := body.length, mPosition := 0 }).1,
            { a1 with mPosition := a1.mPosition + 4 + body.length }) ∧
      a1.mData.drop (a1.mPosition + 4 + body.length).toNat = rest) := by
  refine ⟨?_, ?_, ?_⟩
  · intro e a1 hb
    exact AQLIB_IMPLEMENT_SERIAL.readFrom_base_error _ _ _ _ _ _ hb
  · intro s1 a1 hb h0
    exact AQLIB_IMPLEMENT_SERIAL.readFrom_no_data _ _ _ _ _ _ hb (by omega)
  · intro s1 a1 body rest hb hwf hd
    exact ⟨AQLIB_IMPLEMENT_SERIAL.readFrom_layer _ _ _ _ _ _ body rest hb hwf hd,
      (BinaryReadArchive.readString_ok a1 hwf body rest hd).2.2⟩

theorem readFrom_reads_one_layer_witness :
    AQLIB_IMPLEMENT_SERIAL.readFrom Serializable.rootReadFrom
        (fun _ a => scenario.classReadFrom 1 a) [0]
        { mData := [0, 0, 0, 4, 0, 0, 0, 7], mLength := 8, mPosition := 8 }
      = (.ok [0], { mData := [0, 0, 0, 4, 0, 0, 0, 7], mLength := 8, mPosition := 8 }) ∧
    AQLIB_IMPLEMENT_SERIAL.readFrom Serializable.rootReadFrom
        (fun _ a => scenario.classReadFrom 1 a) [0]
        { mData := [0, 0, 0, 4, 0, 0, 0, 7, 1, 2], mLength := 10, mPosition := 0 }
      = (.ok [7], { mData := [0, 0, 0, 4, 0, 0, 0, 7, 1, 2], mLength := 10, mPosition := 8 }) :=
  ⟨(readFrom_reads_one_layer Serializable.rootReadFrom (fun _ a => scenario.classReadFrom 1 a)
      [0] { mData := [0, 0, 0, 4, 0, 0, 0, 7], mLength := 8, mPosition := 8 }).2.1
      [0] _ rfl (by decide),
   ((readFrom_reads_one_layer Serializable.rootReadFrom (fun _ a => scenario.classReadFrom 1 a)
      [0] { mData := [0, 0, 0, 4, 0, 0, 0, 7, 1, 2], mLength := 10, mPosition := 0 }).2.2
      [0] _ [0, 0, 0, 7] [1, 2] rfl ⟨rfl, by decide, by decide, by decide⟩ rfl).1⟩

/-- C12. An archive whose next bytes are a string that holds an object frame, the hierarchy
string `h` followed by a body: if no segment of `h` between commas is a key of the
registry, `readObject` throws the unknown-type exception and so returns no object. And for
every archive whose next bytes are a string, whatever it holds, `readObject` returns `NULL`
exactly when the length of that string, the prefix of the frame, is 0. -/
theorem readObject_unknown_type {σ : Type} (V : Serializable σ) (f : DefaultObjectFactory σ)
    (a : BinaryReadArchive) (hwf : a.WF) :
    (∀ h body rest : List Nat,
      a.mData.drop a.mPosition.toNat
        = be32 ((be32 (h.length : Int) ++ h ++ body).length : Int)
          ++ (be32 (h.length : Int) ++ h ++ body) ++ rest →
      (∀ t ∈ StringTokenizer.split 44 h [], f.findPrototype t = none) →
      (BinaryReadArchive.readObject V f a).1 = .error .unknownType) ∧
    (∀ data rest : List Nat,
      a.mData.drop a.mPosition.toNat = be32 (data.length : Int) ++ data ++ rest →
      ((BinaryReadArchive.readObject V f a).1 = .ok none ↔ data.length = 0)) := by
  constructor
  · intro h body rest hd hno
    rw [readObject_frame V f a hwf h body rest hd,
      DefaultObjectFactory.createObject_eq V f h _ (StringTokenizer.new_eq_split h 44),
      (DefaultObjectFactory.firstRegistered_eq_none f _).mpr hno]
    rfl
  · intro data rest hd
    rw [BinaryReadArchive.readObject_null_iff V f a hwf data rest hd, List.length_eq_zero]

theorem readObject_unknown_type_witness :
    (BinaryReadArchive.readObject scenario.plantsApple { mPrototypes := [(lit "net.Ping", ())] }
      { mData := be32 12 ++ (be32 8 ++ lit "net.Pong"), mLength := 16, mPosition := 0 }).1
      = .error .unknownType ∧
    ((BinaryReadArchive.readObject scenario.plantsApple { mPrototypes := [(lit "net.Ping", ())] }
      { mData := be32 12 ++ (be32 8 ++ lit "net.Pong"), mLength := 16, mPosition := 0 }).1
      = .ok none ↔ (be32 8 ++ lit "net.Pong").length = 0) :=
  ⟨(readObject_unknown_type scenario.plantsApple { mPrototypes := [(lit "net.Ping", ())] }
      { mData := be32 12 ++ (be32 8 ++ lit "net.Pong"), mLength := 16, mPosition := 0 }
      (wf_ofData (be32 12 ++ (be32 8 ++ lit "net.Pong")) (by decide))).1
      (lit "net.Pong") [] [] (by decide) (by decide),
   (readObject_unknown_type scenario.plantsApple { mPrototypes := [(lit "net.Ping", ())] }
      { mData := be32 12 ++ (be32 8 ++ lit "net.Pong"), mLength := 16, mPosition := 0 }
      (wf_ofData (be32 12 ++ (be32 8 ++ lit "net.Pong")) (by decide))).2
      (be32 8 ++ lit "net.Pong") [] (by decide)⟩

/-- C13 fails. A read archive over the four bytes `7F FF FF FF`: `readString` reads the
length 2147483647; the `int` sum `mPosition + length`, 4 + 2147483647, taken modulo 2^32
is -2147483645, which is not above `mLength`, so the end-of-stream exception is not
thrown, and the cursor is left at -2147483645. With the bytes 1, 2, 3 in the memory behind
the four bytes of the archive, what `readString` returns begins with them. A length
prefix 5 over three bytes, where the sum does not wrap, does give the end-of-stream
exception. -/
theorem readString_length_sum_wraps :
    (BinaryReadArchive.readString
      { mData := [127, 255, 255, 255], mLength := 4, mPosition := 0 }).1 ≠ .error .endOfStream ∧
    (BinaryReadArchive.readString
      { mData := [127, 255, 255, 255], mLength := 4, mPosition := 0 }).2.mPosition
      = -2147483645 ∧
    BinaryReadArchive.new [127, 255, 255, 255, 1, 2, 3] 4
      = .ok { mData := [127, 255, 255, 255, 1, 2, 3], mLength := 4, mPosition := 0 } ∧
    (∃ data, (BinaryReadArchive.readString
        { mData := [127, 255, 255, 255, 1, 2, 3], mLength := 4, mPosition := 0 }).1 = .ok data ∧
      data.take 3 = [1, 2, 3]) ∧
    BinaryReadArchive.readString { mData := [0, 0, 0, 5, 1, 2, 3], mLength := 7, mPosition := 0 }
      = (.error .endOfStream, { mData := [0, 0, 0, 5, 1, 2, 3], mLength := 7, mPosition := 4 }) :=
  ⟨by decide, by decide, by decide, ⟨[1, 2, 3], by decide, by decide⟩, by decide⟩

/-- C14. An archive whose next four bytes are the pattern of a negative `int32_t`:
`readString` throws (the exception of `std::string::resize`), and so do `readObject` and
the `readFrom` that the macro generates when the base has left the archive there. No
string is returned; the cursor is left behind the four bytes, which is neither before where
it was nor past the length of the archive. -/
theorem readString_negative_length_throws {σ : Type} (V : Serializable σ)
    (f : DefaultObjectFactory σ) (a : BinaryReadArchive) (hwf : a.WF) (v : Int) (hv : IsInt32 v)
    (hneg : v < 0) (rest : List Nat)
    (hd : a.mData.drop a.mPosition.toNat = be32 v ++ rest) :
    BinaryReadArchive.readString a
      = (.error .lengthError, { a with mPosition := a.mPosition + 4 }) ∧
    BinaryReadArchive.readObject V f a
      = (.error .lengthError, { a with mPosition := a.mPosition + 4 }) ∧
    (∀ (base cr : σ → BinaryReadArchive → Except Exception σ × BinaryReadArchive)
        (self s1 : σ) (archive : BinaryReadArchive), base self archive = (.ok s1, a) →
      AQLIB_IMPLEMENT_SERIAL.readFrom base cr self archive
        = (.error .lengthError, { a with mPosition := a.mPosition + 4 })) ∧
    a.mPosition ≤ a.mPosition + 4 ∧ a.mPosition + 4 ≤ a.mLength := by
  obtain ⟨e, hle⟩ := BinaryReadArchive.readString_negative a hwf v hv hneg rest hd
  refine ⟨e, ?_, ?_, by omega, hle⟩
  · unfold BinaryReadArchive.readObject
    rw [e]
  · intro base cr self s1 archive hb
    have hlo := hwf.lo
    have hsm := hwf.small
    have hav : a.available > 0 := by
      unfold BinaryReadArchive.available
      rw [toInt32_of_isInt32 _ (by unfold IsInt32; omega)]
      omega
    unfold AQLIB_IMPLEMENT_SERIAL.readFrom
    rw [hb]
    simp only [BinaryReadArchive.hasMoreData, hav, decide_True, Bool.not_true]
    rw [e]
    simp

theorem readString_negative_length_throws_witness :
    IsInt32 (-1) ∧ (-1 : Int) < 0 ∧
    BinaryReadArchive.readString { mData := [255, 255, 255, 255, 7], mLength := 5, mPosition := 0 }
      = (.error .lengthError, { mData := [255, 255, 255, 255, 7], mLength := 5, mPosition := 4 }) ∧
    BinaryReadArchive.readObject scenario.plantsApple { mPrototypes := [] }
        { mData := [255, 255, 255, 255, 7], mLength := 5, mPosition := 0 }
      = (.error .lengthError, { mData := [255, 255, 255, 255, 7], mLength := 5, mPosition := 4 }) := by
  have h := readString_negative_length_throws scenario.plantsApple { mPrototypes := [] }
    { mData := [255, 255, 255, 255, 7], mLength := 5, mPosition := 0 }
    (wf_ofData [255, 255, 255, 255, 7] (by decide)) (-1) (by decide) (by decide) [7] (by decide)
  exact ⟨by decide, by decide, h.1, h.2.1⟩

/-- C17. `writeObject` with `NULL` on an archive that has room appends the four bytes
`00 00 00 00` and nothing else. `readObject` on an archive whose next four bytes are these
returns `NULL`, throws nothing and moves the cursor by 4, whatever the object factory
holds. -/
theorem null_object_four_zero_bytes {σ : Type} (V : Serializable σ) (f : DefaultObjectFactory σ)
    (a : BinaryWriteArchive) (h : a.WF)
    (hp : a.mPosition + 4 < BinaryWriteArchive.MAXIMUM_ARCHIVE_SIZE)
    (r : BinaryReadArchive) (hr : r.WF) (rest : List Nat)
    (hd : r.mData.drop r.mPosition.toNat = [0, 0, 0, 0] ++ rest) :
    (∃ a1, BinaryWriteArchive.writeObject V none a = (.ok (), a1) ∧ a1.size = a.size + 4 ∧
      a1.getData = a.getData ++ [0, 0, 0, 0]) ∧
    BinaryReadArchive.readObject V f r = (.ok none, { r with mPosition := r.mPosition + 4 }) := by
  constructor
  · obtain ⟨a1, e, _, p, d⟩ := BinaryWriteArchive.writeString_ok [] a h (by simpa using hp)
    refine ⟨a1, ?_, ?_, ?_⟩
    · unfold BinaryWriteArchive.writeObject
      simp only [getData_new]
      exact e
    · unfold BinaryWriteArchive.size; rw [p]; rfl
    · rw [d, List.append_nil]; rfl
  · obtain ⟨e, _, _⟩ := BinaryReadArchive.readString_ok r hr [] rest (by rw [hd]; rfl)
    unfold BinaryReadArchive.readObject
    rw [e]
    simp

theorem null_object_four_zero_bytes_witness :
    (∃ a1, BinaryWriteArchive.writeObject scenario.plantsApple none BinaryWriteArchive.new
        = (.ok (), a1) ∧ a1.size = 4 ∧ a1.getData = [0, 0, 0, 0]) ∧
    BinaryReadArchive.readObject scenario.plantsApple { mPrototypes := [(lit "plants.Apple", ())] }
        { mData := [0, 0, 0, 0], mLength := 4, mPosition := 0 }
      = (.ok none, { mData := [0, 0, 0, 0], mLength := 4, mPosition := 4 }) :=
  null_object_four_zero_bytes scenario.plantsApple { mPrototypes := [(lit "plants.Apple", ())] }
    BinaryWriteArchive.new BinaryWriteArchive.wf_new (by decide)
    { mData := [0, 0, 0, 0], mLength := 4, mPosition := 0 } (wf_ofData [0, 0, 0, 0] (by decide)) []
    (by decide)

/-- C18. On an archive with room for four bytes, `writeBool(true)` appends `00 00 00 01` and
`writeBool(false)` appends `00 00 00 00`. `readBool` on an archive whose next four bytes
are the pattern of an `int32_t` `v` returns true if `v` is not 0, whatever else `v` is, and
false if it is 0. What `writeBool(b)` leaves in a fresh archive, `readBool` reads as `b`,
and nothing is left to read. -/
theorem writeBool_readBool (value : Bool) (a : BinaryWriteArchive) (h : a.WF)
    (hp : a.mPosition + 4 ≤ BinaryWriteArchive.MAXIMUM_ARCHIVE_SIZE)
    (v : Int) (hv : IsInt32 v) (r : BinaryReadArchive) (hr : r.WF) (rest : List Nat)
    (hd : r.mData.drop r.mPosition.toNat = be32 v ++ rest) :
    (∃ a1, BinaryWriteArchive.writeBool value a = (.ok (), a1) ∧ a1.size = a.size + 4 ∧
      a1.getData = a.getData ++ (if value then [0, 0, 0, 1] else [0, 0, 0, 0])) ∧
    BinaryReadArchive.readBool r
      = (.ok (decide (v ≠ 0)), { r with mPosition := r.mPosition + 4 }) ∧
    ∃ w, BinaryWriteArchive.writeBool value BinaryWriteArchive.new = (.ok (), w) ∧
      ∃ r0, BinaryReadArchive.new w.getData w.size = .ok r0 ∧
        ∃ r1, BinaryReadArchive.readBool r0 = (.ok value, r1) ∧ r1.hasMoreData = false := by
  have hv1 : IsInt32 (if value then 1 else 0) := by cases value <;> decide
  have hb : be32 (if value then 1 else 0) = if value then [0, 0, 0, 1] else [0, 0, 0, 0] := by
    cases value <;> rfl
  refine ⟨?_, ?_, ?_⟩
  · obtain ⟨a1, e, _, p, d⟩ := BinaryWriteArchive.writeInt_ok _ hv1 a h hp
    exact ⟨a1, e, p, by rw [d, hb]⟩
  · obtain ⟨e1, _, _⟩ := BinaryReadArchive.readInt_be32 r hr v hv rest hd
    unfold BinaryReadArchive.readBool
    rw [e1]
    by_cases h0 : v = 0 <;> simp [h0]
  · obtain ⟨w, e, _, p, d⟩ := BinaryWriteArchive.writeInt_ok _ hv1 _ BinaryWriteArchive.wf_new
      (by decide)
    rw [getData_new, List.nil_append] at d
    have hsz : w.size = 4 := by
      unfold BinaryWriteArchive.size; rw [p]; rfl
    refine ⟨w, e, _, new_ofData _ _, ?_⟩
    rw [d, hsz]
    have hwf : BinaryReadArchive.WF
        { mData := be32 (if value then 1 else 0), mLength := ((4 : Nat) : Int), mPosition := 0 } :=
      wf_ofData _ (by simp [be32])
    obtain ⟨e1, _, _⟩ := BinaryReadArchive.readInt_be32 _ hwf _ hv1 [] (by simp)
    unfold BinaryReadArchive.readBool
    rw [e1]
    refine ⟨{ mData := be32 (if value then 1 else 0), mLength := ((4 : Nat) : Int),
              mPosition := 0 + 4 }, ?_, ?_⟩
    · cases value <;> simp
    · simp [BinaryReadArchive.hasMoreData, BinaryReadArchive.available]; decide

theorem writeBool_readBool_witness :
    BinaryWriteArchive.new.WF ∧ IsInt32 (-7) ∧
    (∃ a1, BinaryWriteArchive.writeBool true BinaryWriteArchive.new = (.ok (), a1) ∧ a1.size = 4 ∧
      a1.getData = [0, 0, 0, 1]) ∧
    BinaryReadArchive.readBool { mData := [255, 255, 255, 249], mLength := 4, mPosition := 0 }
      = (.ok true, { mData := [255, 255, 255, 249], mLength := 4, mPosition := 4 }) := by
  have h := writeBool_readBool true BinaryWriteArchive.new BinaryWriteArchive.wf_new (by decide)
    (-7) (by decide) { mData := [255, 255, 255, 249], mLength := 4, mPosition := 0 }
    (wf_ofData [255, 255, 255, 249] (by decide)) [] (by decide)
  exact ⟨BinaryWriteArchive.wf_new, by decide, h.1, by simpa using h.2.1⟩

/-- C15. On every archive in a state that the write methods keep, at position `p`:
`writeInt` and `writeBool`, which append 4 bytes, throw the size exception of `growBuffer`
if `p + 4` is above 1,048,576, and `writeString(s)`, which appends `4 + |s|` bytes, throws
it if `p + 4 + |s|` is above 1,048,576. And after every sequence of calls of the write
methods on a new archive, thrown exceptions or not, the archive is in such a state and
`size()` is at most 1,048,576. -/
theorem write_beyond_maximum_throws {σ : Type} (V : Serializable σ) (a : BinaryWriteArchive)
    (h : a.WF) :
    (∀ v : Int, BinaryWriteArchive.MAXIMUM_ARCHIVE_SIZE < a.mPosition + 4 →
      (a.writeInt v).1 = .error .sizeTooBig) ∧
    (∀ b : Bool, BinaryWriteArchive.MAXIMUM_ARCHIVE_SIZE < a.mPosition + 4 →
      (a.writeBool b).1 = .error .sizeTooBig) ∧
    (∀ s : CString, BinaryWriteArchive.MAXIMUM_ARCHIVE_SIZE < a.mPosition + (4 + s.length) →
      (a.writeString s).1 = .error .sizeTooBig) ∧
    (∀ cs : List (BinaryWriteArchive.Call σ),
      (BinaryWriteArchive.calls V cs BinaryWriteArchive.new).WF ∧
      (BinaryWriteArchive.calls V cs BinaryWriteArchive.new).size
        ≤ BinaryWriteArchive.MAXIMUM_ARCHIVE_SIZE ∧
      BinaryWriteArchive.MAXIMUM_ARCHIVE_SIZE = 1048576) := by
  refine ⟨fun v hp => BinaryWriteArchive.writeInt_beyond v a h hp,
    fun b hp => BinaryWriteArchive.writeInt_beyond _ a h hp,
    fun s hp => BinaryWriteArchive.writeString_beyond s a h hp, fun cs => ?_⟩
  have w := BinaryWriteArchive.calls_wf V cs _ BinaryWriteArchive.wf_new
  exact ⟨w, le_trans w.pos w.le_max, rfl⟩

theorem write_beyond_maximum_throws_witness :
    BinaryWriteArchive.WF
      { mData := List.replicate 1048576 0, mLength := 1048576, mPosition := 1048574 } ∧
    BinaryWriteArchive.MAXIMUM_ARCHIVE_SIZE < 1048574 + 4 ∧
    (BinaryWriteArchive.writeInt 7
      { mData := List.replicate 1048576 0, mLength := 1048576, mPosition := 1048574 }).1
      = .error .sizeTooBig :=
  ⟨⟨List.length_replicate 1048576 0, ⟨10, by omega, by norm_num⟩, by decide⟩,
    by simp [BinaryWriteArchive.MAXIMUM_ARCHIVE_SIZE],
    (write_beyond_maximum_throws scenario.plantsApple
      { mData := List.replicate 1048576 0, mLength := 1048576, mPosition := 1048574 }
      ⟨List.length_replicate 1048576 0, ⟨10, by omega, by norm_num⟩, by decide⟩).1 7
      (by simp [BinaryWriteArchive.MAXIMUM_ARCHIVE_SIZE])⟩

/-- C16. A new archive is at position 0 with a buffer of 1,024 bytes. After every sequence
of calls of the write methods on it, thrown exceptions or not: the position, which is a
natural number here, is at most the capacity `mLength`; the capacity is 1,024 doubled at
most ten times, so at most 1,048,576; below 1,048,576 `growBuffer` exactly doubles the
capacity and leaves the position and every byte of the old buffer, so every byte written,
as they were; at 1,048,576 it throws and changes nothing. -/
theorem reachable_archive_invariant {σ : Type} (V : Serializable σ)
    (cs : List (BinaryWriteArchive.Call σ)) :
    BinaryWriteArchive.new.mPosition = 0 ∧ BinaryWriteArchive.new.mLength = 1024 ∧
    (BinaryWriteArchive.calls V cs BinaryWriteArchive.new).mPosition
      ≤ (BinaryWriteArchive.calls V cs BinaryWriteArchive.new).mLength ∧
    (BinaryWriteArchive.calls V cs BinaryWriteArchive.new).mLength ≤ 1048576 ∧
    (BinaryWriteArchive.calls V cs BinaryWriteArchive.new).mData.length
      = (BinaryWriteArchive.calls V cs BinaryWriteArchive.new).mLength ∧
    (∃ k, k ≤ 10 ∧ (BinaryWriteArchive.calls V cs BinaryWriteArchive.new).mLength = 1024 * 2 ^ k) ∧
    ((BinaryWriteArchive.calls V cs BinaryWriteArchive.new).mLength < 1048576 →
      ∃ a1, (BinaryWriteArchive.calls V cs BinaryWriteArchive.new).growBuffer = (.ok (), a1) ∧
        a1.mLength = 2 * (BinaryWriteArchive.calls V cs BinaryWriteArchive.new).mLength ∧
        a1.mPosition = (BinaryWriteArchive.calls V cs BinaryWriteArchive.new).mPosition ∧
        a1.mData.take (BinaryWriteArchive.calls V cs BinaryWriteArchive.new).mLength
          = (BinaryWriteArchive.calls V cs BinaryWriteArchive.new).mData ∧
        a1.getData = (BinaryWriteArchive.calls V cs BinaryWriteArchive.new).getData) ∧
    ((BinaryWriteArchive.calls V cs BinaryWriteArchive.new).mLength = 1048576 →
      (BinaryWriteArchive.calls V cs BinaryWriteArchive.new).growBuffer
        = (.error .sizeTooBig, BinaryWriteArchive.calls V cs BinaryWriteArchive.new)) := by
  have w := BinaryWriteArchive.calls_wf V cs _ BinaryWriteArchive.wf_new
  generalize BinaryWriteArchive.calls V cs BinaryWriteArchive.new = a at w
  have hM : BinaryWriteArchive.MAXIMUM_ARCHIVE_SIZE = 1048576 := rfl
  have hmax := w.le_max
  obtain ⟨k, hk, hc⟩ := w.cap
  refine ⟨rfl, rfl, w.pos, by omega, w.len, ⟨k, hk, hc⟩, ?_, ?_⟩
  · intro hlt
    have hk10 : k < 10 := by
      rcases Nat.lt_or_ge k 10 with h1 | h1
      · exact h1
      · exfalso
        have h10 : k = 10 := by omega
        rw [h10] at hc
        norm_num at hc
        omega
    have e := BinaryWriteArchive.growBuffer_ok a k w.len hk10 hc
    refine ⟨_, e, rfl, rfl, ?_, ?_⟩
    · simp only; rw [← w.len, List.take_left]
    · unfold BinaryWriteArchive.getData BinaryWriteArchive.size
      simp only
      rw [List.take_append_of_le_length (by rw [w.len]; exact w.pos)]
  · intro hfull
    exact BinaryWriteArchive.growBuffer_full a (by omega)

theorem reachable_archive_invariant_witness :
    (BinaryWriteArchive.calls scenario.plantsApple [.writeInt 7, .writeString (lit "ab")]
      BinaryWriteArchive.new).mLength < 1048576 ∧
    ∃ a1, (BinaryWriteArchive.calls scenario.plantsApple [.writeInt 7, .writeString (lit "ab")]
        BinaryWriteArchive.new).growBuffer = (.ok (), a1) ∧
      a1.mLength = 2 * (BinaryWriteArchive.calls scenario.plantsApple
        [.writeInt 7, .writeString (lit "ab")] BinaryWriteArchive.new).mLength ∧
      a1.mPosition = (BinaryWriteArchive.calls scenario.plantsApple
        [.writeInt 7, .writeString (lit "ab")] BinaryWriteArchive.new).mPosition ∧
      a1.mData.take (BinaryWriteArchive.calls scenario.plantsApple
        [.writeInt 7, .writeString (lit "ab")] BinaryWriteArchive.new).mLength
        = (BinaryWriteArchive.calls scenario.plantsApple
          [.writeInt 7, .writeString (lit "ab")] BinaryWriteArchive.new).mData ∧
      a1.getData = (BinaryWriteArchive.calls scenario.plantsApple
        [.writeInt 7, .writeString (lit "ab")] BinaryWriteArchive.new).getData :=
  ⟨by decide,
    (reachable_archive_invariant scenario.plantsApple
      [.writeInt 7, .writeString (lit "ab")]).2.2.2.2.2.2.1 (by decide)⟩

/-- C19 as stated fails. In the registry that `registerPrototype` builds from a prototype
whose hierarchy is `plants::Apple`, `createObject("plants::Apple")` returns `NULL`,
while the same name with `::` replaced by a dot, `plants.Apple`, gives a new instance. -/
theorem createObject_colon_spelling_unresolved :
    regex_replace (lit "plants::Apple") = lit "plants.Apple" ∧
    DefaultObjectFactory.createObject scenario.plantsApple
      (DefaultObjectFactory.registerPrototype scenario.plantsApple () { mPrototypes := [] }).2
      (lit "plants::Apple") = .ok none ∧
    DefaultObjectFactory.createObject scenario.plantsApple
      (DefaultObjectFactory.registerPrototype scenario.plantsApple () { mPrototypes := [] }).2
      (regex_replace (lit "plants::Apple")) = .ok (some ()) :=
  ⟨by decide, by decide, by decide⟩

/-- C19, as the code has it. Only `registerPrototype` replaces `::`; `createObject` looks
every token up as it is spelled. In a registry none of whose keys contains `::`,
`registerPrototype` leaves a registry none of whose keys contains `::`, and
`createObject(h)` finds nothing under a token that contains `::`: it returns what the
first key among the tokens without `::` gives, and `NULL` if every token contains
`::`. -/
theorem createObject_looks_up_as_spelled {σ : Type} (V : Serializable σ)
    (f : DefaultObjectFactory σ) (hkeys : ∀ e ∈ f.mPrototypes, regex_replace e.1 = e.1) :
    (∀ p : σ, ∀ e ∈ (f.registerPrototype V p).2.mPrototypes, regex_replace e.1 = e.1) ∧
    (∀ h : CString, f.createObject V h
      = .ok ((f.firstRegistered ((StringTokenizer.split 44 h []).filter
          (fun t => decide (regex_replace t = t)))).map V.createInstance)) ∧
    (∀ h : CString, (∀ t ∈ StringTokenizer.split 44 h [], regex_replace t ≠ t) →
      f.createObject V h = .ok none) := by
  have hq : ∀ t p, f.findPrototype t = some p → decide (regex_replace t = t) = true := by
    intro t p h
    have := hkeys _ (DefaultObjectFactory.findPrototype_key f t p h)
    simpa using this
  have hc : ∀ h : CString, f.createObject V h
      = .ok ((f.firstRegistered (StringTokenizer.split 44 h [])).map V.createInstance) :=
    fun h => DefaultObjectFactory.createObject_eq V f h _ (StringTokenizer.new_eq_split h 44)
  refine ⟨?_, ?_, ?_⟩
  · intro p
    by_cases h0 : V.getClassHierarchy p = []
    · have e : f.registerPrototype V p = (.error .invalidClassHierarchy, f) := by
        unfold DefaultObjectFactory.registerPrototype
        simp [h0, regex_replace]
      rw [e]; exact hkeys
    · have ht : StringTokenizer.new (regex_replace (V.getClassHierarchy p)) (lit ",")
          = .ok { mPos := 0,
                  mTokens := StringTokenizer.split 44 (regex_replace (V.getClassHierarchy p)) [] } :=
        StringTokenizer.new_eq_split _ 44
      have hne : ¬ (regex_replace (V.getClassHierarchy p)).length = 0 := by
        intro hl
        exact h0 ((regex_replace_eq_nil _).mp (List.length_eq_zero.mp hl))
      have e : f.registerPrototype V p = (.ok (), DefaultObjectFactory.assignAll p
          (StringTokenizer.split 44 (regex_replace (V.getClassHierarchy p)) []) f) := by
        unfold DefaultObjectFactory.registerPrototype
        simp only [hne, if_false, ht]
        rw [DefaultObjectFactory.registerLoop_eq p _ _ 0 f (by omega), List.drop_zero]
      rw [e]
      exact DefaultObjectFactory.keys_assignAll (fun t => regex_replace t = t) p _ f hkeys
        (StringTokenizer.split_fixed 44 (by decide) _ []
          (by simpa using regex_replace_idem (V.getClassHierarchy p)))
  · intro h
    rw [hc h, DefaultObjectFactory.firstRegistered_filter f _ hq]
  · intro h hall
    rw [hc h, (DefaultObjectFactory.firstRegistered_eq_none f _).mpr]
    · rfl
    · intro t ht
      cases hf : f.findPrototype t with
      | none => rfl
      | some p =>
        exfalso
        exact hall t ht (by simpa using hq t p hf)

theorem createObject_looks_up_as_spelled_witness :
    (∀ e ∈ (DefaultObjectFactory.mk [(lit "plants.Apple", ())]).mPrototypes,
      regex_replace e.1 = e.1) ∧
    (∀ t ∈ StringTokenizer.split 44 (lit "plants::GrannySmith,plants::Apple") [],
      regex_replace t ≠ t) ∧
    DefaultObjectFactory.createObject scenario.plantsApple { mPrototypes := [(lit "plants.Apple", ())] }
      (lit "plants::GrannySmith,plants::Apple") = .ok none :=
  ⟨by decide, by decide,
    (createObject_looks_up_as_spelled scenario.plantsApple
      { mPrototypes := [(lit "plants.Apple", ())] } (by decide)).2.2
      (lit "plants::GrannySmith,plants::Apple") (by decide)⟩

/-- C11. The body of the class layer of a `DemoSerializableWithMacros` as a writer that
knows only the first three members leaves it: `IntValue`, `DoubleValue` (as the `float`
pattern on the wire) and `StringValue`, which is what `writeInt`, `writeFloat` and
`writeString` leave in a fresh archive when they fit. `classReadFrom` on an archive over this body, and
`readFrom` on an archive over the layer that holds it, throw nothing and return the object
with these three members set to the values written and with `mTimeValue` and
`mObjectValue` as they were; in an object that the constructor has made these are
`not_a_date_time` and the null pointer. Neither `readTime` nor `readObject` has a part in
the result. -/
theorem classReadFrom_older_writer {τ : Type}
    (timestamp : Int → Int → Int → Int → Int → Int → Int → Except Exception τ)
    (readObject : BinaryReadArchive → Except Exception (Option Obj) × BinaryReadArchive)
    (self : DemoSerializableWithMacros τ) (i d : Int) (hi : IsInt32 i) (hd : IsInt32 d)
    (s : CString) (hs : s.length + 16 < 2147483648) (not_a_date_time : τ) :
    (s.length + 12 < 1048576 → ∃ w, thenWrite (thenWrite (BinaryWriteArchive.writeInt i BinaryWriteArchive.new)
        (BinaryWriteArchive.writeFloat d)) (BinaryWriteArchive.writeString s) = (.ok (), w) ∧
      w.getData = be32 i ++ be32 d ++ encString s) ∧
    DemoSerializableWithMacros.classReadFrom timestamp readObject self
        { mData := be32 i ++ be32 d ++ encString s,
          mLength := ((be32 i ++ be32 d ++ encString s).length : Nat), mPosition := 0 }
      = (.ok { self with mIntValue := i, mDoubleValue := d, mStringValue := s },
          { mData := be32 i ++ be32 d ++ encString s,
            mLength := ((be32 i ++ be32 d ++ encString s).length : Nat),
            mPosition := ((be32 i ++ be32 d ++ encString s).length : Nat) }) ∧
    (DemoSerializableWithMacros.readFrom timestamp readObject self
        { mData := encString (be32 i ++ be32 d ++ encString s),
          mLength := ((encString (be32 i ++ be32 d ++ encString s)).length : Nat),
          mPosition := 0 }).1
      = .ok { self with mIntValue := i, mDoubleValue := d, mStringValue := s } ∧
    (DemoSerializableWithMacros.classReadFrom timestamp readObject
        (DemoSerializableWithMacros.new not_a_date_time)
        { mData := be32 i ++ be32 d ++ encString s,
          mLength := ((be32 i ++ be32 d ++ encString s).length : Nat), mPosition := 0 }).1
      = .ok { mIntValue := i, mDoubleValue := d, mStringValue := s,
              mTimeValue := not_a_date_time, mObjectValue := none } := by
  have hM : BinaryWriteArchive.MAXIMUM_ARCHIVE_SIZE = 1048576 := rfl
  have hbl : (be32 i ++ be32 d ++ encString s).length = 12 + s.length := by
    simp only [List.length_append, length_be32, length_encString]; omega
  have hcr : ∀ self0 : DemoSerializableWithMacros τ,
      DemoSerializableWithMacros.classReadFrom timestamp readObject self0
        { mData := be32 i ++ be32 d ++ encString s,
          mLength := ((be32 i ++ be32 d ++ encString s).length : Nat), mPosition := 0 }
      = (.ok { self0 with mIntValue := i, mDoubleValue := d, mStringValue := s },
          { mData := be32 i ++ be32 d ++ encString s,
            mLength := ((be32 i ++ be32 d ++ encString s).length : Nat),
            mPosition := ((be32 i ++ be32 d ++ encString s).length : Nat) }) := by
    intro self0
    have w0 := wf_ofData (be32 i ++ be32 d ++ encString s) (by rw [hbl]; omega)
    obtain ⟨e1, w1, d1⟩ := BinaryReadArchive.readInt_be32 _ w0 i hi (be32 d ++ encString s)
      (by simp)
    obtain ⟨e2, w2, d2⟩ := BinaryReadArchive.readInt_be32 _ w1 d hd (encString s) d1
    obtain ⟨e3, w3, d3⟩ := BinaryReadArchive.readString_ok _ w2 s []
      (by rw [d2]; simp [encString])
    unfold DemoSerializableWithMacros.classReadFrom
    rw [e1]
    simp only [andThen, BinaryReadArchive.readFloat]
    rw [e2]
    simp only
    rw [e3]
    simp only [BinaryReadArchive.hasMoreData, BinaryReadArchive.available, hbl]
    have hz : toInt32 (((12 + s.length : Nat) : Int) - (0 + 4 + 4 + 4 + (s.length : Int))) = 0 := by
      have : ((12 + s.length : Nat) : Int) - (0 + 4 + 4 + 4 + (s.length : Int)) = 0 := by
        push_cast; ring
      rw [this]; rfl
    rw [hz]
    simp only [gt_iff_lt, lt_self_iff_false, decide_False, Bool.not_false, if_true]
    congr 2
  refine ⟨?_, hcr self, ?_, ?_⟩
  · intro hfit
    obtain ⟨a1, e1, w1, p1, g1⟩ := BinaryWriteArchive.writeInt_ok i hi _ BinaryWriteArchive.wf_new
      (by decide)
    have p0 : BinaryWriteArchive.new.mPosition = 0 := rfl
    obtain ⟨a2, e2, w2, p2, g2⟩ := BinaryWriteArchive.writeInt_ok d hd a1 w1 (by omega)
    obtain ⟨a3, e3, w3, p3, g3⟩ := BinaryWriteArchive.writeString_ok s a2 w2 (by omega)
    refine ⟨a3, ?_, ?_⟩
    · simp only [thenWrite, e1, BinaryWriteArchive.writeFloat, e2, e3]
    · rw [g3, g2, g1, getData_new]
      simp [encString]
  · have w0 := wf_ofData (encString (be32 i ++ be32 d ++ encString s))
      (by rw [length_encString, hbl]; omega)
    unfold DemoSerializableWithMacros.readFrom
    rw [AQLIB_IMPLEMENT_SERIAL.readFrom_layer Serializable.rootReadFrom _ self _ self _
      (be32 i ++ be32 d ++ encString s) [] rfl w0 (by simp [encString])]
    simp only
    rw [hcr self]
  · rw [hcr]
    rfl

theorem classReadFrom_older_writer_witness :
    IsInt32 7 ∧ IsInt32 1065353216 ∧
    (DemoSerializableWithMacros.classReadFrom (fun _ _ _ _ _ _ _ => Except.ok ())
        (BinaryReadArchive.readObject (Obj.vtable Application.mObjectFactory 2)
          Application.mObjectFactory)
        (DemoSerializableWithMacros.new ())
        { mData := be32 7 ++ be32 1065353216 ++ encString (lit "ab"), mLength := 14,
          mPosition := 0 }).1
      = .ok { mIntValue := 7, mDoubleValue := 1065353216, mStringValue := lit "ab",
              mTimeValue := (), mObjectValue := none } :=
  ⟨by decide, by decide,
    (classReadFrom_older_writer (fun _ _ _ _ _ _ _ => Except.ok ())
      (BinaryReadArchive.readObject (Obj.vtable Application.mObjectFactory 2)
        Application.mObjectFactory)
      (DemoSerializableWithMacros.new ()) 7 1065353216 (by decide) (by decide) (lit "ab")
      (by decide) ()).2.2.2⟩

/-- C20. A receiver whose socket brings four bytes next, the big-endian pattern of the
`int32_t` `n`. `process` throws the invalid-size exception exactly when `n < 0` or
`n > 1,048,576`, whatever the socket brings afterwards; it then leaves the socket behind
the four bytes, and `run`, if no stop was requested, calls `connectionClosed` on the owner
and leaves its loop. For every other `n`, if the socket brings `n` more bytes, the packet
that `process` builds has `n + 4` bytes, the four of the header followed by those `n`, and
`process` calls `readObject` on an archive over exactly that packet: it returns without an
exception, having called `messageReceived` with the object if `readObject` returned one,
and nothing on the owner otherwise. -/
theorem process_invalid_size_exactly {σ : Type} (V : Serializable σ)
    (mFactory : DefaultObjectFactory σ) (t : net.ReceiverThread σ) (n : Int) (hn : IsInt32 n)
    (incoming1 : List (Option CString))
    (hh : net.Socket.next 4 t.mSocket.mIncoming = some (be32 n, incoming1)) :
    ((t.process V mFactory).1 = .error .invalidSize ↔ (n < 0 ∨ n > 1048576)) ∧
    (n < 0 ∨ n > 1048576 →
      t.process V mFactory
        = (.error .invalidSize, { t with mSocket := { mIncoming := incoming1 } }) ∧
      (t.mStopRequested = false → ∀ fuel : Nat,
        net.ReceiverThread.run V mFactory (fuel + 1) t
          = .ok { t with mSocket := { mIncoming := incoming1 },
                         mOwner := t.mOwner ++ [.connectionClosed] })) ∧
    (0 ≤ n → n ≤ 1048576 → ∀ (body : CString) (incoming2 : List (Option CString)),
      net.Socket.next n.toNat incoming1 = some (body, incoming2) →
      ((be32 n ++ body).length : Int) = n + 4 ∧
      t.process V mFactory
        = (.ok (),
            match (BinaryReadArchive.readObject V mFactory
              { mData := be32 n ++ body, mLength := n + 4, mPosition := 0 }).1 with
            | .ok (some message) =>
              { t with mSocket := { mIncoming := incoming2 },
                       mOwner := t.mOwner ++ [.messageReceived message] }
            | _ => { t with mSocket := { mIncoming := incoming2 } })) := by
  have hM : BinaryWriteArchive.MAXIMUM_ARCHIVE_SIZE = 1048576 := rfl
  have e1 : net.ReceiverThread.receivePacket (List.replicate 4 0) 0 4 t
      = (.ok (be32 n), { t with mSocket := { mIncoming := incoming1 } }) := by
    unfold net.ReceiverThread.receivePacket
    rw [net.ReceiverThread.receiveLoop_next 4 4 _ 0 t (be32 n) incoming1 (le_refl _)
      (by simp) hh]
    simp
  have e2 : BinaryReadArchive.new (be32 n) (toInt32 ((be32 n).length : Int))
      = .ok { mData := be32 n, mLength := ((4 : Nat) : Int), mPosition := 0 } := by
    rw [length_be32, toInt32_natCast 4 (by omega)]
    exact new_ofData _ _
  have e3 : BinaryReadArchive.readInt
      { mData := be32 n, mLength := ((4 : Nat) : Int), mPosition := 0 }
      = (.ok n, { mData := be32 n, mLength := ((4 : Nat) : Int), mPosition := 0 + 4 }) :=
    (BinaryReadArchive.readInt_be32 _ (wf_ofData (be32 n) (by simp [be32])) n hn []
      (by simp)).1
  have hbad : n < 0 ∨ n > 1048576 → t.process V mFactory
      = (.error .invalidSize, { t with mSocket := { mIncoming := incoming1 } }) := by
    intro hb
    unfold net.ReceiverThread.process
    rw [e1]; simp only; rw [e2]; simp only; rw [e3]; simp only
    rw [hM, if_pos (by exact_mod_cast hb)]
  have hgood : ¬ (n < 0 ∨ n > 1048576) → t.process V mFactory
      = (match net.ReceiverThread.receivePacket (be32 n ++ List.replicate n.toNat 0)
            (be32 n).length n.toNat { t with mSocket := { mIncoming := incoming1 } } with
          | (.error e, t2) => (.error e, t2)
          | (.ok packet, t2) =>
            match BinaryReadArchive.new packet (toInt32 packet.length) with
            | .error e => (.error e, t2)
            | .ok messageArchive =>
              match messageArchive.readObject V mFactory with
              | (.error _, _) => (.ok (), t2)
              | (.ok none, _) => (.ok (), t2)
              | (.ok (some message), _) =>
                (.ok (), { t2 with mOwner := t2.mOwner ++ [.messageReceived message] })) := by
    intro hg
    unfold net.ReceiverThread.process
    rw [e1]; simp only; rw [e2]; simp only; rw [e3]; simp only
    rw [hM, if_neg (by exact_mod_cast hg)]
  refine ⟨⟨?_, fun hb => by rw [hbad hb]⟩, ?_, ?_⟩
  · intro herr
    by_contra hg
    rw [hgood hg] at herr
    revert herr
    split
    · rename_i e t2 hr
      intro herr
      have := net.ReceiverThread.receiveLoop_error n.toNat n.toNat _ _ _ e (le_refl _)
        (by unfold net.ReceiverThread.receivePacket at hr; rw [hr])
      simp only at herr
      rw [this] at herr
      simp at herr
    · rename_i packet t2 hr
      split
      · rename_i e hnew
        intro herr
        unfold BinaryReadArchive.new at hnew
        split at hnew
        · simp only at herr
          injection hnew with hnew
          rw [← hnew] at herr
          simp at herr
        · simp at hnew
      · split <;> intro herr <;> simp at herr
  · intro hb
    refine ⟨hbad hb, fun hs fuel => ?_⟩
    unfold net.ReceiverThread.run
    rw [if_neg (by simp [hs]), hbad hb]
    simp [hs]
  · intro h0 h1 body incoming2 hbody
    have hbl := net.Socket.length_next _ _ _ _ hbody
    have hlen : ((be32 n ++ body).length : Int) = n + 4 := by
      rw [List.length_append, length_be32, hbl]
      push_cast
      rw [Int.toNat_of_nonneg h0]
      ring
    refine ⟨hlen, ?_⟩
    have e4 : net.ReceiverThread.receivePacket (be32 n ++ List.replicate n.toNat 0)
        (be32 n).length n.toNat { t with mSocket := { mIncoming := incoming1 } }
        = (.ok (be32 n ++ body), { t with mSocket := { mIncoming := incoming2 } }) := by
      unfold net.ReceiverThread.receivePacket
      rw [net.ReceiverThread.receiveLoop_next n.toNat n.toNat _ _ _ body incoming2 (le_refl _)
        (by simp [length_be32]) hbody]
      simp [length_be32]
    have e5 : BinaryReadArchive.new (be32 n ++ body) (toInt32 ((be32 n ++ body).length : Int))
        = .ok { mData := be32 n ++ body, mLength := n + 4, mPosition := 0 } := by
      rw [hlen, toInt32_of_isInt32 _ (by unfold IsInt32; omega)]
      unfold BinaryReadArchive.new
      rw [if_neg (by omega)]
    rw [hgood (by omega), e4]
    simp only
    rw [e5]
    simp only
    cases hro : BinaryReadArchive.readObject V mFactory
        { mData := be32 n ++ body, mLength := n + 4, mPosition := 0 } with
    | mk r a1 =>
      cases r with
      | error e => rfl
      | ok o =>
        cases o with
        | none => rfl
        | some message => rfl

theorem process_invalid_size_exactly_witness :
    IsInt32 (-1) ∧
    net.Socket.next 4 [some [255, 255, 255, 255, 5]] = some (be32 (-1), [some [5]]) ∧
    net.ReceiverThread.process scenario.plantsApple { mPrototypes := [] }
        { mStopRequested := false, mSocket := { mIncoming := [some [255, 255, 255, 255, 5]] },
          mOwner := [] }
      = (.error .invalidSize,
          { mStopRequested := false, mSocket := { mIncoming := [some [5]] }, mOwner := [] }) ∧
    net.ReceiverThread.run scenario.plantsApple { mPrototypes := [] } 1
        { mStopRequested := false, mSocket := { mIncoming := [some [255, 255, 255, 255, 5]] },
          mOwner := [] }
      = .ok { mStopRequested := false, mSocket := { mIncoming := [some [5]] },
              mOwner := [.connectionClosed] } :=
  ⟨by decide, by decide,
    ((process_invalid_size_exactly scenario.plantsApple { mPrototypes := [] }
      { mStopRequested := false, mSocket := { mIncoming := [some [255, 255, 255, 255, 5]] },
        mOwner := [] } (-1) (by decide) [some [5]] (by decide)).2.1 (Or.inl (by decide))).1,
    ((process_invalid_size_exactly scenario.plantsApple { mPrototypes := [] }
      { mStopRequested := false, mSocket := { mIncoming := [some [255, 255, 255, 255, 5]] },
        mOwner := [] } (-1) (by decide) [some [5]] (by decide)).2.1 (Or.inl (by decide))).2
      rfl 0⟩

/-- C24. `requestSimulation(r)` on a module whose slot `mSimulationRequest` holds a
request leaves the module as it is, slot, stop flag, shutdown flag and listeners: `r` is
dropped. On a module whose slot is empty it puts `r` into the slot and changes nothing
else. -/
theorem requestSimulation_slot {ρ η : Type} (m : simulation.Module ρ η) (r : Option ρ) :
    (m.mSimulationRequest ≠ none → m.requestSimulation r = m) ∧
    (m.mSimulationRequest = none →
      m.requestSimulation r = { m with mSimulationRequest := r } ∧
      (m.requestSimulation r).mSimulationRequest = r ∧
      (m.requestSimulation r).mSimulationStopRequested = m.mSimulationStopRequested ∧
      (m.requestSimulation r).mShutdownRequested = m.mShutdownRequested ∧
      (m.requestSimulation r).mSimulationListeners = m.mSimulationListeners) := by
  constructor
  · intro h
    unfold simulation.Module.requestSimulation
    cases hs : m.mSimulationRequest with
    | none => exact absurd hs h
    | some x => simp
  · intro h
    unfold simulation.Module.requestSimulation
    simp [h]

theorem requestSimulation_slot_witness :
    (simulation.Module.requestSimulation (some 8)
        ({ mShutdownRequested := false, mSimulationStopRequested := true,
           mSimulationRequest := some 5, mSimulationListeners := [1, 2] } :
          simulation.Module Nat Nat)
      = { mShutdownRequested := false, mSimulationStopRequested := true,
          mSimulationRequest := some 5, mSimulationListeners := [1, 2] }) ∧
    (simulation.Module.requestSimulation (some 8)
        ({ mShutdownRequested := false, mSimulationStopRequested := true,
           mSimulationRequest := none, mSimulationListeners := [1, 2] } :
          simulation.Module Nat Nat)
      = { mShutdownRequested := false, mSimulationStopRequested := true,
          mSimulationRequest := some 8, mSimulationListeners := [1, 2] }) :=
  ⟨(requestSimulation_slot
      ({ mShutdownRequested := false, mSimulationStopRequested := true,
         mSimulationRequest := some 5, mSimulationListeners := [1, 2] } :
        simulation.Module Nat Nat) (some 8)).1 (by decide),
   ((requestSimulation_slot
      ({ mShutdownRequested := false, mSimulationStopRequested := true,
         mSimulationRequest := none, mSimulationListeners := [1, 2] } :
        simulation.Module Nat Nat) (some 8)).2 rfl).1⟩

/-- C25. A module on which shutdown is not requested, after any sequence of
`requestSimulationStop` and `requestSimulation` calls: if the slot then holds a job, the
worker's `waitSimulationRequest` returns that job and leaves the stop flag false, and
`process` calls the job's `simulate` on the module in that state, in which
`isSimulationStopRequested` answers false, whatever stop requests came before. -/
theorem stop_flag_reset_at_pickup {ρ η : Type}
    (simulate : ρ → simulation.Module ρ η → Except Exception Unit × simulation.Module ρ η)
    (m : simulation.Module ρ η) (hs : m.mShutdownRequested = false)
    (cs : List (simulation.Module.Call ρ)) (job : ρ)
    (hj : (simulation.Module.calls cs m).mSimulationRequest = some job) :
    (simulation.Module.calls cs m).waitSimulationRequest
      = (.returned (some job),
          { simulation.Module.calls cs m with mSimulationStopRequested := false }) ∧
    simulation.Module.isSimulationStopRequested
      { simulation.Module.calls cs m with mSimulationStopRequested := false } = false ∧
    (simulation.Module.calls cs m).process simulate
      = (match simulate job
            { simulation.Module.calls cs m with mSimulationStopRequested := false } with
          | (.error e, m2) => (.thrown e, m2)
          | (.ok _, m2) => (.returned (), { m2 with mSimulationRequest := none })) := by
  have hsh : ∀ (cs : List (simulation.Module.Call ρ)) (m : simulation.Module ρ η),
      m.mShutdownRequested = false → (simulation.Module.calls cs m).mShutdownRequested = false := by
    intro cs
    induction cs with
    | nil => intro m h; exact h
    | cons c rest ih =>
      intro m h
      apply ih
      cases c with
      | requestSimulationStop => exact h
      | requestSimulation request =>
        simp only [simulation.Module.call, simulation.Module.requestSimulation]
        split <;> exact h
  have h1 := hsh cs m hs
  generalize simulation.Module.calls cs m = m1 at hj h1 ⊢
  have hw : m1.waitSimulationRequest
      = (.returned (some job), { m1 with mSimulationStopRequested := false }) := by
    unfold simulation.Module.waitSimulationRequest
    simp [hj, h1]
  refine ⟨hw, rfl, ?_⟩
  unfold simulation.Module.process
  rw [hw]

theorem stop_flag_reset_at_pickup_witness :
    (simulation.Module.calls
        [.requestSimulationStop, .requestSimulation (some 5), .requestSimulationStop]
        (simulation.Module.new : simulation.Module Nat Nat)).mSimulationRequest = some 5 ∧
    (simulation.Module.calls
        [.requestSimulationStop, .requestSimulation (some 5), .requestSimulationStop]
        (simulation.Module.new : simulation.Module Nat Nat)).waitSimulationRequest
      = (.returned (some 5),
          { mShutdownRequested := false, mSimulationStopRequested := false,
            mSimulationRequest := some 5, mSimulationListeners := [] }) :=
  ⟨by decide,
    (stop_flag_reset_at_pickup (fun _ m => (.ok (), m))
      (simulation.Module.new : simulation.Module Nat Nat) rfl
      [.requestSimulationStop, .requestSimulation (some 5), .requestSimulationStop] 5
      (by decide)).1⟩

/-- C26 fails. A `SimulationRequest`, whose `simulate` throws, is put into the slot of a
new module. The worker's `process` throws out of `simulate`, before the statement that
empties the slot: after it the slot still holds the request. A `requestSimulation` that
follows is dropped, the next `process` runs the same job again, and `run`, which logs the
exception and goes on, does not come to an end in any number of rounds. -/
theorem process_exception_keeps_job :
    simulation.Module.process (fun _ owner => simulation.SimulationRequest.simulate owner)
        (simulation.Module.requestSimulation (some simulation.SimulationRequest.plain)
          (simulation.Module.new : simulation.Module simulation.SimulationRequest Nat))
      = (.thrown .notImplemented,
          { mShutdownRequested := false, mSimulationStopRequested := false,
            mSimulationRequest := some simulation.SimulationRequest.plain,
            mSimulationListeners := [] }) ∧
    simulation.Module.requestSimulation
        (some (simulation.SimulationRequest.blackScholes simulation.BlackScholes.new))
        ({ mShutdownRequested := false, mSimulationStopRequested := false,
           mSimulationRequest := some simulation.SimulationRequest.plain,
           mSimulationListeners := [] } : simulation.Module simulation.SimulationRequest Nat)
      = { mShutdownRequested := false, mSimulationStopRequested := false,
          mSimulationRequest := some simulation.SimulationRequest.plain,
          mSimulationListeners := [] } ∧
    simulation.Module.process (fun _ owner => simulation.SimulationRequest.simulate owner)
        ({ mShutdownRequested := false, mSimulationStopRequested := false,
           mSimulationRequest := some simulation.SimulationRequest.plain,
           mSimulationListeners := [] } : simulation.Module simulation.SimulationRequest Nat)
      = (.thrown .notImplemented,
          { mShutdownRequested := false, mSimulationStopRequested := false,
            mSimulationRequest := some simulation.SimulationRequest.plain,
            mSimulationListeners := [] }) ∧
    ∀ fuel : Nat,
      simulation.Module.run (fun _ owner => simulation.SimulationRequest.simulate owner) fuel
        ({ mShutdownRequested := false, mSimulationStopRequested := false,
           mSimulationRequest := some simulation.SimulationRequest.plain,
           mSimulationListeners := [] } : simulation.Module simulation.SimulationRequest Nat)
      = (.thrown .outOfFuel,
          { mShutdownRequested := false, mSimulationStopRequested := false,
            mSimulationRequest := some simulation.SimulationRequest.plain,
            mSimulationListeners := [] }) := by
  refine ⟨by decide, by decide, by decide, ?_⟩
  intro fuel
  induction fuel with
  | zero => rfl
  | succ n ih =>
    unfold simulation.Module.run
    simp only [simulation.Module.isShutdownRequested, Bool.false_eq_true, if_false]
    have hp : simulation.Module.process
        (fun _ owner => simulation.SimulationRequest.simulate owner)
        ({ mShutdownRequested := false, mSimulationStopRequested := false,
           mSimulationRequest := some simulation.SimulationRequest.plain,
           mSimulationListeners := [] } : simulation.Module simulation.SimulationRequest Nat)
        = (.thrown .notImplemented,
            { mShutdownRequested := false, mSimulationStopRequested := false,
              mSimulationRequest := some simulation.SimulationRequest.plain,
              mSimulationListeners := [] }) := by decide
    rw [hp]
    exact ih

/-- C28. A list of connections whose ids are pairwise distinct. If a connection has the
id, `processRemoved(id)` takes exactly that connection out of the list, the others staying
in their order, and calls `cleanup` on it and on nothing else, once; a second
`processRemoved(id)` leaves the list as it is and calls no `cleanup`. If no connection has
the id, the list stays as it is and no `cleanup` is called. An exception of `cleanup`
changes none of this. -/
theorem processRemoved_once {κ : Type} (getId : κ → Int) (cleanup : κ → Except Exception Unit)
    (connectionId : Int) (l : List κ) (hd : (l.map getId).Nodup) :
    (∀ (pre post : List κ) (c : κ), l = pre ++ c :: post → getId c = connectionId →
      net.ConnectionManager.processRemoved getId cleanup connectionId { mConnections := l }
        = ({ mConnections := pre ++ post }, [c]) ∧
      net.ConnectionManager.processRemoved getId cleanup connectionId
          { mConnections := pre ++ post }
        = ({ mConnections := pre ++ post }, [])) ∧
    ((∀ c ∈ l, getId c ≠ connectionId) →
      net.ConnectionManager.processRemoved getId cleanup connectionId { mConnections := l }
        = ({ mConnections := l }, [])) := by
  have hnone : ∀ l0 : List κ, (∀ c ∈ l0, getId c ≠ connectionId) →
      net.ConnectionManager.processRemoved getId cleanup connectionId { mConnections := l0 }
        = ({ mConnections := l0 }, []) := by
    intro l0 h
    unfold net.ConnectionManager.processRemoved
    rw [net.ConnectionManager.findAndErase_none getId connectionId l0 h]
  refine ⟨?_, hnone l⟩
  intro pre post c hl hc
  subst hl
  rw [List.map_append, List.map_cons] at hd
  have hpre : ∀ x ∈ pre, getId x ≠ connectionId := by
    intro x hx he
    have hdis := (List.nodup_append.mp hd).2.2
    exact hdis (List.mem_map_of_mem getId hx) (by rw [he, ← hc]; exact List.mem_cons_self _ _)
  have hpost : ∀ x ∈ post, getId x ≠ connectionId := by
    intro x hx he
    have hn := (List.nodup_cons.mp (List.nodup_append.mp hd).2.1).1
    exact hn (by rw [hc, ← he]; exact List.mem_map_of_mem getId hx)
  constructor
  · unfold net.ConnectionManager.processRemoved
    rw [net.ConnectionManager.findAndErase_some getId connectionId c post hc pre hpre]
    simp only
    split <;> rfl
  · apply hnone
    intro x hx
    rcases List.mem_append.mp hx with h | h
    · exact hpre x h
    · exact hpost x h

theorem processRemoved_once_witness :
    ((([3, 5, 9] : List Int).map id).Nodup) ∧
    net.ConnectionManager.processRemoved id (fun _ => .error .notImplemented) 5
        { mConnections := ([3, 5, 9] : List Int) }
      = ({ mConnections := [3, 9] }, [5]) ∧
    net.ConnectionManager.processRemoved id (fun _ => .error .notImplemented) 5
        { mConnections := ([3, 9] : List Int) }
      = ({ mConnections := [3, 9] }, []) :=
  ⟨by decide,
    (processRemoved_once id (fun _ => .error .notImplemented) 5 ([3, 5, 9] : List Int)
      (by decide)).1 [3] [9] 5 rfl rfl⟩

/-- C29, where the code departs from it. The eight bytes `00 00 00 04 7F FF FF FF` are a
well-formed string of `n = 4` bytes. The archive that `readObject` builds on the copy of
those 4 bytes reads the length 2147483647 from them; the sum of its cursor, 4, and that
length wraps, so the bound test of `readString` passes, and the string returned is made
of what the memory holds behind the copy, whatever that is, and of none of the 4 bytes.
It is the type of the object: with the name of a registered class behind the copy
`readObject` returns an instance of that class, with another name there it throws for an
unknown type. The reads inside have left the frame, and the outcome is decided by bytes
outside of it. The cursor of the enclosing archive is moved by `4 + n = 8` all the same. -/
theorem readObject_nested_read_leaves_frame :
    (∀ behind : List Nat,
      BinaryReadArchive.readString
          { mData := [127, 255, 255, 255] ++ behind, mLength := 4, mPosition := 0 }
        = (.ok (behind.take 2147483647),
            { mData := [127, 255, 255, 255] ++ behind, mLength := 4,
              mPosition := -2147483645 })) ∧
    BinaryReadArchive.readObjectWithMemory (lit "aqlib.DemoSerializableNoMacros")
        (Obj.vtable Application.mObjectFactory 1) Application.mObjectFactory
        { mData := [0, 0, 0, 4, 127, 255, 255, 255], mLength := 8, mPosition := 0 }
      = (.ok (some .DemoSerializableNoMacros),
          { mData := [0, 0, 0, 4, 127, 255, 255, 255], mLength := 8, mPosition := 8 }) ∧
    BinaryReadArchive.readObjectWithMemory (lit "simulation.SimulationRequest")
        (Obj.vtable Application.mObjectFactory 1) Application.mObjectFactory
        { mData := [0, 0, 0, 4, 127, 255, 255, 255], mLength := 8, mPosition := 0 }
      = (.ok (some (.SimulationRequest .plain)),
          { mData := [0, 0, 0, 4, 127, 255, 255, 255], mLength := 8, mPosition := 8 }) ∧
    BinaryReadArchive.readObjectWithMemory (lit "net.Pong")
        (Obj.vtable Application.mObjectFactory 1) Application.mObjectFactory
        { mData := [0, 0, 0, 4, 127, 255, 255, 255], mLength := 8, mPosition := 0 }
      = (.error .unknownType,
          { mData := [0, 0, 0, 4, 127, 255, 255, 255], mLength := 8, mPosition := 8 }) := by
  refine ⟨BinaryReadArchive.readString_wrapped, ?_, ?_, ?_⟩
  · decide
  · decide
  · decide

/-- C30. For every text `t` and delimiter of one character `d`, the constructor of
`StringTokenizer` leaves as tokens the segments of `t` between the occurrences of `d`, in
order: the empty text has no tokens; a text without `d` that is not empty is its one
token; and the tokens of a text that goes on with `d` after a segment without `d` are that
segment, empty or not, followed by the tokens of what comes after that `d`, so that
nothing comes after a `d` that ends the text. No token contains `d`. Joined with `d`, the
tokens give `t` without its last character if `t` ends with `d`, and `t` otherwise.
`nextToken` on a tokenizer that has returned `k` of its tokens returns the next one and
goes on to `k + 1`, and throws once all have been returned, where `hasMoreTokens` is
false. -/
theorem tokens_are_segments (t : CString) (d : Nat) :
    StringTokenizer.new t [d] = .ok { mPos := 0, mTokens := StringTokenizer.split d t [] } ∧
    StringTokenizer.split d [] [] = [] ∧
    (∀ s : CString, d ∉ s → s ≠ [] → StringTokenizer.split d s [] = [s]) ∧
    (∀ s rest : CString, d ∉ s →
      StringTokenizer.split d (s ++ d :: rest) [] = s :: StringTokenizer.split d rest []) ∧
    (∀ tok ∈ StringTokenizer.split d t [], d ∉ tok) ∧
    (∀ s : CString, t = s ++ [d] →
      List.intercalate [d] (StringTokenizer.split d t []) = s) ∧
    ((∀ s : CString, t ≠ s ++ [d]) →
      List.intercalate [d] (StringTokenizer.split d t []) = t) ∧
    (∀ (tokens : List CString) (k : Nat) (h : k < tokens.length),
      StringTokenizer.nextToken { mPos := k, mTokens := tokens }
        = (.ok (tokens.get ⟨k, h⟩), { mPos := k + 1, mTokens := tokens }) ∧
      StringTokenizer.hasMoreTokens { mPos := k, mTokens := tokens } = true) ∧
    (∀ tokens : List CString,
      StringTokenizer.nextToken { mPos := tokens.length, mTokens := tokens }
        = (.error .noMoreTokens, { mPos := tokens.length, mTokens := tokens }) ∧
      StringTokenizer.hasMoreTokens { mPos := tokens.length, mTokens := tokens } = false) := by
  refine ⟨StringTokenizer.new_eq_split t d, rfl, ?_, ?_, ?_, ?_, ?_, ?_, ?_⟩
  · intro s hs hne
    rw [StringTokenizer.split_eq, StringTokenizer.firstIndex_none d s hs]
    simp [hne]
  · intro s rest hs
    rw [StringTokenizer.split_eq, StringTokenizer.firstIndex_append d s rest hs]
    simp only [List.reverse_nil, List.nil_append, List.take_left']
    rw [show s.length + 1 = (s ++ [d]).length by simp,
      show s ++ d :: rest = (s ++ [d]) ++ rest by simp, List.drop_left]
  · exact StringTokenizer.split_no_delimiter d t [] (by simp)
  · intro s h
    simpa using (StringTokenizer.intercalate_split d t [] (by simp)).1 s h
  · intro h
    simpa using (StringTokenizer.intercalate_split d t [] (by simp)).2 h
  · intro tokens k h
    constructor
    · unfold StringTokenizer.nextToken
      simp only
      rw [if_neg (by omega)]
      congr 2
      rw [List.getD_eq_getElem _ _ h]
      rfl
    · unfold StringTokenizer.hasMoreTokens
      simpa using h
  · intro tokens
    constructor
    · unfold StringTokenizer.nextToken
      simp
    · unfold StringTokenizer.hasMoreTokens
      simp

theorem tokens_are_segments_witness :
    StringTokenizer.new (lit ",a,,b,") (lit ",")
      = .ok { mPos := 0, mTokens := [[], lit "a", [], lit "b"] } ∧
    List.intercalate (lit ",") [[], lit "a", [], lit "b"] = lit ",a,,b" ∧
    StringTokenizer.nextToken { mPos := 1, mTokens := [[], lit "a", [], lit "b"] }
      = (.ok (lit "a"), { mPos := 2, mTokens := [[], lit "a", [], lit "b"] }) := by
  have h := tokens_are_segments (lit ",a,,b,") 44
  have h6 := h.2.2.2.2.2.1 (lit ",a,,b") (by decide)
  have h8 := (h.2.2.2.2.2.2.2.1 [[], lit "a", [], lit "b"] 1 (by decide)).1
  exact ⟨h.1, h6, h8⟩

/-- C21. A receiver whose socket brings a frame next, the four bytes of a size `n` from 0
to 1,048,576 and `n` more bytes, on which `readObject` throws, be it for an unknown type
or for data that ends early inside: `process` returns without an exception, calls
neither `messageReceived` nor `connectionClosed` and requests no stop, and leaves the
socket at the first byte behind the frame, where the next `process` starts; `run` goes on
with its next round from that state. -/
theorem process_drops_undecodable_frame {σ : Type} (V : Serializable σ)
    (mFactory : DefaultObjectFactory σ) (t : net.ReceiverThread σ) (n : Int) (h0 : 0 ≤ n)
    (h1 : n ≤ 1048576) (body : CString) (incoming1 incoming2 : List (Option CString))
    (hh : net.Socket.next 4 t.mSocket.mIncoming = some (be32 n, incoming1))
    (hbody : net.Socket.next n.toNat incoming1 = some (body, incoming2)) (e : Exception)
    (he : (BinaryReadArchive.readObject V mFactory
      { mData := be32 n ++ body, mLength := n + 4, mPosition := 0 }).1 = .error e) :
    t.process V mFactory = (.ok (), { t with mSocket := { mIncoming := incoming2 } }) ∧
    (t.process V mFactory).2.mOwner = t.mOwner ∧
    (t.process V mFactory).2.mStopRequested = t.mStopRequested ∧
    (t.mStopRequested = false → ∀ fuel : Nat,
      net.ReceiverThread.run V mFactory (fuel + 1) t
        = net.ReceiverThread.run V mFactory fuel
            { t with mSocket := { mIncoming := incoming2 } }) := by
  have hp : t.process V mFactory = (.ok (), { t with mSocket := { mIncoming := incoming2 } }) := by
    rw [net.ReceiverThread.process_packet V mFactory t n h0 h1 body incoming1 incoming2 hh hbody,
      he]
  refine ⟨hp, by rw [hp], by rw [hp], ?_⟩
  intro hs fuel
  conv => lhs; unfold net.ReceiverThread.run
  rw [if_neg (by simp [hs]), hp]

theorem process_drops_undecodable_frame_witness :
    net.Socket.next 4 [some [0, 0, 0, 12, 0, 0], some ([0, 8] ++ lit "net.Pong" ++ [0, 0, 0, 0])]
      = some (be32 12, [some [0, 0], some ([0, 8] ++ lit "net.Pong" ++ [0, 0, 0, 0])]) ∧
    (BinaryReadArchive.readObject scenario.plantsApple { mPrototypes := [(lit "net.Ping", ())] }
      { mData := be32 12 ++ ([0, 0, 0, 8] ++ lit "net.Pong"), mLength := 12 + 4,
        mPosition := 0 }).1 = .error .unknownType ∧
    net.ReceiverThread.process scenario.plantsApple { mPrototypes := [(lit "net.Ping", ())] }
        { mStopRequested := false,
          mSocket := { mIncoming := [some [0, 0, 0, 12, 0, 0],
            some ([0, 8] ++ lit "net.Pong" ++ [0, 0, 0, 0])] },
          mOwner := [] }
      = (.ok (), { mStopRequested := false, mSocket := { mIncoming := [some [0, 0, 0, 0]] },
                   mOwner := [] }) := by
  have h := process_drops_undecodable_frame scenario.plantsApple
    { mPrototypes := [(lit "net.Ping", ())] }
    { mStopRequested := false,
      mSocket := { mIncoming := [some [0, 0, 0, 12, 0, 0],
        some ([0, 8] ++ lit "net.Pong" ++ [0, 0, 0, 0])] },
      mOwner := [] } 12 (by decide) (by decide) ([0, 0, 0, 8] ++ lit "net.Pong")
    [some [0, 0], some ([0, 8] ++ lit "net.Pong" ++ [0, 0, 0, 0])] [some [0, 0, 0, 0]]
    (by decide) (by decide) .unknownType (by decide)
  exact ⟨by decide, by decide, h.1⟩

/-- C22 fails. The frame of a `SimulationRequestMessage` that asks for a stop, with no
request: 48 bytes. The peer closes after 43 of them, the last byte of the stop flag and
the four bytes of the null request missing. `receivePacket` gets the count 0, requests
the stop, calls `connectionClosed` and returns; `process` goes on with the packet as it
is, the five bytes not received being the zeros the buffer was made with, `readObject`
decodes it, and `messageReceived` is called with a message that does not ask for a stop.
The whole frame gives the message that was sent. -/
theorem process_dispatches_incomplete_packet :
    (be32 44 ++ (encString (lit "net.SimulationRequestMessage") ++ encString (be32 1 ++ be32 0))).length
      = 48 ∧
    net.ReceiverThread.process (Obj.vtable Application.mObjectFactory 2) Application.mObjectFactory
        { mStopRequested := false,
          mSocket := { mIncoming := [some ((be32 44 ++ (encString (lit "net.SimulationRequestMessage")
            ++ encString (be32 1 ++ be32 0))).take 43)] },
          mOwner := [] }
      = (.ok (),
          { mStopRequested := true, mSocket := { mIncoming := [] },
            mOwner := [.connectionClosed,
              .messageReceived (Obj.SimulationRequestMessage false none)] }) ∧
    net.ReceiverThread.process (Obj.vtable Application.mObjectFactory 2) Application.mObjectFactory
        { mStopRequested := false,
          mSocket := { mIncoming := [some (be32 44 ++ (encString (lit "net.SimulationRequestMessage")
            ++ encString (be32 1 ++ be32 0)))] },
          mOwner := [] }
      = (.ok (),
          { mStopRequested := false, mSocket := { mIncoming := [] },
            mOwner := [.messageReceived (Obj.SimulationRequestMessage true none)] }) := by
  refine ⟨by decide, ?_, ?_⟩
  · decide
  · decide

/-- C23. In the state of a new `SenderThread` after any sequence of `post`,
`getNextPacket` and `requestStop` calls, the packets posted being of at most
2,136,997,887 bytes each so that the `int` sum `mQueueSize + length` stays an `int`:
`mQueueSize` is the sum of the sizes of the queued packets and is at most
`MAX_QUEUE_SIZE`, 10,485,760. In every such state, for a packet `b` of that size that is
not empty: `post(b)` returns with `b` put at the tail of the queue and `mQueueSize` grown
by its size exactly when `mQueueSize + len(b) ≤ MAX_QUEUE_SIZE` and no stop is requested;
with a stop requested it returns and leaves the queue as it is; otherwise it waits. -/
theorem queue_size_invariant (cs : List net.SenderThread.Call)
    (hcs : ∀ b, net.SenderThread.Call.post b ∈ cs →
      (b.length : Int) ≤ 2147483647 - net.SenderThread.MAX_QUEUE_SIZE) :
    (net.SenderThread.calls cs net.SenderThread.new).WF ∧
    net.SenderThread.MAX_QUEUE_SIZE = 10485760 ∧
    ∀ (t : net.SenderThread) (b : CString), t.WF → 0 < b.length →
      (b.length : Int) ≤ 2147483647 - net.SenderThread.MAX_QUEUE_SIZE →
      (t.post b (b.length : Int)
          = (.returned (), { t with mPackets := t.mPackets ++ [b],
                                    mQueueSize := t.mQueueSize + (b.length : Int) })
        ↔ (t.mQueueSize + (b.length : Int) ≤ net.SenderThread.MAX_QUEUE_SIZE ∧
            t.mStopRequested = false)) ∧
      (t.mStopRequested = true → t.post b (b.length : Int) = (.returned (), t)) ∧
      (t.mQueueSize + (b.length : Int) > net.SenderThread.MAX_QUEUE_SIZE →
        t.mStopRequested = false → t.post b (b.length : Int) = (.waits, t)) := by
  refine ⟨net.SenderThread.queue_calls_wf cs _ net.SenderThread.queue_wf_new hcs, rfl, ?_⟩
  intro t b h h0 hb
  have e := net.SenderThread.post_eq b t h h0 hb
  refine ⟨⟨?_, ?_⟩, ?_, ?_⟩
  · intro hp
    rw [e] at hp
    split at hp
    · simp at hp
    · rename_i h1
      split at hp
      · have hl := congrArg (fun r => r.2.mPackets.length) hp
        simp at hl
      · rename_i h2
        have hs : t.mStopRequested = false := by
          cases hx : t.mStopRequested with
          | false => rfl
          | true => exact absurd hx h2
        refine ⟨?_, hs⟩
        by_contra hgt
        exact h1 ⟨by omega, hs⟩
  · intro hc
    rw [e, if_neg (by intro hx; have := hx.1; omega), if_neg (by simp [hc.2])]
  · intro hs
    rw [e, if_neg (by simp [hs]), if_pos hs]
  · intro hgt hs
    rw [e, if_pos ⟨hgt, hs⟩]

theorem queue_size_invariant_witness :
    (net.SenderThread.calls [.post (lit "abc"), .post (lit "de"), .getNextPacket]
      net.SenderThread.new).WF ∧
    net.SenderThread.calls [.post (lit "abc"), .post (lit "de"), .getNextPacket]
      net.SenderThread.new
      = { mStopRequested := false, mPackets := [lit "de"], mQueueSize := 2 } :=
  ⟨(queue_size_invariant [.post (lit "abc"), .post (lit "de"), .getNextPacket]
      (by
        intro b hb
        simp at hb
        rcases hb with h | h <;> subst h <;> decide)).1,
    by decide⟩

/-- C27 fails. `BlackScholes::simulate` with `mSimulationsCount = 1` and the stop flag
found true in the one round: the loop calls `notifySimulationProgressUpdate(0.0, null)`
and breaks, and the call with the result that follows the loop is made all the same. Two
calls have `percentRemaining == 0.0`, and the last call is not the one with the null
result. With two rounds and the flag never true there is one such call, the last. -/
theorem simulate_stopped_notifies_zero_twice :
    simulation.BlackScholes.simulate 1 (fun _ => Except.ok ()) (fun _ => [(7, 1)])
        (fun _ => true)
      = (.ok (), [{ percentRemaining := 0, result := none },
                  { percentRemaining := 0, result := some [[(7, 1)]] }]) ∧
    simulation.BlackScholes.simulate 2 (fun _ => Except.ok ()) (fun _ => [(7, 1)])
        (fun _ => false)
      = (.ok (), [{ percentRemaining := 0, result := some [[(7, 1)]] }]) := by
  constructor
  · decide
  · decide
